import Mathlib

/-!
Verification of the dive-log core of divelist.c (subsurface).

The definitions below are shallow embeddings of the C functions in
src/divelist.c.  Machine integers are modelled as Int (no overflow is
reachable at the magnitudes involved), C pointers as identifiers
(Nat), NULL-able strings as Option String, and the intrusive
doubly-linked trip membership list as the list of member dive
identifiers in chain order (head first); the C code unlinks a dive in
O(1) through its stored back-pointer, which under the structural
well-formedness used throughout is exactly removal of the dive from
its chain.
-/

set_option maxHeartbeats 1000000

namespace Divelist

/-! ## Gas classification (divelist.c, get_dive_gas, lines 419-452) -/

/-- Modelled from the spec: the nominal air oxygen fraction in permille.
The constant O2_IN_AIR is defined in dive.h, which is not among the
sources; its exact value does not matter for any theorem below. -/
def O2_IN_AIR : Int := 209

/-- The fields of cylinder_t that get_dive_gas reads: the gas mixture
(permille of oxygen and helium).  The remaining fields (size, working
and recorded pressures, description), which only matter through
cylinder_none, are collapsed into the flag otherUnset. -/
structure Cyl where
  o2 : Int
  he : Int
  otherUnset : Bool
  deriving DecidableEq, Repr

/-- Modelled from the spec: a cylinder slot is absent/unset when every
field of it is unset (the helper cylinder_none lives in dive.h, which
is not among the sources).  The mixture fields are checked explicitly,
the non-mixture fields through otherUnset. -/
def cylinder_none (c : Cyl) : Bool :=
  c.otherUnset && c.o2 == 0 && c.he == 0

/-- One iteration of the cylinder loop of get_dive_gas: the
accumulator is (maxo2, maxhe, mino2). -/
def gasStep (acc : Int × Int × Int) (cyl : Cyl) : Int × Int × Int :=
  let maxo2 := acc.1
  let maxhe := acc.2.1
  let mino2 := acc.2.2
  if cylinder_none cyl then acc
  else
    let o2 := if cyl.o2 = 0 then O2_IN_AIR else cyl.o2
    let he := cyl.he
    let mino2 := if o2 < mino2 then o2 else mino2
    if he > maxhe then (o2, he, mino2)
    else if he < maxhe then (maxo2, maxhe, mino2)
    else if o2 ≤ maxo2 then (maxo2, maxhe, mino2)
    else (o2, he, mino2)

/-- get_dive_gas (divelist.c lines 419-452): returns
(maxo2, maxhe, mino2) in permille.  Initial accumulator
(-1, -1, 1000); cylinders with cylinder_none are skipped; a zero
oxygen fraction is replaced by O2_IN_AIR; highest helium wins and
oxygen breaks helium ties; if everything was plain air the o2 values
are zeroed out. -/
def get_dive_gas (cyls : List Cyl) : Int × Int × Int :=
  let r := cyls.foldl gasStep (-1, -1, 1000)
  if r.2.1 = 0 ∧ r.1 = O2_IN_AIR ∧ r.2.2 = r.1 then (0, r.2.1, 0) else r

/-- The label the display layer derives from a gas triple
(nitrox_data_func, divelist.c lines 515-547). -/
inductive GasLabel where
  | air : GasLabel
  | nitrox : Int → GasLabel
  | nitroxRange : Int → Int → GasLabel
  | trimix : Int → Int → GasLabel
  deriving DecidableEq, Repr

/-- nitrox_data_func rendering logic (divelist.c lines 515-547): each
permille value is rounded to a percentage by (x + 5) / 10 in C integer
division (truncation toward zero); a nonzero helium renders as o2/he,
a nonzero oxygen as a single percentage or a range, and everything
else as the word air. -/
def render_gas (g : Int × Int × Int) : GasLabel :=
  let o2 := Int.tdiv (g.1 + 5) 10
  let he := Int.tdiv (g.2.1 + 5) 10
  let o2low := Int.tdiv (g.2.2 + 5) 10
  if he ≠ 0 then GasLabel.trimix o2 he
  else if o2 ≠ 0 then
    if o2 = o2low then GasLabel.nitrox o2 else GasLabel.nitroxRange o2low o2
  else GasLabel.air

/-- The oxygen value get_dive_gas actually uses for a cylinder: a zero
(unset) fraction counts as air. -/
def adjO2 (c : Cyl) : Int := if c.o2 = 0 then O2_IN_AIR else c.o2

theorem gasStep_none {acc : Int × Int × Int} {c : Cyl}
    (h : cylinder_none c) : gasStep acc c = acc := by
  simp [gasStep, h]

theorem gasStep_he {acc : Int × Int × Int} {c : Cyl}
    (h : ¬ cylinder_none c) : (gasStep acc c).2.1 = max acc.2.1 c.he := by
  simp only [gasStep, h, if_false]
  split_ifs <;> simp_all <;> omega

theorem gasStep_mino2 {acc : Int × Int × Int} {c : Cyl}
    (h : ¬ cylinder_none c) : (gasStep acc c).2.2 = min acc.2.2 (adjO2 c) := by
  simp only [gasStep, adjO2, h, if_false]
  split_ifs <;> simp_all <;> omega

/-- Folding gasStep tracks the helium maximum over non-empty cylinders. -/
theorem gas_fold_he (cyls : List Cyl) (acc : Int × Int × Int) :
    (cyls.foldl gasStep acc).2.1 =
      cyls.foldl (fun m c => if cylinder_none c then m else max m c.he) acc.2.1 := by
  induction cyls generalizing acc with
  | nil => rfl
  | cons c rest ih =>
      simp only [List.foldl_cons]
      rw [ih]
      by_cases h : cylinder_none c
      · rw [gasStep_none h]; simp [h]
      · have := @gasStep_he acc _ h
        simp [h, this]

/-- Folding gasStep tracks the minimum (air-adjusted) oxygen over
non-empty cylinders. -/
theorem gas_fold_mino2 (cyls : List Cyl) (acc : Int × Int × Int) :
    (cyls.foldl gasStep acc).2.2 =
      cyls.foldl (fun m c => if cylinder_none c then m else min m (adjO2 c)) acc.2.2 := by
  induction cyls generalizing acc with
  | nil => rfl
  | cons c rest ih =>
      simp only [List.foldl_cons]
      rw [ih]
      congr 1
      by_cases h : cylinder_none c
      · rw [gasStep_none h]; simp [h]
      · rw [gasStep_mino2 h]; simp [h]

/-- The representative-mixture selection of the gasStep fold: the
winner (maxo2, maxhe) dominates every non-empty cylinder
lexicographically (helium first, then adjusted oxygen), is attained by
one of them unless the accumulator is left untouched, and never moves
lexicographically below the accumulator. -/
theorem gas_fold_lexmax (cyls : List Cyl) (acc : Int × Int × Int) :
    ((cyls.foldl gasStep acc).1 = acc.1 ∧ (cyls.foldl gasStep acc).2.1 = acc.2.1 ∨
      ∃ c ∈ cyls, ¬ cylinder_none c ∧
        (cyls.foldl gasStep acc).1 = adjO2 c ∧ (cyls.foldl gasStep acc).2.1 = c.he) ∧
    (∀ c ∈ cyls, ¬ cylinder_none c →
      c.he < (cyls.foldl gasStep acc).2.1 ∨
        (c.he = (cyls.foldl gasStep acc).2.1 ∧ adjO2 c ≤ (cyls.foldl gasStep acc).1)) ∧
    (acc.2.1 < (cyls.foldl gasStep acc).2.1 ∨
      (acc.2.1 = (cyls.foldl gasStep acc).2.1 ∧ acc.1 ≤ (cyls.foldl gasStep acc).1)) := by
  induction cyls generalizing acc with
  | nil => exact ⟨Or.inl ⟨rfl, rfl⟩, by simp, Or.inr ⟨rfl, le_refl _⟩⟩
  | cons c rest ih =>
      simp only [List.foldl_cons]
      obtain ⟨ha, hb, hc⟩ := ih (gasStep acc c)
      by_cases hn : cylinder_none c
      · rw [gasStep_none hn] at ha hb hc ⊢
        refine ⟨?_, ?_, hc⟩
        · rcases ha with h | ⟨x, hx, h⟩
          · exact Or.inl h
          · exact Or.inr ⟨x, List.mem_cons_of_mem _ hx, h⟩
        · intro x hx hxn
          rcases List.mem_cons.mp hx with rfl | hx
          · exact absurd hn hxn
          · exact hb x hx hxn
      · have hstep : (gasStep acc c).1 = acc.1 ∧ (gasStep acc c).2.1 = acc.2.1 ∧
            (c.he < acc.2.1 ∨ (c.he = acc.2.1 ∧ adjO2 c ≤ acc.1)) ∨
            (gasStep acc c).1 = adjO2 c ∧ (gasStep acc c).2.1 = c.he ∧
            (acc.2.1 < c.he ∨ (acc.2.1 = c.he ∧ acc.1 ≤ adjO2 c)) := by
          simp only [gasStep, adjO2, hn, if_false]
          split_ifs <;> simp_all <;> omega
        refine ⟨?_, ?_, ?_⟩
        · rcases hstep with ⟨h1, h2, _⟩ | ⟨h1, h2, _⟩
          · rcases ha with ⟨g1, g2⟩ | ⟨x, hx, hxn, g⟩
            · exact Or.inl ⟨g1.trans h1, g2.trans h2⟩
            · exact Or.inr ⟨x, List.mem_cons_of_mem _ hx, hxn, g⟩
          · rcases ha with ⟨g1, g2⟩ | ⟨x, hx, hxn, g⟩
            · exact Or.inr ⟨c, List.mem_cons_self _ _, hn, g1.trans h1, g2.trans h2⟩
            · exact Or.inr ⟨x, List.mem_cons_of_mem _ hx, hxn, g⟩
        · intro x hx hxn
          rcases List.mem_cons.mp hx with rfl | hx
          · rcases hstep with ⟨h1, h2, h3⟩ | ⟨h1, h2, h3⟩ <;>
              rcases hc with g | ⟨g1, g2⟩ <;> rcases h3 with h3 | ⟨h3a, h3b⟩ <;> omega
          · exact hb x hx hxn
        · rcases hstep with ⟨h1, h2, h3⟩ | ⟨h1, h2, h3⟩ <;>
            rcases hc with g | ⟨g1, g2⟩ <;> rcases h3 with h3 | ⟨h3a, h3b⟩ <;> omega

/-- The abbreviated fold computing the min-oxygen component. -/
def minFold (cyls : List Cyl) (b : Int) : Int :=
  cyls.foldl (fun m c => if cylinder_none c then m else min m (adjO2 c)) b

theorem minFold_le_init (cyls : List Cyl) (b : Int) : minFold cyls b ≤ b := by
  induction cyls generalizing b with
  | nil => exact le_refl b
  | cons c rest ih =>
      simp only [minFold, List.foldl_cons] at *
      split_ifs with h
      · exact ih b
      · exact le_trans (ih _) (min_le_left _ _)

theorem minFold_le (cyls : List Cyl) (b : Int) :
    ∀ c ∈ cyls, ¬ cylinder_none c → minFold cyls b ≤ adjO2 c := by
  induction cyls generalizing b with
  | nil => intro c hc; exact absurd hc (List.not_mem_nil c)
  | cons x rest ih =>
      intro c hc hcn
      rcases List.mem_cons.mp hc with rfl | hc
      · simp only [minFold, List.foldl_cons, hcn, if_neg, if_false]
        exact le_trans (minFold_le_init rest _) (min_le_right _ _)
      · simp only [minFold, List.foldl_cons]
        split_ifs with h
        · exact ih b c hc hcn
        · exact ih _ c hc hcn

theorem minFold_cons (x : Cyl) (rest : List Cyl) (b : Int) :
    minFold (x :: rest) b =
      if cylinder_none x then minFold rest b else minFold rest (min b (adjO2 x)) := by
  by_cases h : cylinder_none x <;> simp [minFold, h]

theorem minFold_attain (cyls : List Cyl) (b : Int) :
    minFold cyls b = b ∨ ∃ c ∈ cyls, ¬ cylinder_none c ∧ minFold cyls b = adjO2 c := by
  induction cyls generalizing b with
  | nil => exact Or.inl rfl
  | cons x rest ih =>
      rw [minFold_cons]
      split_ifs with h
      · rcases ih b with h1 | ⟨c, hc, hcn, h1⟩
        · exact Or.inl h1
        · exact Or.inr ⟨c, List.mem_cons_of_mem _ hc, hcn, h1⟩
      · rcases ih (min b (adjO2 x)) with h1 | ⟨c, hc, hcn, h1⟩
        · rcases le_or_lt b (adjO2 x) with hba | hba
          · exact Or.inl (by rw [h1, min_eq_left hba])
          · exact Or.inr ⟨x, List.mem_cons_self _ _, h,
              by rw [h1, min_eq_right (le_of_lt hba)]⟩
        · exact Or.inr ⟨c, List.mem_cons_of_mem _ hc, hcn, h1⟩

theorem gasStep_air {c : Cyl}
    (hn : ¬ cylinder_none c) (hhe : c.he = 0) (hadj : adjO2 c = O2_IN_AIR) :
    gasStep ((-1 : Int), (-1 : Int), (1000 : Int)) c = (O2_IN_AIR, 0, O2_IN_AIR) ∧
    gasStep (O2_IN_AIR, (0 : Int), O2_IN_AIR) c = (O2_IN_AIR, 0, O2_IN_AIR) := by
  have hlt : O2_IN_AIR < 1000 := by decide
  have hpos : (0 : Int) < O2_IN_AIR := by decide
  constructor <;>
  · simp only [gasStep, hn, if_false]
    simp only [adjO2] at hadj
    split_ifs at hadj ⊢ <;> simp_all <;> omega

/-- Once the accumulator has reached the plain-air point it stays
there while all remaining non-empty cylinders are plain air. -/
theorem air_fold_fix (cyls : List Cyl)
    (h : ∀ c ∈ cyls, ¬ cylinder_none c → c.he = 0 ∧ adjO2 c = O2_IN_AIR) :
    cyls.foldl gasStep (O2_IN_AIR, 0, O2_IN_AIR) = (O2_IN_AIR, 0, O2_IN_AIR) := by
  induction cyls with
  | nil => rfl
  | cons c rest ih =>
      simp only [List.foldl_cons]
      by_cases hn : cylinder_none c
      · rw [gasStep_none hn]
        exact ih fun x hx => h x (List.mem_cons_of_mem _ hx)
      · obtain ⟨h1, h2⟩ := h c (List.mem_cons_self _ _) hn
        rw [(gasStep_air hn h1 h2).2]
        exact ih fun x hx => h x (List.mem_cons_of_mem _ hx)

theorem air_fold (cyls : List Cyl)
    (h : ∀ c ∈ cyls, ¬ cylinder_none c → c.he = 0 ∧ adjO2 c = O2_IN_AIR)
    (hex : ∃ c ∈ cyls, ¬ cylinder_none c) :
    cyls.foldl gasStep (-1, -1, 1000) = (O2_IN_AIR, 0, O2_IN_AIR) := by
  induction cyls with
  | nil => obtain ⟨c, hc, -⟩ := hex; exact absurd hc (List.not_mem_nil c)
  | cons c rest ih =>
      simp only [List.foldl_cons]
      by_cases hn : cylinder_none c
      · rw [gasStep_none hn]
        obtain ⟨x, hx, hxn⟩ := hex
        rcases List.mem_cons.mp hx with rfl | hx
        · exact absurd hn hxn
        · exact ih (fun y hy => h y (List.mem_cons_of_mem _ hy)) ⟨x, hx, hxn⟩
      · obtain ⟨h1, h2⟩ := h c (List.mem_cons_self _ _) hn
        rw [(gasStep_air hn h1 h2).1]
        exact air_fold_fix rest fun x hx => h x (List.mem_cons_of_mem _ hx)

/-- C5: gas classification scans all non-empty cylinders and picks the
representative mixture by maximum helium, breaking helium ties by
maximum oxygen, while tracking the minimum oxygen fraction seen; on
cylinders (O2 21.0 percent, He 0) and (O2 18.0 percent, He 45.0
percent) it returns the trimix mixture of the second one with minimum
O2 tracked as 18.0 percent, and when every non-empty cylinder is plain
air it returns the zero/zero air classification instead of a numeric
percentage. -/
theorem C5_gas_classification :
    (get_dive_gas [⟨210, 0, false⟩, ⟨180, 450, false⟩] = (180, 450, 180)) ∧
    (∀ cyls : List Cyl,
      (∀ c ∈ cyls, ¬ cylinder_none c → c.he = 0 ∧ (c.o2 = O2_IN_AIR ∨ c.o2 = 0)) →
      (∃ c ∈ cyls, ¬ cylinder_none c) →
      get_dive_gas cyls = (0, 0, 0)) ∧
    (∀ cyls : List Cyl,
      (∀ c ∈ cyls, 0 ≤ c.o2 ∧ c.o2 ≤ 1000 ∧ 0 ≤ c.he) →
      (∃ c ∈ cyls, ¬ cylinder_none c) →
      (∃ c ∈ cyls, ¬ cylinder_none c ∧
        (cyls.foldl gasStep (-1, -1, 1000)).1 = adjO2 c ∧
        (cyls.foldl gasStep (-1, -1, 1000)).2.1 = c.he) ∧
      (∀ c ∈ cyls, ¬ cylinder_none c →
        c.he < (cyls.foldl gasStep (-1, -1, 1000)).2.1 ∨
          (c.he = (cyls.foldl gasStep (-1, -1, 1000)).2.1 ∧
            adjO2 c ≤ (cyls.foldl gasStep (-1, -1, 1000)).1)) ∧
      (∀ c ∈ cyls, ¬ cylinder_none c →
        (cyls.foldl gasStep (-1, -1, 1000)).2.2 ≤ adjO2 c) ∧
      (∃ c ∈ cyls, ¬ cylinder_none c ∧
        (cyls.foldl gasStep (-1, -1, 1000)).2.2 = adjO2 c)) := by
  refine ⟨by decide, ?_, ?_⟩
  · intro cyls hall hex
    have hadj : ∀ c ∈ cyls, ¬ cylinder_none c → c.he = 0 ∧ adjO2 c = O2_IN_AIR := by
      intro c hc hcn
      obtain ⟨h1, h2⟩ := hall c hc hcn
      refine ⟨h1, ?_⟩
      have hne : O2_IN_AIR ≠ 0 := by decide
      rcases h2 with h2 | h2
      · rw [adjO2, h2, if_neg hne]
      · rw [adjO2, if_pos h2]
    have hfold := air_fold cyls hadj hex
    simp only [get_dive_gas, hfold]
    norm_num
  · intro cyls hphys hex
    obtain ⟨hsel, hbound, hmono⟩ := gas_fold_lexmax cyls (-1, -1, 1000)
    obtain ⟨c0, hc0, hc0n⟩ := hex
    have hhe0 : 0 ≤ c0.he := (hphys c0 hc0).2.2
    have hattain : ∃ c ∈ cyls, ¬ cylinder_none c ∧
        (cyls.foldl gasStep (-1, -1, 1000)).1 = adjO2 c ∧
        (cyls.foldl gasStep (-1, -1, 1000)).2.1 = c.he := by
      rcases hsel with ⟨h1, h2⟩ | h
      · norm_num at h2
        rcases hbound c0 hc0 hc0n with hb | ⟨hb, -⟩ <;> rw [h2] at hb <;> omega
      · exact h
    have hmf : (cyls.foldl gasStep (-1, -1, 1000)).2.2 = minFold cyls 1000 :=
      (gas_fold_mino2 cyls (-1, -1, 1000)).trans rfl
    refine ⟨hattain, hbound, ?_, ?_⟩
    · intro c hc hcn
      rw [hmf]
      exact minFold_le cyls 1000 c hc hcn
    · have hadj_le : ∀ c ∈ cyls, adjO2 c ≤ 1000 := by
        intro c hc
        obtain ⟨h1, h2, -⟩ := hphys c hc
        by_cases h0 : c.o2 = 0
        · rw [adjO2, if_pos h0]; decide
        · rw [adjO2, if_neg h0]; exact h2
      rw [hmf]
      rcases minFold_attain cyls 1000 with h | ⟨c, hc, hcn, h⟩
      · refine ⟨c0, hc0, hc0n, ?_⟩
        have h1 := minFold_le cyls 1000 c0 hc0 hc0n
        have h2 := hadj_le c0 hc0
        omega
      · exact ⟨c, hc, hcn, h⟩

/-- C9 counterexample: a dive whose cylinder slots are all absent is
classified as (-1, -1, 1000), not as the zero/zero air triple the
claim states. -/
theorem C9_empty_not_zero :
    get_dive_gas (List.replicate 8 ⟨0, 0, true⟩) = (-1, -1, 1000) ∧
    get_dive_gas (List.replicate 8 ⟨0, 0, true⟩) ≠ (0, 0, 0) := by
  decide

/-- C9 amended: for a dive whose cylinder slots are all absent/unset,
gas classification returns the untouched sentinel accumulator
(-1, -1, 1000) rather than the zero/zero triple, and the display layer
renders exactly that sentinel as the air label, so the dive still
degrades to air rather than failing. -/
theorem C9_empty_cylinders_render_air (cyls : List Cyl)
    (h : ∀ c ∈ cyls, cylinder_none c) :
    get_dive_gas cyls = (-1, -1, 1000) ∧
    render_gas (get_dive_gas cyls) = GasLabel.air := by
  have hfold : cyls.foldl gasStep (-1, -1, 1000) = ((-1 : Int), (-1 : Int), (1000 : Int)) := by
    induction cyls with
    | nil => rfl
    | cons c rest ih =>
        simp only [List.foldl_cons, gasStep_none (h c (List.mem_cons_self _ _))]
        exact ih fun x hx => h x (List.mem_cons_of_mem _ hx)
  have hg : get_dive_gas cyls = (-1, -1, 1000) := by
    simp only [get_dive_gas, hfold]
    norm_num
  exact ⟨hg, by rw [hg]; decide⟩

/-- C9 witness. -/
theorem C9_empty_cylinders_render_air_witness :
    get_dive_gas [⟨0, 0, true⟩] = (-1, -1, 1000) ∧
    render_gas (get_dive_gas [⟨0, 0, true⟩]) = GasLabel.air :=
  C9_empty_cylinders_render_air [⟨0, 0, true⟩] (by decide)

/-- The rewrite C10 talks about: a non-empty cylinder with an unset
(zero) oxygen fraction is replaced by one holding the nominal air
fraction. -/
def fixZeroO2 (c : Cyl) : Cyl :=
  if ¬ cylinder_none c ∧ c.o2 = 0 then { c with o2 := O2_IN_AIR } else c

theorem gasStep_fixZeroO2 (acc : Int × Int × Int) (c : Cyl) :
    gasStep acc (fixZeroO2 c) = gasStep acc c := by
  by_cases hn : cylinder_none c
  · simp [fixZeroO2, hn]
  · by_cases ho : c.o2 = 0
    · have hne : O2_IN_AIR ≠ 0 := by decide
      have hfx : fixZeroO2 c = { c with o2 := O2_IN_AIR } := by simp [fixZeroO2, hn, ho]
      have hfn : ¬ cylinder_none { c with o2 := O2_IN_AIR } := by
        simp [cylinder_none, hne]
      rw [hfx]
      simp [gasStep, hn, hfn, ho, hne]
    · simp [fixZeroO2, ho]

/-- C10: gas classification treats a non-empty cylinder whose recorded
oxygen fraction is zero as containing the nominal air oxygen fraction:
replacing every such zero by O2_IN_AIR before the scan leaves the
classification (representative mixture and minimum-oxygen tracking)
unchanged, so the cylinder participates exactly as if it held air. -/
theorem C10_zero_o2_counts_as_air (cyls : List Cyl) :
    get_dive_gas (cyls.map fixZeroO2) = get_dive_gas cyls := by
  have hfold : ∀ acc, (cyls.map fixZeroO2).foldl gasStep acc = cyls.foldl gasStep acc := by
    induction cyls with
    | nil => intro acc; rfl
    | cons c rest ih =>
        intro acc
        simp only [List.map_cons, List.foldl_cons, gasStep_fixZeroO2]
        exact ih _
  simp only [get_dive_gas, hfold]

/-- C5 witness: instantiating the all-air branch of
C5_gas_classification on one concrete plain-air cylinder. -/
theorem C5_gas_classification_witness :
    get_dive_gas [⟨209, 0, false⟩] = (0, 0, 0) :=
  C5_gas_classification.2.1 [⟨209, 0, false⟩] (by decide)
    ⟨⟨209, 0, false⟩, by decide, by decide⟩

/-! ## SAC duration adjustment (divelist.c, calculate_sac, lines 693-728)

calculate_sac mixes the integer duration arithmetic below with
floating-point air-use and pressure computations that belong to
external collaborators; claim C6 is exclusively about the integer
duration adjustment, which is embedded here in full. -/

/-- One depth/time sample of the first dive computer. -/
structure Sample where
  timeSec : Int
  depthMM : Int
  deriving DecidableEq, Repr

/-- C array indexing dc->sample[i] (always in bounds where used). -/
def sampleAt (smp : List Sample) (i : Nat) : Sample :=
  smp.getD i ⟨0, 0⟩

/-- The inner while loop of calculate_sac (lines 711-712): advance end
while it is in range and the sample there is shallower than 10cm. -/
def runEnd (smp : List Sample) (n : Nat) (e : Nat) : Nat :=
  if e < n then
    if (sampleAt smp e).depthMM < 100 then runEnd smp n (e + 1) else e
  else e
termination_by n - e
decreasing_by omega

theorem runEnd_ge (smp : List Sample) (n : Nat) (e : Nat) : e ≤ runEnd smp n e := by
  rw [runEnd]
  split_ifs with h1 h2
  · have := runEnd_ge smp n (e + 1)
    omega
  · exact le_refl e
  · exact le_refl e
termination_by n - e
decreasing_by omega

/-- The surface-interval elimination loop of calculate_sac (lines
708-721): for each index, when the sample is shallower than 10cm, scan
to the end of the shallow run; if the run stops before the last
sample, subtract the run's time span from the duration and resume
after the run. -/
def sac_excise (smp : List Sample) (n : Nat) (i : Nat) (dur : Int) : Int :=
  if i < n then
    if (sampleAt smp i).depthMM < 100 then
      let e := runEnd smp n (i + 1)
      if h : e < n then
        sac_excise smp n (e + 1)
          (dur - ((sampleAt smp (e - 1)).timeSec - (sampleAt smp i).timeSec))
      else sac_excise smp n (i + 1) dur
    else sac_excise smp n (i + 1) dur
  else dur
termination_by n - i
decreasing_by
  · have : i + 1 ≤ runEnd smp n (i + 1) := runEnd_ge smp n (i + 1)
    omega
  · omega
  · omega

/-- A sample shallower than the 10cm threshold. -/
def shallowS (s : Sample) : Bool := s.depthMM < 100

/-- Spec-style restatement of the duration excision, used to state the
amended claim C6: walk the samples once; while inside a shallow run,
remember its first time t0 and the time tl of its last shallow sample
so far; when the run ends at a deep sample, the span tl - t0 is
excised; a run still open when the samples end (a run extending to the
end of the dive) is not excised. -/
def goA (runState : Option (Int × Int)) : List Sample → Int
  | [] => 0
  | s :: rest =>
    if shallowS s then
      match runState with
      | none => goA (some (s.timeSec, s.timeSec)) rest
      | some (t0, _) => goA (some (t0, s.timeSec)) rest
    else
      match runState with
      | none => goA none rest
      | some (t0, tl) => (tl - t0) + goA none rest

/-- The total time excised from the SAC duration, per the amended
claim: the spans of all maximal shallow runs that do not extend to the
end of the sample sequence (runs touching the start included). -/
def exciseAmended (l : List Sample) : Int := goA none l

/-- The excision the original claim C6 describes: same as
exciseAmended except that a maximal shallow run beginning at the very
first sample is never excised either.  The first component of the run
state records whether the open run touches the start. -/
def goC (runState : Option (Bool × Int × Int)) (first : Bool) : List Sample → Int
  | [] => 0
  | s :: rest =>
    if shallowS s then
      match runState with
      | none => goC (some (first, s.timeSec, s.timeSec)) false rest
      | some (b, t0, _) => goC (some (b, t0, s.timeSec)) false rest
    else
      match runState with
      | none => goC none false rest
      | some (b, t0, tl) => (if b then 0 else tl - t0) + goC none false rest

/-- Total excised time per the claim as stated (runs touching either
end preserved). -/
def exciseClaimed (l : List Sample) : Int := goC none true l

theorem goA_all_shallow (l : List Sample) (h : ∀ x ∈ l, shallowS x) :
    ∀ rs, goA rs l = 0 := by
  induction l with
  | nil => intro rs; cases rs <;> rfl
  | cons s rest ih =>
      intro rs
      have hs : shallowS s := h s (List.mem_cons_self _ _)
      have ih' := ih fun x hx => h x (List.mem_cons_of_mem _ hx)
      cases rs with
      | none => simp only [goA, hs, if_pos]; exact ih' _
      | some p => simp only [goA, hs, if_pos]; exact ih' _

theorem goA_run (t0 tl : Int) (run : List Sample)
    (hall : ∀ x ∈ run, shallowS x) (rest : List Sample) :
    goA (some (t0, tl)) (run ++ rest) =
      goA (some (t0, (run.getLast?.elim tl Sample.timeSec))) rest := by
  induction run generalizing tl with
  | nil => rfl
  | cons a run2 ih =>
      have ha : shallowS a := hall a (List.mem_cons_self _ _)
      have step : goA (some (t0, tl)) ((a :: run2) ++ rest) =
          goA (some (t0, a.timeSec)) (run2 ++ rest) := by
        simp only [List.cons_append, goA, ha, if_pos, List.append_eq]
      rw [step, ih a.timeSec (fun x hx => hall x (List.mem_cons_of_mem _ hx))]
      congr 2
      rw [List.getLast?_cons]
      cases h2 : run2.getLast? <;> simp [h2]

theorem length_dropWhile_le' (p : Sample → Bool) (l : List Sample) :
    (l.dropWhile p).length ≤ l.length := by
  induction l with
  | nil => exact le_refl 0
  | cons a l ih =>
      rw [List.dropWhile_cons]
      split_ifs with h
      · exact le_trans ih (by simp only [List.length_cons]; omega)
      · exact le_refl _

theorem length_takeWhile_le' (p : Sample → Bool) (l : List Sample) :
    (l.takeWhile p).length ≤ l.length := by
  induction l with
  | nil => exact le_refl 0
  | cons a l ih =>
      rw [List.takeWhile_cons]
      split_ifs with h
      · simp only [List.length_cons]; omega
      · simp only [List.length_cons, List.length_nil]; omega

theorem dropWhile_eq_drop (p : Sample → Bool) (l : List Sample) :
    l.dropWhile p = l.drop (l.takeWhile p).length := by
  induction l with
  | nil => rfl
  | cons a l ih =>
      rw [List.dropWhile_cons, List.takeWhile_cons]
      split_ifs with h
      · simpa using ih
      · rfl

theorem getLast?_takeWhile (p : Sample → Bool) (l : List Sample)
    (h : l.takeWhile p ≠ []) :
    (l.takeWhile p).getLast? = l[(l.takeWhile p).length - 1]? := by
  induction l with
  | nil => exact absurd rfl h
  | cons a l ih =>
      rw [List.takeWhile_cons] at h ⊢
      by_cases hp : p a
      · rw [if_pos hp] at h ⊢
        by_cases h2 : l.takeWhile p = []
        · simp [h2]
        · rw [List.getLast?_cons, ih h2]
          have hlen : (l.takeWhile p).length - 1 + 1 = (l.takeWhile p).length := by
            cases hh : l.takeWhile p with
            | nil => exact absurd hh h2
            | cons x xs => simp
          have : (a :: l.takeWhile p).length - 1 = (l.takeWhile p).length - 1 + 1 := by
            simp; omega
          rw [this, List.getElem?_cons_succ]
          cases hg : l[(l.takeWhile p).length - 1]? with
          | none =>
              exfalso
              have hle := length_takeWhile_le' p l
              have hpos : 0 < (l.takeWhile p).length := by
                cases hh : l.takeWhile p with
                | nil => exact absurd hh h2
                | cons x xs => simp [hh]
              have hlt : (l.takeWhile p).length - 1 < l.length := by omega
              rw [List.getElem?_eq_getElem hlt] at hg
              exact Option.noConfusion hg
          | some x => simp [hg]
      · rw [if_neg hp] at h
        exact absurd rfl h

theorem sampleAt_eq (smp : List Sample) (i : Nat) (h : i < smp.length) :
    sampleAt smp i = smp[i] := by
  rw [sampleAt, List.getD_eq_getElem?_getD, List.getElem?_eq_getElem h]
  rfl

theorem runEnd_eq (smp : List Sample) (e : Nat) :
    runEnd smp smp.length e = e + ((smp.drop e).takeWhile shallowS).length := by
  rw [runEnd]
  by_cases h : e < smp.length
  · have hd : smp.drop e = smp[e] :: smp.drop (e + 1) := List.drop_eq_getElem_cons h
    have hs := sampleAt_eq smp e h
    by_cases hsh : (sampleAt smp e).depthMM < 100
    · have hb : shallowS smp[e] = true := by
        rw [shallowS, ← hs]
        exact decide_eq_true hsh
      rw [if_pos h, if_pos hsh, runEnd_eq smp (e + 1), hd, List.takeWhile_cons, if_pos hb]
      simp only [List.length_cons]
      omega
    · have hb : ¬ shallowS smp[e] = true := by
        rw [shallowS, ← hs]
        simpa using hsh
      rw [if_pos h, if_neg hsh, hd, List.takeWhile_cons, if_neg hb]
      simp
  · rw [if_neg h]
    have hnil : smp.drop e = [] := List.drop_eq_nil_iff.mpr (by omega)
    rw [hnil]
    simp
termination_by smp.length - e
decreasing_by omega

theorem sac_excise_eq (smp : List Sample) (i : Nat) (dur : Int) :
    sac_excise smp smp.length i dur = dur - goA none (smp.drop i) := by
  rw [sac_excise]
  by_cases h : i < smp.length
  · have hd : smp.drop i = smp[i] :: smp.drop (i + 1) := List.drop_eq_getElem_cons h
    have hs := sampleAt_eq smp i h
    by_cases hsh : (sampleAt smp i).depthMM < 100
    · have hb : shallowS smp[i] = true := by
        rw [shallowS, ← hs]
        exact decide_eq_true hsh
      obtain ⟨k, hk⟩ : ∃ k, ((smp.drop (i + 1)).takeWhile shallowS).length = k := ⟨_, rfl⟩
      have he : runEnd smp smp.length (i + 1) = i + 1 + k := by
        rw [runEnd_eq smp (i + 1), hk]
      -- the maximal shallow run starting at i and the remainder after it
      have hrun2_sh : ∀ x ∈ (smp.drop (i + 1)).takeWhile shallowS, shallowS x :=
        fun x hx => List.mem_takeWhile_imp hx
      have hdw : (smp.drop (i + 1)).dropWhile shallowS = smp.drop (i + 1 + k) := by
        rw [dropWhile_eq_drop, hk]
        exact List.drop_drop k (i + 1) smp
      have hsplit2 : smp.drop (i + 1) =
          (smp.drop (i + 1)).takeWhile shallowS ++ smp.drop (i + 1 + k) := by
        rw [← hdw]
        exact (List.takeWhile_append_dropWhile _ _).symm
      -- the value of goA on the run
      have hgoA : goA none (smp.drop i) =
          goA (some (smp[i].timeSec,
            (((smp.drop (i + 1)).takeWhile shallowS).getLast?.elim smp[i].timeSec
              Sample.timeSec))) (smp.drop (i + 1 + k)) := by
        rw [hd]
        have h1 : goA none (smp[i] :: smp.drop (i + 1)) =
            goA (some (smp[i].timeSec, smp[i].timeSec)) (smp.drop (i + 1)) := by
          simp [goA, hb]
        rw [h1]
        conv_lhs => rw [hsplit2]
        exact goA_run _ _ _ hrun2_sh _
      -- the time of the last shallow sample of the run is sample e - 1
      have hlast : (((smp.drop (i + 1)).takeWhile shallowS).getLast?.elim smp[i].timeSec
          Sample.timeSec) = (sampleAt smp (i + 1 + k - 1)).timeSec := by
        by_cases hk0 : k = 0
        · have hnil2 : (smp.drop (i + 1)).takeWhile shallowS = [] := by
            rw [hk0] at hk
            exact List.length_eq_zero.mp hk
          rw [hnil2]
          simp only [List.getLast?_nil, Option.elim_none]
          rw [hk0]
          simp only [Nat.add_zero, Nat.add_sub_cancel]
          rw [sampleAt_eq smp i h]
        · have hne : (smp.drop (i + 1)).takeWhile shallowS ≠ [] := by
            intro hcon
            rw [hcon] at hk
            simp at hk
            omega
          rw [getLast?_takeWhile shallowS _ hne, hk]
          have hk1 : i + 1 + k - 1 < smp.length := by
            have h1 : ((smp.drop (i + 1)).takeWhile shallowS).length ≤
                (smp.drop (i + 1)).length := length_takeWhile_le' _ _
            have h2 : (smp.drop (i + 1)).length = smp.length - (i + 1) := List.length_drop _ _
            omega
          rw [List.getElem?_drop, sampleAt_eq smp _ hk1]
          have harith : i + 1 + (k - 1) = i + 1 + k - 1 := by omega
          rw [harith, List.getElem?_eq_getElem hk1]
          rfl
      by_cases hend : runEnd smp smp.length (i + 1) < smp.length
      · rw [if_pos h, if_pos hsh, dif_pos hend]
        have hlt : i + 1 + k < smp.length := by omega
        have hdd : smp.drop (i + 1 + k) = smp[i + 1 + k] :: smp.drop (i + 1 + k + 1) :=
          List.drop_eq_getElem_cons hlt
        have hdeep : ¬ shallowS smp[i + 1 + k] = true := by
          have := List.head?_dropWhile_not shallowS (smp.drop (i + 1))
          rw [hdw, hdd] at this
          simp only [List.head?_cons] at this
          simp [this]
        have hstep : goA (some (smp[i].timeSec,
            (sampleAt smp (i + 1 + k - 1)).timeSec)) (smp.drop (i + 1 + k)) =
            ((sampleAt smp (i + 1 + k - 1)).timeSec - smp[i].timeSec) +
              goA none (smp.drop (i + 1 + k + 1)) := by
          rw [hdd, goA, if_neg hdeep]
        rw [he] at *
        rw [sac_excise_eq smp (i + 1 + k + 1)
          (dur - ((sampleAt smp (i + 1 + k - 1)).timeSec - (sampleAt smp i).timeSec))]
        rw [hgoA, hlast, hstep, hs]
        ring
      · rw [if_pos h, if_pos hsh, dif_neg hend]
        rw [he] at hend
        have hnil : smp.drop (i + 1 + k) = [] := List.drop_eq_nil_iff.mpr (by omega)
        have hall : ∀ x ∈ smp.drop (i + 1), shallowS x := by
          intro x hx
          rw [hsplit2] at hx
          rcases List.mem_append.mp hx with hx | hx
          · exact hrun2_sh x hx
          · rw [hnil] at hx
            exact absurd hx (List.not_mem_nil x)
        rw [sac_excise_eq smp (i + 1) dur, hgoA, hnil]
        have hz1 : goA (some (smp[i].timeSec,
            (((smp.drop (i + 1)).takeWhile shallowS).getLast?.elim smp[i].timeSec
              Sample.timeSec))) ([] : List Sample) = 0 := rfl
        rw [hz1, goA_all_shallow _ hall none]
    · have hb : ¬ shallowS smp[i] = true := by
        rw [shallowS, ← hs]
        simpa using hsh
      rw [if_pos h, if_neg hsh, sac_excise_eq smp (i + 1) dur, hd]
      show dur - goA none (smp.drop (i + 1)) = dur - goA none (smp[i] :: smp.drop (i + 1))
      rw [goA, if_neg hb]
  · rw [if_neg h]
    have hnil : smp.drop i = [] := List.drop_eq_nil_iff.mpr (by omega)
    rw [hnil]
    simp [goA]
termination_by smp.length - i
decreasing_by
  · have := runEnd_ge smp smp.length (i + 1)
    omega
  · omega
  · omega

/-- C6 counterexample: on samples at depths 5cm, 5cm, 5m, 5cm and
times 0s, 10s, 20s, 30s (a shallow run touching the start and a
shallow run touching the end) with recorded duration 100s, the code
excises the leading run (10s) and returns 90, while the claim as
stated (only runs touching neither end are excised) predicts 100. -/
theorem C6_sac_leading_run_excised :
    sac_excise [⟨0, 50⟩, ⟨10, 50⟩, ⟨20, 5000⟩, ⟨30, 50⟩] 4 0 100 = 90 ∧
    (100 : Int) - exciseClaimed [⟨0, 50⟩, ⟨10, 50⟩, ⟨20, 5000⟩, ⟨30, 50⟩] = 100 ∧
    (90 : Int) ≠ 100 := by
  refine ⟨?_, by decide, by decide⟩
  have h := sac_excise_eq [⟨0, 50⟩, ⟨10, 50⟩, ⟨20, 5000⟩, ⟨30, 50⟩] 0 100
  have hlen : ([⟨0, 50⟩, ⟨10, 50⟩, ⟨20, 5000⟩, ⟨30, 50⟩] : List Sample).length = 4 := rfl
  rw [hlen] at h
  rw [h]
  decide

/-- C6 amended: the SAC duration is reduced exactly by the spans of
the contiguous shallow runs that do not extend to the END of the
sample sequence; a shallow run reaching the end is kept, but a shallow
run touching the start (and not the end) is excised as well, contrary
to the claim as stated. -/
theorem C6_sac_duration_adjustment (smp : List Sample) (dur : Int) :
    sac_excise smp smp.length 0 dur = dur - exciseAmended smp := by
  have h := sac_excise_eq smp 0 dur
  rw [List.drop_zero] at h
  exact h

/-! ## Trip flags and dive records (dive.h data reachable from divelist.c) -/

/-- Modelled from the spec: the per-dive trip flag (tripflag_t lives in
dive.h, which is not among the sources).  divelist.c writes NO_TRIP
when a dive is removed from its trip, IN_TRIP / ASSIGNED_TRIP when it
is attached, and autogroup skips dives that do not need grouping. -/
inductive TripFlag where
  | TF_NONE : TripFlag
  | NO_TRIP : TripFlag
  | IN_TRIP : TripFlag
  | ASSIGNED_TRIP : TripFlag
  deriving DecidableEq, Repr

/-- The fields of struct dive that divelist.c's trip handling and
decompression walk read: start timestamp, duration in seconds, the
location text, the trip flag and the owning trip (dive->divetrip,
a pointer modelled as an optional trip identifier). -/
structure DiveRec where
  when : Int
  durationSec : Int
  location : Option String
  tripflag : TripFlag
  divetrip : Option Nat
  deriving DecidableEq, Repr

/-! ## Decompression backward walk (divelist.c, init_decompression,
lines 764-787)

Only the backward walk that delimits the replay window is embedded:
the forward replay feeds floating-point pressures into the external
tissue-state collaborator and is out of scope of the claims.  The
walk is the C loop: i starts at the target's index; while (i && --i),
look at dive i; skip it when the target has a trip and dive i belongs
to a different one; break when dive i starts after the running
reference time `when` or when its end plus 48 hours precedes `when`;
otherwise accept it, setting `when` to its start and `lasttime` to its
end.  The result is (index at exit, when, lasttime). -/
def deco_back (tbl : List DiveRec) (dtrip : Option Nat) :
    Nat → Int → Int → Nat × Int × Int
  | 0, w, lt => (0, w, lt)
  | i + 1, w, lt =>
    if i = 0 then (0, w, lt)
    else
      match tbl[i]? with
      | none => (i, w, lt)
      | some p =>
        if dtrip.isSome ∧ p.divetrip ≠ dtrip then deco_back tbl dtrip i w lt
        else if p.when > w ∨ p.when + p.durationSec + 48 * 60 * 60 < w then (i, w, lt)
        else deco_back tbl dtrip i p.when (p.when + p.durationSec)

/-- The walk the claim C3 describes, for comparison: identical
skipping, but the stop test compares each prior dive's end plus 48
hours against the TARGET's start time (not the running reference
time), and the walk examines every prior dive down to index 0. -/
def deco_back_claimed (tbl : List DiveRec) (dtrip : Option Nat) (whenT : Int) :
    Nat → Int → Int → Nat × Int × Int
  | 0, w, lt => (0, w, lt)
  | i + 1, w, lt =>
    match tbl[i]? with
    | none => (i, w, lt)
    | some p =>
      if dtrip.isSome ∧ p.divetrip ≠ dtrip then deco_back_claimed tbl dtrip whenT i w lt
      else if p.when + p.durationSec + 48 * 60 * 60 < whenT then (i, w, lt)
      else deco_back_claimed tbl dtrip whenT i p.when (p.when + p.durationSec)

/-- The dive table of the C3 counterexample: a target dive at time
100h, a prior dive A at 53h (within 48h of the target's start), and a
prior dive B at 6h, whose end plus 48 hours (54h) precedes the
target's start but not A's start. -/
def decoTable : List DiveRec :=
  [⟨1, 0, none, TripFlag.TF_NONE, none⟩,
   ⟨21600, 0, none, TripFlag.TF_NONE, none⟩,
   ⟨190800, 0, none, TripFlag.TF_NONE, none⟩,
   ⟨360000, 0, none, TripFlag.TF_NONE, none⟩]

/-- C3 counterexample: on decoTable the code's backward walk accepts
dive B (final reference time 21600 = B's start), because B's end plus
48 hours is compared against A's start, while the walk the claim
describes stops at B (final reference time 190800 = A's start),
because B's end plus 48 hours precedes the TARGET's start.  So the
walk does not stop at the first prior dive whose end plus 48 hours
precedes the target's start. -/
theorem C3_deco_walk_not_target_anchored :
    deco_back decoTable none 3 360000 0 = (0, 21600, 21600) ∧
    deco_back_claimed decoTable none 360000 3 360000 0 = (1, 190800, 190800) ∧
    (deco_back decoTable none 3 360000 0).2.1 ≠
      (deco_back_claimed decoTable none 360000 3 360000 0).2.1 := by
  refine ⟨rfl, rfl, by decide⟩

/-- The index list the backward walk visits: divenr-1 down to 1; the
first dive of the table (index 0) is never examined. -/
def countdownIdx : Nat → List Nat
  | 0 => []
  | 1 => []
  | n + 2 => (n + 1) :: countdownIdx (n + 1)

/-- One examination step of the amended backward-walk description,
acting on a state (stopped-at index if stopped, reference time,
last end time). -/
def decoStep (tbl : List DiveRec) (dtrip : Option Nat)
    (st : Option Nat × Int × Int) (i : Nat) : Option Nat × Int × Int :=
  match st with
  | (some stop, w, lt) => (some stop, w, lt)
  | (none, w, lt) =>
    match tbl[i]? with
    | none => (some i, w, lt)
    | some p =>
      if dtrip.isSome ∧ p.divetrip ≠ dtrip then (none, w, lt)
      else if p.when > w ∨ p.when + p.durationSec + 48 * 60 * 60 < w then (some i, w, lt)
      else (none, p.when, p.when + p.durationSec)

/-- The amended description of the backward walk as a single pass over
the explicit index list divenr-1 .. 1: dives of a different trip than
the target are skipped without touching the state; the walk stops at
the first examined dive that starts after the running reference time
or whose end plus 48 hours precedes the running reference time (the
reference time starts at the target's start and moves to each accepted
dive's start); the first dive of the table is never examined. -/
def deco_back_amended (tbl : List DiveRec) (dtrip : Option Nat)
    (start : Nat) (w0 lt0 : Int) : Nat × Int × Int :=
  let r := (countdownIdx start).foldl (decoStep tbl dtrip) (none, w0, lt0)
  (r.1.getD 0, r.2.1, r.2.2)

theorem decoStep_absorb (tbl : List DiveRec) (dtrip : Option Nat)
    (l : List Nat) (s : Nat) (w lt : Int) :
    l.foldl (decoStep tbl dtrip) (some s, w, lt) = (some s, w, lt) := by
  induction l with
  | nil => rfl
  | cons i rest ih => simpa [decoStep] using ih

/-- C3 amended: the code's backward walk computes exactly the amended
description. -/
theorem C3_deco_walk_amended (tbl : List DiveRec) (dtrip : Option Nat)
    (start : Nat) (w0 lt0 : Int) :
    deco_back tbl dtrip start w0 lt0 = deco_back_amended tbl dtrip start w0 lt0 := by
  induction start using countdownIdx.induct generalizing w0 lt0 with
  | case1 => rfl
  | case2 => rfl
  | case3 n ih =>
      show deco_back tbl dtrip (n + 2) w0 lt0 = _
      rw [deco_back, deco_back_amended, countdownIdx]
      simp only [List.foldl_cons, Nat.succ_ne_zero, if_neg, if_false]
      cases hp : tbl[n + 1]? with
      | none =>
          simp only [decoStep, hp, decoStep_absorb]
          rfl
      | some p =>
          by_cases hskip : dtrip.isSome ∧ p.divetrip ≠ dtrip
          · simp only [decoStep, hp, if_pos hskip]
            exact ih w0 lt0
          · by_cases hbreak : p.when > w0 ∨ p.when + p.durationSec + 48 * 60 * 60 < w0
            · simp only [decoStep, hp, if_neg hskip, if_pos hbreak, decoStep_absorb]
              rfl
            · simp only [decoStep, hp, if_neg hskip, if_neg hbreak]
              exact ih p.when (p.when + p.durationSec)

/-! ## Trip registry and trip membership (divelist.c, lines 1032-1240)

dive_trip_t and the global dive_trip_list, with the intrusive
membership chain (trip->dives, dive->next, dive->pprev) modelled as
the list of member dive identifiers in chain order, head first.
Pushing a dive sets dive->next to the old head, so consing is exact;
the O(1) pprev unlink removes precisely the dive's cell from the
chain, so erasing it from the list is exact as well.  Trip pointers
are trip identifiers; the pointer identity of the C structs is
reflected by keeping trip identifiers unique. -/

/-- The fields of dive_trip_t that divelist.c reads or writes:
identifier (pointer identity), trip->index (assigned by the display
layer, used by find_trip_by_idx), start timestamp, location, notes,
the auto-generated flag, the member count and the membership chain. -/
structure TripRec where
  tid : Nat
  tIndex : Int
  when : Int
  location : Option String
  notes : Option String
  autogen : Bool
  nrdives : Nat
  dives : List Nat
  deriving DecidableEq, Repr

/-- The global state divelist.c's trip handling operates on: the dive
table (in table order, each dive with its identifier), the trip list
dive_trip_list (in list order) and an allocator for fresh trip
identifiers (the C allocates a struct; a fresh identifier models the
fresh pointer). -/
structure DLState where
  dives : List (Nat × DiveRec)
  trips : List TripRec
  nextTid : Nat
  deriving DecidableEq, Repr

/-- Dereference a dive pointer. -/
def findDive (s : DLState) (did : Nat) : Option DiveRec :=
  (s.dives.find? fun p => p.1 == did).map Prod.snd

/-- Write through a dive pointer. -/
def setDive (s : DLState) (did : Nat) (f : DiveRec → DiveRec) : DLState :=
  { s with dives := s.dives.map fun p => if p.1 = did then (p.1, f p.2) else p }

/-- Dereference a trip pointer. -/
def getTrip (s : DLState) (tid : Nat) : Option TripRec :=
  s.trips.find? fun t => t.tid == tid

/-- Write through a trip pointer. -/
def setTrip (s : DLState) (tid : Nat) (f : TripRec → TripRec) : DLState :=
  { s with trips := s.trips.map fun t => if t.tid = tid then f t else t }

/-- Unlink a dive from a trip's member chain (the effect of
`*pprev = next; if (next) next->pprev = pprev;`). -/
def eraseDive (did : Nat) (t : TripRec) : TripRec := { t with dives := t.dives.erase did }

/-- The two assignments `dive->divetrip = NULL; dive->tripflag = NO_TRIP;`. -/
def clearTrip (r : DiveRec) : DiveRec :=
  { r with divetrip := none, tripflag := TripFlag.NO_TRIP }

/-- The decrement `--trip->nrdives`. -/
def decNr (t : TripRec) : TripRec := { t with nrdives := t.nrdives - 1 }

/-- The assignment `trip->when = ...`. -/
def setWhen (w : Int) (t : TripRec) : TripRec := { t with when := w }

/-- `trip->nrdives++` together with pushing the dive onto the chain head. -/
def pushDive (did : Nat) (t : TripRec) : TripRec :=
  { t with nrdives := t.nrdives + 1, dives := did :: t.dives }

/-- The assignments `dive->divetrip = trip; dive->tripflag = ASSIGNED_TRIP;`. -/
def setOwner (tid : Nat) (r : DiveRec) : DiveRec :=
  { r with divetrip := some tid, tripflag := TripFlag.ASSIGNED_TRIP }

/-- The assignment `dive->tripflag = IN_TRIP;`. -/
def markInTrip (r : DiveRec) : DiveRec := { r with tripflag := TripFlag.IN_TRIP }

/-- The unlink loop of delete_trip (lines 1113-1121): remove the first
matching trip from the trip list. -/
def removeTripFromList : List TripRec → Nat → List TripRec
  | [], _ => []
  | t :: ts, tid => if t.tid = tid then ts else t :: removeTripFromList ts tid

/-- delete_trip (lines 1107-1129): remove the trip from the list of
trips and free it.  The C asserts that the trip has no more dives. -/
def delete_trip (s : DLState) (tid : Nat) : DLState :=
  { s with trips := removeTripFromList s.trips tid }

/-- The timestamps of a trip's members, in chain order. -/
def tripMemberWhens (s : DLState) (t : TripRec) : List Int :=
  t.dives.filterMap fun did => (findDive s did).map DiveRec.when

/-- find_new_trip_start_time (lines 1131-1141): walk the member chain
and set the trip's timestamp to the smallest member timestamp.  The C
dereferences the chain head unconditionally; the function is only
called on a trip that still has members. -/
def find_new_trip_start_time (s : DLState) (tid : Nat) : DLState :=
  match getTrip s tid with
  | none => s
  | some tr =>
    match tripMemberWhens s tr with
    | [] => s
    | w :: ws => setTrip s tid (setWhen (ws.foldl min w))

/-- remove_dive_from_trip (lines 1143-1165): no-op when the dive has
no trip; otherwise unlink the dive from the trip's chain (O(1) via the
stored back-pointer), clear dive->divetrip, set tripflag NO_TRIP,
decrement the member count; when it reaches zero delete the trip, else
when the removed dive's timestamp equals the trip's start recompute
the start as the minimum over the remaining members. -/
def remove_dive_from_trip (s : DLState) (did : Nat) : DLState :=
  match findDive s did with
  | none => s
  | some d =>
    match d.divetrip with
    | none => s
    | some tid =>
      let s1 := setTrip s tid (eraseDive did)
      let s2 := setDive s1 did clearTrip
      match getTrip s2 tid with
      | none => s2
      | some tr =>
        let s3 := setTrip s2 tid decNr
        if tr.nrdives - 1 = 0 then delete_trip s3 tid
        else if tr.when = d.when then find_new_trip_start_time s3 tid
        else s3

/-- add_dive_to_trip (lines 1167-1186): no-op when the dive already
belongs to the trip; the C asserts trip->when is nonzero; otherwise
detach the dive from any current trip, increment the member count,
point the dive at the trip with tripflag ASSIGNED_TRIP, push it onto
the head of the membership chain, and lower the trip's start time to
the dive's timestamp when the dive has a nonzero timestamp earlier
than the trip's. -/
def add_dive_to_trip (s : DLState) (did : Nat) (tid : Nat) : DLState :=
  match findDive s did with
  | none => s
  | some d =>
    if d.divetrip = some tid then s
    else
      let s1 := remove_dive_from_trip s did
      match getTrip s1 tid with
      | none => s1
      | some tr =>
        let s2 := setTrip s1 tid (pushDive did)
        let s3 := setDive s2 did (setOwner tid)
        if d.when ≠ 0 ∧ tr.when > d.when then setTrip s3 tid (setWhen d.when)
        else s3

/-- The successor of a dive in a membership chain. -/
def nextInList : List Nat → Nat → Option Nat
  | [], _ => none
  | [_], _ => none
  | a :: b :: rest, d => if a = d then some b else nextInList (b :: rest) d

/-- Dereference dive->next: the successor of the dive in the chain of
the trip it currently belongs to. -/
def diveNext (s : DLState) (did : Nat) : Option Nat :=
  match findDive s did with
  | none => none
  | some d =>
    match d.divetrip with
    | none => none
    | some tid =>
      match getTrip s tid with
      | none => none
      | some tr => nextInList tr.dives did

/-- The pending-dive walk of insert_trip (lines 1092-1096): divep
starts at the draft's chain head; each iteration calls
add_dive_to_trip(divep, trip) and then advances through divep->next —
read from the CURRENT state, i.e. after add_dive_to_trip has relinked
the dive into the target trip's chain.  Fuel bounds the walk by the
number of dives. -/
def mergePendingDives (tid : Nat) : Nat → DLState → Option Nat → DLState
  | 0, s, _ => s
  | _ + 1, s, none => s
  | fuel + 1, s, some did =>
    let s1 := add_dive_to_trip s did tid
    mergePendingDives tid fuel s1 (diveNext s1 did)

/-- The list insertion of insert_trip's non-merging branch: the draft
goes right before the first trip whose start time is not earlier. -/
def insertBefore : List TripRec → TripRec → List TripRec
  | [], draft => [draft]
  | t :: ts, draft =>
    if draft.when ≤ t.when then draft :: t :: ts else t :: insertBefore ts draft

/-- insert_trip (lines 1076-1105): walk the trip list to the first
trip not earlier than the draft; if that trip has the identical start
time, copy the draft's location/notes into it where unset, walk the
draft's pending dives adding each to the existing trip, and return the
existing trip (the draft is discarded); otherwise link the draft in at
that position and return it. -/
def mergeTripInfo (draft : TripRec) (t : TripRec) : TripRec :=
  { t with
    location := match t.location with | none => draft.location | some l => some l,
    notes := match t.notes with | none => draft.notes | some x => some x }

def insert_trip (s : DLState) (draft : TripRec) : DLState × Nat :=
  match s.trips.find? (fun t => draft.when ≤ t.when) with
  | some tr =>
    if tr.when = draft.when then
      let s1 := setTrip s tr.tid (mergeTripInfo draft)
      (mergePendingDives tr.tid (s1.dives.length + 1) s1 draft.dives.head?, tr.tid)
    else ({ s with trips := insertBefore s.trips draft }, draft.tid)
  | none => ({ s with trips := insertBefore s.trips draft }, draft.tid)

/-- create_and_hookup_trip_from_dive (lines 1188-1199): allocate a
zeroed trip, give it the dive's timestamp and a copy of its location,
insert it into the registry (possibly merging into an existing trip
with the same start time), mark the dive IN_TRIP and add it to the
resulting trip. -/
def create_and_hookup_trip_from_dive (s : DLState) (did : Nat) : DLState × Nat :=
  match findDive s did with
  | none => (s, 0)
  | some d =>
    let draft : TripRec :=
      { tid := s.nextTid, tIndex := 0, when := d.when, location := d.location,
        notes := none, autogen := false, nrdives := 0, dives := [] }
    let s0 : DLState := { s with nextTid := s.nextTid + 1 }
    let p := insert_trip s0 draft
    let s2 := setDive p.1 did markInTrip
    (add_dive_to_trip s2 did p.2, p.2)

/-- find_trip_by_idx (lines 1032-1045): reject non-negative indexes,
then scan the trip list for a trip whose index field equals the given
index. -/
def find_trip_by_idx (s : DLState) (idx : Int) : Option TripRec :=
  if 0 ≤ idx then none
  else s.trips.find? fun t => t.tIndex == idx

/-- Modelled from the spec: DIVE_NEEDS_TRIP lives in dive.h (not among
the sources); a dive needs auto-grouping when it is not explicitly
flagged otherwise, i.e. its trip flag is still the initial TF_NONE. -/
def DIVE_NEEDS_TRIP (d : DiveRec) : Bool := d.tripflag = TripFlag.TF_NONE

/-- The new-trip arm of autogroup_dives (lines 1232-1234): remember
this dive as the last one, create and hook up a trip from it and flag
the trip auto-generated. -/
def setAutogen (t : TripRec) : TripRec := { t with autogen := true }

def setLoc (loc : String) (t : TripRec) : TripRec := { t with location := some loc }

def autogroupNewTrip (s : DLState) (did : Nat) : DLState :=
  let p := create_and_hookup_trip_from_dive s did
  setTrip p.1 p.2 setAutogen

/-- The for_each_dive loop of autogroup_dives (lines 1204-1240),
walking the dive identifiers in table order and carrying the last dive
seen: a dive that already has a trip is skipped but remembered; a dive
that does not need grouping resets the memory; otherwise the dive
joins the last dive's trip when it starts within the threshold of the
last dive's start (copying its location into the trip if the trip has
none), else it seeds a new auto-generated trip. -/
def autogroupGo (thr : Int) : List Nat → Option Nat → DLState → DLState
  | [], _, s => s
  | did :: rest, lastdive, s =>
    match findDive s did with
    | none => autogroupGo thr rest lastdive s
    | some d =>
      if d.divetrip.isSome then autogroupGo thr rest (some did) s
      else if ¬ DIVE_NEEDS_TRIP d then autogroupGo thr rest none s
      else
        match lastdive with
        | some ldid =>
          match findDive s ldid with
          | some ld =>
            if d.when < ld.when + thr then
              match ld.divetrip with
              | some tid =>
                let s1 := add_dive_to_trip s did tid
                let s2 :=
                  match d.location, getTrip s1 tid with
                  | some loc, some tr =>
                    if tr.location = none then setTrip s1 tid (setLoc loc)
                    else s1
                  | _, _ => s1
                autogroupGo thr rest (some did) s2
              | none => autogroupGo thr rest (some did) s
            else autogroupGo thr rest (some did) (autogroupNewTrip s did)
          | none => autogroupGo thr rest (some did) (autogroupNewTrip s did)
        | none => autogroupGo thr rest (some did) (autogroupNewTrip s did)

/-- autogroup_dives (lines 1204-1240): a single pass over the dive
table in order; TRIP_THRESHOLD lives in dive.h (not among the
sources), so the gap threshold is a parameter, per the spec an
implementation constant. -/
def autogroup_dives (s : DLState) (thr : Int) : DLState :=
  autogroupGo thr (s.dives.map Prod.fst) none s

/-- The move loop of merge_trips_cb (lines 2037-2039): while the
source trip still has dives, add its chain head to the target trip;
moving the last member deletes the source trip, ending the loop.  The
C asserts that the two trips are distinct.  Fuel bounds the loop. -/
def merge_trips (fromTid toTid : Nat) : Nat → DLState → DLState
  | 0, s => s
  | fuel + 1, s =>
    match getTrip s fromTid with
    | none => s
    | some tr =>
      match tr.dives with
      | [] => s
      | d :: _ => merge_trips fromTid toTid fuel (add_dive_to_trip s d toTid)

/-- The trip-data essence of insert_trip_before (lines 1840-1892),
splitting a trip at a member dive: first the timestamp fixup of lines
1860-1864 (when the split dive is displayed after a later-starting
dive whose trip starts earlier than that dive, raise that trip's start
— a no-op in sorted display order); then create and hook up a new trip
from the split dive; then walk the members displayed after it from the
last one backwards, adding each to the new trip, and finally re-add
the split dive itself (a no-op) as the walk reaches it and stops.
prevDid is the dive displayed immediately before the split dive and
after is the list of members displayed after it, in display order. -/
def split_trip (s : DLState) (prevDid did : Nat) (after : List Nat) : DLState × Nat :=
  let s0 :=
    match findDive s did, findDive s prevDid with
    | some d, some pd =>
      if d.when < pd.when then
        match pd.divetrip with
        | some ptid =>
          match getTrip s ptid with
          | some ptr =>
            if ptr.when < pd.when then setTrip s ptid (setWhen pd.when)
            else s
          | none => s
        | none => s
      else s
    | _, _ => s
  let p := create_and_hookup_trip_from_dive s0 did
  let s2 := (after.reverse).foldl (fun st x => add_dive_to_trip st x p.2) p.1
  (add_dive_to_trip s2 did p.2, p.2)

/-! ## C2: insert_trip merging with pending dives -/

/-- The C2 failing input, registry side: one trip (identifier 1,
display index 0, start 1000) whose sole member is dive 10; dives 11
and 12 are the pending dives of a draft trip, chained 11 -> 12. -/
def C2state : DLState :=
  { dives :=
      [(10, ⟨1000, 0, none, TripFlag.ASSIGNED_TRIP, some 1⟩),
       (11, ⟨1000, 0, none, TripFlag.IN_TRIP, some 99⟩),
       (12, ⟨1200, 0, none, TripFlag.IN_TRIP, some 99⟩)],
    trips := [⟨1, 0, 1000, none, none, false, 1, [10]⟩],
    nextTid := 100 }

/-- The C2 draft trip: same start time 1000 as the existing trip,
location set, two pending dives 11 and 12. -/
def C2draft : TripRec := ⟨99, 0, 1000, some "loc", none, false, 2, [11, 12]⟩

/-- C2: inserting a draft whose start time equals an existing trip's
start time does return the existing trip, leaves the registry size
unchanged and copies the draft's location into the existing trip, but
it does NOT reassign every pending dive: only the first pending dive
(11) ends up in the existing trip; after it is relinked, the walk
follows its new next pointer through the existing trip's chain, so
dive 12 is left attached to the discarded draft. -/
theorem C2_insert_trip_strands_pending :
    (insert_trip C2state C2draft).2 = 1 ∧
    (insert_trip C2state C2draft).1.trips.length = 1 ∧
    (getTrip (insert_trip C2state C2draft).1 1).map TripRec.location =
      some (some "loc") ∧
    (getTrip (insert_trip C2state C2draft).1 1).map TripRec.dives = some [11, 10] ∧
    (findDive (insert_trip C2state C2draft).1 11).map DiveRec.divetrip =
      some (some 1) ∧
    (findDive (insert_trip C2state C2draft).1 12).map DiveRec.divetrip =
      some (some 99) := by
  decide

/-! ### Field projections of the record updaters -/

@[simp] theorem eraseDive_tid (did : Nat) (t : TripRec) : (eraseDive did t).tid = t.tid := rfl
@[simp] theorem eraseDive_when (did : Nat) (t : TripRec) : (eraseDive did t).when = t.when := rfl
@[simp] theorem eraseDive_nrdives (did : Nat) (t : TripRec) :
    (eraseDive did t).nrdives = t.nrdives := rfl
@[simp] theorem eraseDive_dives (did : Nat) (t : TripRec) :
    (eraseDive did t).dives = t.dives.erase did := rfl
@[simp] theorem decNr_tid (t : TripRec) : (decNr t).tid = t.tid := rfl
@[simp] theorem decNr_when (t : TripRec) : (decNr t).when = t.when := rfl
@[simp] theorem decNr_dives (t : TripRec) : (decNr t).dives = t.dives := rfl
@[simp] theorem decNr_nrdives (t : TripRec) : (decNr t).nrdives = t.nrdives - 1 := rfl
@[simp] theorem setWhen_tid (w : Int) (t : TripRec) : (setWhen w t).tid = t.tid := rfl
@[simp] theorem setWhen_dives (w : Int) (t : TripRec) : (setWhen w t).dives = t.dives := rfl
@[simp] theorem setWhen_nrdives (w : Int) (t : TripRec) :
    (setWhen w t).nrdives = t.nrdives := rfl
@[simp] theorem setWhen_when (w : Int) (t : TripRec) : (setWhen w t).when = w := rfl
@[simp] theorem pushDive_tid (did : Nat) (t : TripRec) : (pushDive did t).tid = t.tid := rfl
@[simp] theorem pushDive_when (did : Nat) (t : TripRec) : (pushDive did t).when = t.when := rfl
@[simp] theorem pushDive_nrdives (did : Nat) (t : TripRec) :
    (pushDive did t).nrdives = t.nrdives + 1 := rfl
@[simp] theorem pushDive_dives (did : Nat) (t : TripRec) :
    (pushDive did t).dives = did :: t.dives := rfl
@[simp] theorem clearTrip_when (r : DiveRec) : (clearTrip r).when = r.when := rfl
@[simp] theorem clearTrip_divetrip (r : DiveRec) : (clearTrip r).divetrip = none := rfl
@[simp] theorem setOwner_when (tid : Nat) (r : DiveRec) : (setOwner tid r).when = r.when := rfl
@[simp] theorem setOwner_divetrip (tid : Nat) (r : DiveRec) :
    (setOwner tid r).divetrip = some tid := rfl
@[simp] theorem markInTrip_when (r : DiveRec) : (markInTrip r).when = r.when := rfl
@[simp] theorem markInTrip_divetrip (r : DiveRec) :
    (markInTrip r).divetrip = r.divetrip := rfl
@[simp] theorem setAutogen_tid (t : TripRec) : (setAutogen t).tid = t.tid := rfl
@[simp] theorem setAutogen_when (t : TripRec) : (setAutogen t).when = t.when := rfl
@[simp] theorem setAutogen_dives (t : TripRec) : (setAutogen t).dives = t.dives := rfl
@[simp] theorem setAutogen_nrdives (t : TripRec) :
    (setAutogen t).nrdives = t.nrdives := rfl
@[simp] theorem setLoc_tid (loc : String) (t : TripRec) : (setLoc loc t).tid = t.tid := rfl
@[simp] theorem setLoc_when (loc : String) (t : TripRec) : (setLoc loc t).when = t.when := rfl
@[simp] theorem setLoc_dives (loc : String) (t : TripRec) :
    (setLoc loc t).dives = t.dives := rfl
@[simp] theorem setLoc_nrdives (loc : String) (t : TripRec) :
    (setLoc loc t).nrdives = t.nrdives := rfl
@[simp] theorem mergeTripInfo_tid (d t : TripRec) : (mergeTripInfo d t).tid = t.tid := rfl
@[simp] theorem mergeTripInfo_when (d t : TripRec) : (mergeTripInfo d t).when = t.when := rfl
@[simp] theorem mergeTripInfo_dives (d t : TripRec) :
    (mergeTripInfo d t).dives = t.dives := rfl
@[simp] theorem mergeTripInfo_nrdives (d t : TripRec) :
    (mergeTripInfo d t).nrdives = t.nrdives := rfl

/-! ## Structural well-formedness of the trip state

The pointer structure of the C (unique struct addresses, each dive in
exactly the chain of the trip its divetrip points to, counters in sync
with the chains) is captured by WF; the start-time invariant of the
spec by StartInv; NZ states that every dive carries a nonzero
timestamp, which is what the guard in add_dive_to_trip (line 1184)
presumes. -/

/-- The dive identifiers of the table. -/
def diveIds (s : DLState) : List Nat := s.dives.map Prod.fst

/-- A dive's divetrip field points at a registered trip that has the
dive in its member chain. -/
def OwnerOk (s : DLState) (did : Nat) (o : Option Nat) : Prop :=
  ∀ tid, o = some tid → ∃ t, t ∈ s.trips ∧ t.tid = tid ∧ did ∈ t.dives

instance (s : DLState) (did : Nat) (o : Option Nat) : Decidable (OwnerOk s did o) :=
  match o with
  | none => isTrue (by intro tid h; exact absurd h (by simp))
  | some x =>
      decidable_of_iff (∃ t, t ∈ s.trips ∧ t.tid = x ∧ did ∈ t.dives) (by
        constructor
        · rintro ⟨t, ht⟩ tid htid
          rw [Option.some_inj] at htid
          exact ⟨t, by rwa [← htid]⟩
        · intro h
          exact h x rfl)

/-- Structural well-formedness: unique dive identifiers, unique trip
identifiers below the allocator, member chains without duplicates and
in sync with the member counters, every chained dive pointing back at
its trip, and every dive's trip pointer backed by a registry trip that
chains it. -/
def WF (s : DLState) : Prop :=
  (diveIds s).Nodup ∧
  (s.trips.map TripRec.tid).Nodup ∧
  (∀ t ∈ s.trips, t.dives.Nodup) ∧
  (∀ t ∈ s.trips, t.nrdives = t.dives.length) ∧
  (∀ t ∈ s.trips, ∀ d ∈ t.dives, (findDive s d).map DiveRec.divetrip = some (some t.tid)) ∧
  (∀ p ∈ s.dives, OwnerOk s p.1 p.2.divetrip) ∧
  (∀ t ∈ s.trips, t.tid < s.nextTid)

/-- The spec's trip invariant: every registered trip has at least one
member and its start time is the minimum timestamp over its members
(as membership plus lower bound). -/
def StartInv (s : DLState) : Prop :=
  ∀ t ∈ s.trips,
    tripMemberWhens s t ≠ [] ∧
    t.when ∈ tripMemberWhens s t ∧
    ∀ w ∈ tripMemberWhens s t, t.when ≤ w

/-- StartInv away from one trip identifier (the draft just inserted
by create_and_hookup is empty until its dive is added). -/
def StartInvExcept (s : DLState) (x : Nat) : Prop :=
  ∀ t ∈ s.trips, t.tid ≠ x →
    tripMemberWhens s t ≠ [] ∧
    t.when ∈ tripMemberWhens s t ∧
    ∀ w ∈ tripMemberWhens s t, t.when ≤ w

/-- Every dive has a nonzero timestamp. -/
def NZ (s : DLState) : Prop := ∀ p ∈ s.dives, p.2.when ≠ 0

theorem startInv_except (s : DLState) (x : Nat) (h : StartInv s) : StartInvExcept s x :=
  fun t ht _ => h t ht

theorem startInv_of_except (s : DLState) (x : Nat)
    (h : StartInvExcept s x) (hx : ∀ t ∈ s.trips, t.tid ≠ x) : StartInv s :=
  fun t ht => h t ht (hx t ht)

/-- min? characterization over Int used to phrase the claims. -/
theorem int_min?_eq_some {a : Int} {xs : List Int} :
    xs.min? = some a ↔ a ∈ xs ∧ ∀ b ∈ xs, a ≤ b :=
  have : Std.Antisymm (fun (x1 x2 : Int) => x1 ≤ x2) :=
    ⟨fun {x y} h h2 => le_antisymm h h2⟩
  List.min?_eq_some_iff (fun _ => le_refl _) (fun _ _ => min_choice _ _)
    (fun _ _ _ => le_min_iff)

/-! ### Frame lemmas for the state accessors -/

theorem findDive_setTrip (s : DLState) (tid : Nat) (f : TripRec → TripRec) (did : Nat) :
    findDive (setTrip s tid f) did = findDive s did := rfl

theorem findDive_delete_trip (s : DLState) (tid : Nat) (did : Nat) :
    findDive (delete_trip s tid) did = findDive s did := rfl

theorem getTrip_setDive (s : DLState) (did : Nat) (f : DiveRec → DiveRec) (tid : Nat) :
    getTrip (setDive s did f) tid = getTrip s tid := rfl

theorem dives_setTrip (s : DLState) (tid : Nat) (f : TripRec → TripRec) :
    (setTrip s tid f).dives = s.dives := rfl

theorem dives_delete_trip (s : DLState) (tid : Nat) :
    (delete_trip s tid).dives = s.dives := rfl

theorem trips_setDive (s : DLState) (did : Nat) (f : DiveRec → DiveRec) :
    (setDive s did f).trips = s.trips := rfl

theorem nextTid_setTrip (s : DLState) (tid : Nat) (f : TripRec → TripRec) :
    (setTrip s tid f).nextTid = s.nextTid := rfl

theorem nextTid_setDive (s : DLState) (did : Nat) (f : DiveRec → DiveRec) :
    (setDive s did f).nextTid = s.nextTid := rfl

theorem nextTid_delete_trip (s : DLState) (tid : Nat) :
    (delete_trip s tid).nextTid = s.nextTid := rfl

theorem findPair_map (l : List (Nat × DiveRec)) (did x : Nat) (f : DiveRec → DiveRec) :
    (l.map fun p => if p.1 = did then (p.1, f p.2) else p).find? (fun p => p.1 == x) =
      if x = did then (l.find? (fun p => p.1 == x)).map (fun p => (p.1, f p.2))
      else l.find? (fun p => p.1 == x) := by
  induction l with
  | nil => by_cases h : x = did <;> simp [h]
  | cons p rest ih =>
      by_cases hx : x = did
      · subst hx
        by_cases h : p.1 = x
        · simp [List.find?_cons, h]
        · have hb : (p.1 == x) = false := by simp [h]
          simp only [List.map_cons, List.find?_cons, if_neg h, hb, if_pos rfl] at ih ⊢
          exact ih
      · by_cases h : p.1 = did
        · have hb : (p.1 == x) = false := by simp; omega
          simp only [List.map_cons, List.find?_cons, if_pos h]
          have hb2 : ((p.1, f p.2).1 == x) = false := hb
          simp only [hb2, hb, if_neg hx] at ih ⊢
          exact ih
        · by_cases h2 : p.1 = x
          · simp [List.find?_cons, h, h2, hx]
          · have hb : (p.1 == x) = false := by simp [h2]
            simp only [List.map_cons, List.find?_cons, if_neg h, hb, if_neg hx] at ih ⊢
            exact ih

theorem findDive_setDive_self (s : DLState) (did : Nat) (f : DiveRec → DiveRec) :
    findDive (setDive s did f) did = (findDive s did).map f := by
  show ((s.dives.map fun p => if p.1 = did then (p.1, f p.2) else p).find?
    (fun p => p.1 == did)).map Prod.snd = ((s.dives.find? fun p => p.1 == did).map Prod.snd).map f
  rw [findPair_map, if_pos rfl]
  cases s.dives.find? fun p => p.1 == did <;> rfl

theorem findDive_setDive_other (s : DLState) (did : Nat) (f : DiveRec → DiveRec)
    (x : Nat) (hx : x ≠ did) :
    findDive (setDive s did f) x = findDive s x := by
  show ((s.dives.map fun p => if p.1 = did then (p.1, f p.2) else p).find?
    (fun p => p.1 == x)).map Prod.snd = (s.dives.find? fun p => p.1 == x).map Prod.snd
  rw [findPair_map, if_neg hx]

theorem findTrip_map (l : List TripRec) (tid x : Nat) (f : TripRec → TripRec)
    (hf : ∀ t, (f t).tid = t.tid) :
    (l.map fun t => if t.tid = tid then f t else t).find? (fun t => t.tid == x) =
      if x = tid then (l.find? (fun t => t.tid == x)).map f
      else l.find? (fun t => t.tid == x) := by
  induction l with
  | nil => by_cases h : x = tid <;> simp [h]
  | cons a rest ih =>
      by_cases hx : x = tid
      · subst hx
        by_cases h : a.tid = x
        · have h2 : ((if a.tid = x then f a else a).tid == x) = true := by
            rw [if_pos h, hf a, h]; simp
          have h3 : (a.tid == x) = true := by simp [h]
          simp only [List.map_cons, List.find?_cons, h2, h3]
          simp [h]
        · have h2 : ((if a.tid = x then f a else a).tid == x) = false := by
            rw [if_neg h]; simp [h]
          have h3 : (a.tid == x) = false := by simp [h]
          simp only [List.map_cons, List.find?_cons, h2, h3, if_pos rfl] at ih ⊢
          exact ih
      · by_cases h : a.tid = tid
        · have h2 : ((if a.tid = tid then f a else a).tid == x) = false := by
            rw [if_pos h, hf a, h]; simp; omega
          have h3 : (a.tid == x) = false := by simp [h]; omega
          simp only [List.map_cons, List.find?_cons, h2, h3, if_neg hx] at ih ⊢
          exact ih
        · by_cases h4 : a.tid = x
          · have h2 : ((if a.tid = tid then f a else a).tid == x) = true := by
              rw [if_neg h, h4]; simp
            have h3 : (a.tid == x) = true := by simp [h4]
            simp only [List.map_cons, List.find?_cons, h2, h3]
            simp [h, hx]
          · have h2 : ((if a.tid = tid then f a else a).tid == x) = false := by
              rw [if_neg h]; simp [h4]
            have h3 : (a.tid == x) = false := by simp [h4]
            simp only [List.map_cons, List.find?_cons, h2, h3, if_neg hx] at ih ⊢
            exact ih

theorem getTrip_setTrip_self {s : DLState} {tid : Nat} {f : TripRec → TripRec}
    (hf : ∀ t, (f t).tid = t.tid) :
    getTrip (setTrip s tid f) tid = (getTrip s tid).map f := by
  show (s.trips.map fun t => if t.tid = tid then f t else t).find?
    (fun t => t.tid == tid) = (s.trips.find? fun t => t.tid == tid).map f
  rw [findTrip_map s.trips tid tid f hf, if_pos rfl]

theorem getTrip_setTrip_other {s : DLState} {tid : Nat} {f : TripRec → TripRec}
    (hf : ∀ t, (f t).tid = t.tid) (x : Nat) (hx : x ≠ tid) :
    getTrip (setTrip s tid f) x = getTrip s x := by
  show (s.trips.map fun t => if t.tid = tid then f t else t).find?
    (fun t => t.tid == x) = s.trips.find? fun t => t.tid == x
  rw [findTrip_map s.trips tid x f hf, if_neg hx]

theorem getTrip_mem {s : DLState} {tid : Nat} {t : TripRec}
    (h : getTrip s tid = some t) : t ∈ s.trips ∧ t.tid = tid := by
  refine ⟨List.mem_of_find?_eq_some h, ?_⟩
  have := List.find?_some h
  simpa using this

theorem find?_tid_of_mem {l : List TripRec} {t : TripRec}
    (hnd : (l.map TripRec.tid).Nodup) (ht : t ∈ l) :
    l.find? (fun x => x.tid == t.tid) = some t := by
  induction l with
  | nil => exact absurd ht (List.not_mem_nil t)
  | cons a rest ih =>
      rcases List.mem_cons.mp ht with rfl | ht2
      · simp [List.find?_cons]
      · have hane : a.tid ≠ t.tid := by
          intro he
          rw [List.map_cons] at hnd
          exact (List.nodup_cons.mp hnd).1 (he ▸ List.mem_map_of_mem TripRec.tid ht2)
        have hb : (a.tid == t.tid) = false := by simp [hane]
        simp only [List.find?_cons, hb]
        exact ih (by rw [List.map_cons] at hnd; exact (List.nodup_cons.mp hnd).2) ht2

theorem mem_getTrip {s : DLState} {t : TripRec}
    (hnd : (s.trips.map TripRec.tid).Nodup) (ht : t ∈ s.trips) :
    getTrip s t.tid = some t :=
  find?_tid_of_mem hnd ht

theorem findDive_mem {s : DLState} {did : Nat} {d : DiveRec}
    (h : findDive s did = some d) : (did, d) ∈ s.dives := by
  rw [findDive] at h
  cases hq : s.dives.find? fun p => p.1 == did with
  | none => rw [hq] at h; exact Option.noConfusion h
  | some q =>
      rw [hq] at h
      have h1 : q.1 = did := by simpa using List.find?_some hq
      have h2 : q.2 = d := by simpa using h
      have := List.mem_of_find?_eq_some hq
      rwa [← h1, ← h2]

theorem findDive_isSome_of_mem {s : DLState} {did : Nat} {d : DiveRec}
    (h : (did, d) ∈ s.dives) : ∃ r, findDive s did = some r := by
  rw [findDive]
  cases hq : s.dives.find? fun p => p.1 == did with
  | some q => exact ⟨q.2, rfl⟩
  | none =>
      exfalso
      have := List.find?_eq_none.mp hq (did, d) h
      simp at this

theorem mem_removeTripFromList {l : List TripRec} {tid : Nat} {x : TripRec}
    (h : x ∈ removeTripFromList l tid) : x ∈ l := by
  induction l with
  | nil => exact absurd h (List.not_mem_nil x)
  | cons a rest ih =>
      rw [removeTripFromList] at h
      split_ifs at h with ha
      · exact List.mem_cons_of_mem _ h
      · rcases List.mem_cons.mp h with rfl | h2
        · exact List.mem_cons_self _ _
        · exact List.mem_cons_of_mem _ (ih h2)

theorem map_tid_removeTripFromList (l : List TripRec) (tid : Nat) :
    (removeTripFromList l tid).map TripRec.tid = (l.map TripRec.tid).erase tid := by
  induction l with
  | nil => rfl
  | cons a rest ih =>
      rw [removeTripFromList]
      by_cases h : a.tid = tid
      · rw [if_pos h, List.map_cons, h, List.erase_cons_head]
      · rw [if_neg h, List.map_cons, List.map_cons, ih, List.erase_cons_tail]
        simp [h]

theorem getTrip_delete_trip_self {s : DLState} {tid : Nat}
    (hnd : (s.trips.map TripRec.tid).Nodup) :
    getTrip (delete_trip s tid) tid = none := by
  show (removeTripFromList s.trips tid).find? (fun t => t.tid == tid) = none
  rw [List.find?_eq_none]
  intro x hx
  have hmap := map_tid_removeTripFromList s.trips tid
  have hxm : x.tid ∈ (removeTripFromList s.trips tid).map TripRec.tid :=
    List.mem_map_of_mem TripRec.tid hx
  rw [hmap] at hxm
  have := (hnd.mem_erase_iff).mp hxm
  simp [this.1]

theorem getTrip_delete_trip_other (s : DLState) (tid x : Nat) (hx : x ≠ tid) :
    getTrip (delete_trip s tid) x = getTrip s x := by
  show (removeTripFromList s.trips tid).find? (fun t => t.tid == x) =
    s.trips.find? (fun t => t.tid == x)
  induction s.trips with
  | nil => rfl
  | cons a rest ih =>
      rw [removeTripFromList]
      by_cases h : a.tid = tid
      · have hb : (a.tid == x) = false := by
          simp [h]
          omega
        rw [if_pos h, List.find?_cons, hb]
      · rw [if_neg h, List.find?_cons, List.find?_cons]
        cases hb : a.tid == x with
        | true => rfl
        | false => exact ih

theorem trips_setTrip (s : DLState) (tid : Nat) (f : TripRec → TripRec) :
    (setTrip s tid f).trips = s.trips.map fun t => if t.tid = tid then f t else t := rfl

theorem map_tid_setTrip (s : DLState) (tid : Nat) (f : TripRec → TripRec)
    (hf : ∀ t, (f t).tid = t.tid) :
    (setTrip s tid f).trips.map TripRec.tid = s.trips.map TripRec.tid := by
  rw [trips_setTrip, List.map_map]
  refine List.map_congr_left ?_
  intro t _
  by_cases h : t.tid = tid <;> simp [h, hf]

theorem tripMemberWhens_setTrip (s : DLState) (tid : Nat) (f : TripRec → TripRec)
    (t : TripRec) : tripMemberWhens (setTrip s tid f) t = tripMemberWhens s t := rfl

theorem tripMemberWhens_delete_trip (s : DLState) (tid : Nat) (t : TripRec) :
    tripMemberWhens (delete_trip s tid) t = tripMemberWhens s t := rfl

theorem tripMemberWhens_congr {t t' : TripRec} (s : DLState) (h : t.dives = t'.dives) :
    tripMemberWhens s t = tripMemberWhens s t' := by
  rw [tripMemberWhens, tripMemberWhens, h]

theorem tripMemberWhens_setDive (s : DLState) (did : Nat) (f : DiveRec → DiveRec)
    (hw : ∀ r, (f r).when = r.when) (t : TripRec) :
    tripMemberWhens (setDive s did f) t = tripMemberWhens s t := by
  rw [tripMemberWhens, tripMemberWhens]
  refine List.filterMap_congr ?_
  intro x _
  by_cases h : x = did
  · subst h
    rw [findDive_setDive_self]
    cases hq : findDive s x <;> simp [hw]
  · rw [findDive_setDive_other s did f x h]

theorem filterMap_erase_perm (g : Nat → Option Int) (l : List Nat)
    (hnd : l.Nodup) (a : Nat) (ha : a ∈ l) (w : Int) (hg : g a = some w) :
    (l.filterMap g).Perm (w :: (l.erase a).filterMap g) := by
  induction l with
  | nil => exact absurd ha (List.not_mem_nil a)
  | cons x rest ih =>
      rcases List.mem_cons.mp ha with rfl | ha2
      · rw [List.erase_cons_head, List.filterMap_cons, hg]
      · have hxa : x ≠ a := by
          intro he
          exact (List.nodup_cons.mp hnd).1 (he ▸ ha2)
        have hne : ¬(x == a) = true := by simp [hxa]
        rw [List.erase_cons_tail hne]
        rw [List.filterMap_cons, List.filterMap_cons]
        cases hgx : g x with
        | none => exact ih (List.nodup_cons.mp hnd).2 ha2
        | some wx =>
            refine ((ih (List.nodup_cons.mp hnd).2 ha2).cons wx).trans ?_
            exact List.Perm.swap w wx _

theorem mem_remove_of_ne {l : List TripRec} {tid : Nat} {x : TripRec}
    (hx : x ∈ l) (h : x.tid ≠ tid) : x ∈ removeTripFromList l tid := by
  induction l with
  | nil => exact absurd hx (List.not_mem_nil x)
  | cons a rest ih =>
      rw [removeTripFromList]
      rcases List.mem_cons.mp hx with rfl | hx2
      · rw [if_neg h]
        exact List.mem_cons_self _ _
      · split_ifs with ha
        · exact hx2
        · exact List.mem_cons_of_mem _ (ih hx2)

theorem eq_of_mem_tid_nodup {l : List TripRec}
    (hnd : (l.map TripRec.tid).Nodup) {a b : TripRec}
    (ha : a ∈ l) (hb : b ∈ l) (h : a.tid = b.tid) : a = b := by
  induction l with
  | nil => exact absurd ha (List.not_mem_nil a)
  | cons c rest ih =>
      rw [List.map_cons, List.nodup_cons] at hnd
      rcases List.mem_cons.mp ha with rfl | ha2 <;>
        rcases List.mem_cons.mp hb with rfl | hb2
      · rfl
      · exact absurd (h ▸ List.mem_map_of_mem TripRec.tid hb2) hnd.1
      · exact absurd (h ▸ List.mem_map_of_mem TripRec.tid ha2) hnd.1
      · exact ih hnd.2 ha2 hb2

theorem foldl_min_mem (w : Int) (ws : List Int) : ws.foldl min w ∈ w :: ws := by
  induction ws generalizing w with
  | nil => exact List.mem_singleton.mpr rfl
  | cons a ws ih =>
      rw [List.foldl_cons]
      rcases List.mem_cons.mp (ih (min w a)) with h | h
      · rcases min_choice w a with h2 | h2 <;> rw [h, h2]
        · exact List.mem_cons_self _ _
        · exact List.mem_cons_of_mem _ (List.mem_cons_self _ _)
      · exact List.mem_cons_of_mem _ (List.mem_cons_of_mem _ h)

theorem foldl_min_le (w : Int) (ws : List Int) :
    ∀ z ∈ w :: ws, ws.foldl min w ≤ z := by
  induction ws generalizing w with
  | nil =>
      intro z hz
      rw [List.mem_singleton] at hz
      rw [hz]
      exact le_refl _
  | cons a ws ih =>
      intro z hz
      rw [List.foldl_cons]
      rcases List.mem_cons.mp hz with h1 | hz2
      · rw [h1]
        exact le_trans (ih (min w a) _ (List.mem_cons_self _ _)) (min_le_left _ _)
      · rcases List.mem_cons.mp hz2 with h2 | hz3
        · rw [h2]
          exact le_trans (ih (min w a) _ (List.mem_cons_self _ _)) (min_le_right _ _)
        · exact ih (min w a) z (List.mem_cons_of_mem _ hz3)

theorem mem_whens_of_mem {s : DLState} {t : TripRec} {e : Nat} {r : DiveRec}
    (he : e ∈ t.dives) (hr : findDive s e = some r) :
    r.when ∈ tripMemberWhens s t := by
  rw [tripMemberWhens]
  exact List.mem_filterMap.mpr ⟨e, he, by rw [hr]; rfl⟩

theorem diveIds_setDive (s : DLState) (did : Nat) (f : DiveRec → DiveRec) :
    diveIds (setDive s did f) = diveIds s := by
  show (s.dives.map fun p => if p.1 = did then (p.1, f p.2) else p).map Prod.fst =
    s.dives.map Prod.fst
  rw [List.map_map]
  refine List.map_congr_left ?_
  intro p _
  by_cases h : p.1 = did <;> simp [h]

theorem dives_mem_setDive {s : DLState} {did : Nat} {f : DiveRec → DiveRec} {q} :
    q ∈ (setDive s did f).dives →
      ∃ p ∈ s.dives, q = if p.1 = did then (p.1, f p.2) else p := by
  intro h
  obtain ⟨p, hp, he⟩ := List.mem_map.mp h
  exact ⟨p, hp, he.symm⟩

theorem owner_unique {s : DLState} (hwf : WF s) {did : Nat} {d : DiveRec}
    (hd : findDive s did = some d) {tid : Nat} (hdt : d.divetrip = some tid) :
    ∃ T, T ∈ s.trips ∧ T.tid = tid ∧ did ∈ T.dives ∧ getTrip s tid = some T := by
  obtain ⟨-, htnd, -, -, -, hown, -⟩ := hwf
  obtain ⟨T, hT, hTtid, hTmem⟩ := hown (did, d) (findDive_mem hd) tid hdt
  refine ⟨T, hT, hTtid, hTmem, ?_⟩
  rw [← hTtid]
  exact mem_getTrip htnd hT

/-- The conclusions every trip mutation maintains: well-formedness,
the start invariant away from the excepted trip, and the frame facts
used to chain mutations (dive identifiers, dive timestamps and the
allocator unchanged, and no trip identifier invented). -/
def Preserved (s s' : DLState) (x : Nat) : Prop :=
  WF s' ∧
  StartInvExcept s' x ∧
  diveIds s' = diveIds s ∧
  (∀ y, (findDive s' y).map DiveRec.when = (findDive s y).map DiveRec.when) ∧
  s'.nextTid = s.nextTid ∧
  (∀ q ∈ s'.trips, ∃ y ∈ s.trips, q.tid = y.tid)

theorem preserved_refl (s : DLState) (x : Nat) (hwf : WF s)
    (hsi : StartInvExcept s x) : Preserved s s x :=
  ⟨hwf, hsi, rfl, fun _ => rfl, rfl, fun q hq => ⟨q, hq, rfl⟩⟩

theorem preserved_trans {s1 s2 s3 : DLState} {x : Nat}
    (h12 : Preserved s1 s2 x) (h23 : Preserved s2 s3 x) : Preserved s1 s3 x := by
  obtain ⟨a1, b1, c1, d1, e1, f1⟩ := h12
  obtain ⟨a2, b2, c2, d2, e2, f2⟩ := h23
  refine ⟨a2, b2, c2.trans c1, fun y => (d2 y).trans (d1 y), e2.trans e1, ?_⟩
  intro q hq
  obtain ⟨y, hy, hqy⟩ := f2 q hq
  obtain ⟨z, hz, hyz⟩ := f1 y hy
  exact ⟨z, hz, hqy.trans hyz⟩

theorem find?_pair_of_mem {l : List (Nat × DiveRec)} (hnd : (l.map Prod.fst).Nodup)
    {did : Nat} {d : DiveRec} (h : (did, d) ∈ l) :
    l.find? (fun p => p.1 == did) = some (did, d) := by
  induction l with
  | nil => exact absurd h (List.not_mem_nil _)
  | cons a rest ih =>
      rw [List.map_cons, List.nodup_cons] at hnd
      rcases List.mem_cons.mp h with rfl | h2
      · simp [List.find?_cons]
      · have hane : a.1 ≠ did := by
          intro he
          exact hnd.1 (he ▸ List.mem_map_of_mem Prod.fst h2)
        have hb : (a.1 == did) = false := by simp [hane]
        simp only [List.find?_cons, hb]
        exact ih hnd.2 h2

theorem mem_findDive {s : DLState} (hnd : (diveIds s).Nodup) {did : Nat} {d : DiveRec}
    (h : (did, d) ∈ s.dives) : findDive s did = some d := by
  rw [findDive, find?_pair_of_mem hnd h]
  rfl

theorem NZ_find {s : DLState} (hnz : NZ s) {did : Nat} {d : DiveRec}
    (h : findDive s did = some d) : d.when ≠ 0 :=
  hnz (did, d) (findDive_mem h)

theorem mem_setTrip_trips {s : DLState} {tid : Nat} {f : TripRec → TripRec} {q : TripRec} :
    q ∈ (setTrip s tid f).trips ↔ ∃ y ∈ s.trips, q = if y.tid = tid then f y else y := by
  rw [trips_setTrip]
  constructor
  · intro h
    obtain ⟨y, hy, he⟩ := List.mem_map.mp h
    exact ⟨y, hy, he.symm⟩
  · rintro ⟨y, hy, rfl⟩
    exact List.mem_map_of_mem _ hy

theorem setTrip_mem_of_mem {s : DLState} {tid : Nat} {f : TripRec → TripRec} {y : TripRec}
    (hy : y ∈ s.trips) : (if y.tid = tid then f y else y) ∈ (setTrip s tid f).trips :=
  mem_setTrip_trips.mpr ⟨y, hy, rfl⟩

/-- A trip update that touches neither the identifier, the member
chain nor the counter keeps the state well-formed. -/
theorem WF_setTrip_light {s : DLState} {tid : Nat} {f : TripRec → TripRec}
    (hwf : WF s) (htid : ∀ t, (f t).tid = t.tid)
    (hdv : ∀ t, (f t).dives = t.dives) (hnr : ∀ t, (f t).nrdives = t.nrdives) :
    WF (setTrip s tid f) := by
  obtain ⟨hdnd, htnd, hmnd, hnrd, hmo, how, htb⟩ := hwf
  have hqprops : ∀ q ∈ (setTrip s tid f).trips,
      ∃ y ∈ s.trips, q.tid = y.tid ∧ q.dives = y.dives ∧ q.nrdives = y.nrdives := by
    intro q hq
    obtain ⟨y, hy, rfl⟩ := mem_setTrip_trips.mp hq
    by_cases h : y.tid = tid
    · exact ⟨y, hy, by rw [if_pos h, htid], by rw [if_pos h, hdv], by rw [if_pos h, hnr]⟩
    · exact ⟨y, hy, by rw [if_neg h], by rw [if_neg h], by rw [if_neg h]⟩
  refine ⟨hdnd, ?_, ?_, ?_, ?_, ?_, ?_⟩
  · rw [map_tid_setTrip s tid f htid]
    exact htnd
  · intro q hq
    obtain ⟨y, hy, -, hdq, -⟩ := hqprops q hq
    rw [hdq]
    exact hmnd y hy
  · intro q hq
    obtain ⟨y, hy, -, hdq, hnq⟩ := hqprops q hq
    rw [hdq, hnq]
    exact hnrd y hy
  · intro q hq e he
    obtain ⟨y, hy, htq, hdq, -⟩ := hqprops q hq
    rw [hdq] at he
    rw [findDive_setTrip, htq]
    exact hmo y hy e he
  · intro p hp tid2 hp2
    obtain ⟨T2, hT2, hT2tid, hT2mem⟩ := how p hp tid2 hp2
    refine ⟨if T2.tid = tid then f T2 else T2, setTrip_mem_of_mem hT2, ?_, ?_⟩
    · by_cases h : T2.tid = tid
      · rw [if_pos h, htid]; exact hT2tid
      · rw [if_neg h]; exact hT2tid
    · by_cases h : T2.tid = tid
      · rw [if_pos h, hdv]; exact hT2mem
      · rw [if_neg h]; exact hT2mem
  · intro q hq
    obtain ⟨y, hy, htq, -, -⟩ := hqprops q hq
    rw [nextTid_setTrip, htq]
    exact htb y hy

/-- A trip update that touches neither the identifier, the member
chain nor the start time keeps the start invariant. -/
theorem SIE_setTrip_light {s : DLState} {tid : Nat} {f : TripRec → TripRec} {x : Nat}
    (hsi : StartInvExcept s x) (htid : ∀ t, (f t).tid = t.tid)
    (hdv : ∀ t, (f t).dives = t.dives) (hwhen : ∀ t, (f t).when = t.when) :
    StartInvExcept (setTrip s tid f) x := by
  intro q hq hqx
  obtain ⟨y, hy, rfl⟩ := mem_setTrip_trips.mp hq
  have hyq : (if y.tid = tid then f y else y).dives = y.dives ∧
      (if y.tid = tid then f y else y).when = y.when ∧
      (if y.tid = tid then f y else y).tid = y.tid := by
    by_cases h : y.tid = tid
    · rw [if_pos h]
      exact ⟨hdv y, hwhen y, htid y⟩
    · rw [if_neg h]
      exact ⟨rfl, rfl, rfl⟩
  obtain ⟨h1, h2, h3⟩ := hyq
  rw [h3] at hqx
  have := hsi y hy hqx
  rw [tripMemberWhens_setTrip, tripMemberWhens_congr _ h1, h2]
  exact this

theorem preserved_setTrip_light {s : DLState} {tid : Nat} {f : TripRec → TripRec} {x : Nat}
    (hwf : WF s) (hsi : StartInvExcept s x) (htid : ∀ t, (f t).tid = t.tid)
    (hdv : ∀ t, (f t).dives = t.dives) (hnr : ∀ t, (f t).nrdives = t.nrdives)
    (hwhen : ∀ t, (f t).when = t.when) :
    Preserved s (setTrip s tid f) x := by
  refine ⟨WF_setTrip_light hwf htid hdv hnr, SIE_setTrip_light hsi htid hdv hwhen,
    rfl, fun y => rfl, rfl, ?_⟩
  intro q hq
  obtain ⟨y, hy, rfl⟩ := mem_setTrip_trips.mp hq
  by_cases h : y.tid = tid
  · exact ⟨y, hy, by rw [if_pos h, htid]⟩
  · exact ⟨y, hy, by rw [if_neg h]⟩

/-- Deleting a trip no dive points at keeps the state well-formed. -/
theorem WF_delete {s : DLState} {tid : Nat} (hwf : WF s)
    (hnone : ∀ p ∈ s.dives, p.2.divetrip ≠ some tid) : WF (delete_trip s tid) := by
  obtain ⟨hdnd, htnd, hmnd, hnrd, hmo, how, htb⟩ := hwf
  refine ⟨hdnd, ?_, ?_, ?_, ?_, ?_, ?_⟩
  · show ((removeTripFromList s.trips tid).map TripRec.tid).Nodup
    rw [map_tid_removeTripFromList]
    exact htnd.erase tid
  · exact fun q hq => hmnd q (mem_removeTripFromList hq)
  · exact fun q hq => hnrd q (mem_removeTripFromList hq)
  · exact fun q hq => hmo q (mem_removeTripFromList hq)
  · intro p hp tid2 hp2
    obtain ⟨T2, hT2, hT2tid, hT2mem⟩ := how p hp tid2 hp2
    have hne : T2.tid ≠ tid := by
      rw [hT2tid]
      intro he
      exact hnone p hp (by rw [hp2, he])
    exact ⟨T2, mem_remove_of_ne hT2 hne, hT2tid, hT2mem⟩
  · exact fun q hq => htb q (mem_removeTripFromList hq)

theorem SIE_delete {s : DLState} {tid : Nat} {x : Nat}
    (hsi : StartInvExcept s x) : StartInvExcept (delete_trip s tid) x := by
  intro q hq hqx
  exact hsi q (mem_removeTripFromList hq) hqx

theorem preserved_delete {s : DLState} {tid : Nat} {x : Nat}
    (hwf : WF s) (hsi : StartInvExcept s x)
    (hnone : ∀ p ∈ s.dives, p.2.divetrip ≠ some tid) :
    Preserved s (delete_trip s tid) x :=
  ⟨WF_delete hwf hnone, SIE_delete hsi, rfl, fun _ => rfl, rfl,
    fun q hq => ⟨q, mem_removeTripFromList hq, rfl⟩⟩

theorem NZ_of_preserved {s s' : DLState} {x : Nat}
    (h : Preserved s s' x) (hnz : NZ s) : NZ s' := by
  intro p hp
  obtain ⟨hwf, -, -, hwhen, -, -⟩ := h
  have hfd : findDive s' p.1 = some p.2 := mem_findDive hwf.1 hp
  have := hwhen p.1
  rw [hfd] at this
  cases hq : findDive s p.1 with
  | none => rw [hq] at this; exact Option.noConfusion this
  | some q =>
      rw [hq] at this
      have hv : p.2.when = q.when := by simpa using this
      rw [hv]
      exact NZ_find hnz hq

/-- remove_dive_from_trip preserves well-formedness and the start
invariant (away from an arbitrary excepted trip), and does not touch
dive identifiers, dive timestamps or the allocator. -/
theorem remove_preserves (s : DLState) (did : Nat) (x : Nat)
    (hwf : WF s) (hsi : StartInvExcept s x) :
    Preserved s (remove_dive_from_trip s did) x := by
  cases hfd : findDive s did with
  | none =>
      have hs' : remove_dive_from_trip s did = s := by
        simp only [remove_dive_from_trip, hfd]
      rw [hs']
      exact preserved_refl s x hwf hsi
  | some d =>
  cases hdt : d.divetrip with
  | none =>
      have hs' : remove_dive_from_trip s did = s := by
        simp only [remove_dive_from_trip, hfd, hdt]
      rw [hs']
      exact preserved_refl s x hwf hsi
  | some tid =>
  obtain ⟨T, hT, hTtid, hTmem, hgt⟩ := owner_unique hwf hfd hdt
  obtain ⟨hdnd, htnd, hmnd, hnrd, hmo, how, htb⟩ := hwf
  obtain ⟨s2, hs2⟩ : ∃ s2, s2 =
      setDive (setTrip s tid (eraseDive did)) did clearTrip := ⟨_, rfl⟩
  obtain ⟨s3, hs3⟩ : ∃ s3, s3 = setTrip s2 tid decNr := ⟨_, rfl⟩
  have hg2 : getTrip s2 tid = some (eraseDive did T) := by
    rw [hs2]
    show getTrip (setTrip s tid (eraseDive did)) tid = _
    rw [getTrip_setTrip_self (f := eraseDive did) (fun t => rfl), hgt]
    rfl
  have hg2L : getTrip (setDive (setTrip s tid (eraseDive did)) did clearTrip) tid =
      some (eraseDive did T) := by
    rw [← hs2]
    exact hg2
  have hexp : remove_dive_from_trip s did =
      (if T.nrdives - 1 = 0 then delete_trip s3 tid
       else if T.when = d.when then find_new_trip_start_time s3 tid
       else s3) := by
    rw [hs3, hs2]
    simp only [remove_dive_from_trip, hfd, hdt, hg2L, eraseDive_nrdives, eraseDive_when]
  have hids3 : diveIds s3 = diveIds s := by
    rw [hs3]
    show diveIds s2 = diveIds s
    rw [hs2, diveIds_setDive]
    rfl
  have hnt3 : s3.nextTid = s.nextTid := by
    rw [hs3, hs2]
    rfl
  have hf3did : findDive s3 did = some (clearTrip d) := by
    rw [hs3]
    show findDive s2 did = _
    rw [hs2, findDive_setDive_self]
    show (findDive s did).map _ = _
    rw [hfd]
    rfl
  have hf3other : ∀ y, y ≠ did → findDive s3 y = findDive s y := by
    intro y hy
    rw [hs3]
    show findDive s2 y = findDive s y
    rw [hs2, findDive_setDive_other _ _ _ _ hy]
    rfl
  have hwhens3 : ∀ t, tripMemberWhens s3 t = tripMemberWhens s t := by
    intro t
    rw [hs3, tripMemberWhens_setTrip, hs2,
      tripMemberWhens_setDive _ _ clearTrip (fun r => rfl), tripMemberWhens_setTrip]
  have hmaptid3 : s3.trips.map TripRec.tid = s.trips.map TripRec.tid := by
    rw [hs3, map_tid_setTrip _ _ decNr (fun t => rfl), hs2]
    show (setTrip s tid (eraseDive did)).trips.map TripRec.tid = _
    rw [map_tid_setTrip _ _ (eraseDive did) (fun t => rfl)]
  have htnd3 : (s3.trips.map TripRec.tid).Nodup := by
    rw [hmaptid3]
    exact htnd
  have htr3 : ∀ q ∈ s3.trips,
      (q = decNr (eraseDive did T) ∧ q.tid = tid) ∨ (q ∈ s.trips ∧ q.tid ≠ tid) := by
    intro q hq
    rw [hs3] at hq
    obtain ⟨y2, hy2, rfl⟩ := mem_setTrip_trips.mp hq
    rw [hs2, trips_setDive] at hy2
    obtain ⟨y, hy, rfl⟩ := mem_setTrip_trips.mp hy2
    by_cases hc : y.tid = tid
    · have hyT : y = T := eq_of_mem_tid_nodup htnd hy hT (hc.trans hTtid.symm)
      subst hyT
      rw [if_pos hc]
      have hc2 : (eraseDive did y).tid = tid := hc
      rw [if_pos hc2]
      exact Or.inl ⟨rfl, hc⟩
    · rw [if_neg hc]
      rw [if_neg hc]
      exact Or.inr ⟨hy, hc⟩
  have hother3 : ∀ y ∈ s.trips, y.tid ≠ tid → y ∈ s3.trips := by
    intro y hy hyne
    rw [hs3]
    have h1 : y ∈ s2.trips := by
      rw [hs2, trips_setDive]
      have := @setTrip_mem_of_mem _ tid (eraseDive did) _ hy
      rwa [if_neg hyne] at this
    have := @setTrip_mem_of_mem _ tid decNr _ h1
    rwa [if_neg hyne] at this
  have hT3mem : decNr (eraseDive did T) ∈ s3.trips := by
    rw [hs3]
    have h1 : eraseDive did T ∈ s2.trips := by
      rw [hs2, trips_setDive]
      have := @setTrip_mem_of_mem _ tid (eraseDive did) _ hT
      rwa [if_pos hTtid] at this
    have := @setTrip_mem_of_mem _ tid decNr _ h1
    simp only [eraseDive_tid] at this
    rwa [if_pos hTtid] at this
  have hTd_nodup : T.dives.Nodup := hmnd T hT
  have hTnr : T.nrdives = T.dives.length := hnrd T hT
  have hlen_pos : 0 < T.dives.length :=
    List.length_pos.mpr (List.ne_nil_of_mem hTmem)
  have hmem_ne_did : ∀ q ∈ s.trips, q.tid ≠ tid → ∀ e ∈ q.dives, e ≠ did := by
    intro q hq hqne e he hcon
    have := hmo q hq e he
    rw [hcon, hfd] at this
    have h2 : d.divetrip = some q.tid := by simpa using this
    rw [hdt] at h2
    exact hqne (by simpa using h2.symm)
  have hwhen3 : ∀ y, (findDive s3 y).map DiveRec.when = (findDive s y).map DiveRec.when := by
    intro y
    by_cases hy : y = did
    · subst hy
      rw [hf3did, hfd]
      rfl
    · rw [hf3other y hy]
  have hwf3 : WF s3 := by
    refine ⟨by rw [hids3]; exact hdnd, htnd3, ?_, ?_, ?_, ?_, ?_⟩
    · intro q hq
      rcases htr3 q hq with ⟨rfl, -⟩ | ⟨hqs, -⟩
      · exact hTd_nodup.erase did
      · exact hmnd q hqs
    · intro q hq
      rcases htr3 q hq with ⟨rfl, -⟩ | ⟨hqs, -⟩
      · show T.nrdives - 1 = (T.dives.erase did).length
        rw [List.length_erase_of_mem hTmem, hTnr]
      · exact hnrd q hqs
    · intro q hq e he
      rcases htr3 q hq with ⟨rfl, -⟩ | ⟨hqs, hqne⟩
      · have he2 := (hTd_nodup.mem_erase_iff).mp he
        rw [hf3other e he2.1]
        exact hmo T hT e he2.2
      · have hne := hmem_ne_did q hqs hqne e he
        rw [hf3other e hne]
        exact hmo q hqs e he
    · intro p hp tid2 hp2
      rw [hs3] at hp
      have hp' : p ∈ (setDive (setTrip s tid (eraseDive did)) did clearTrip).dives := by
        rw [← hs2]
        exact hp
      obtain ⟨y, hy, rfl⟩ := dives_mem_setDive hp'
      by_cases hyd : y.1 = did
      · rw [if_pos hyd] at hp2
        exact absurd hp2 (by simp [clearTrip])
      · rw [if_neg hyd] at hp2 ⊢
        obtain ⟨T2, hT2, hT2tid, hT2mem⟩ := how y hy tid2 hp2
        by_cases h2 : tid2 = tid
        · subst h2
          have hTT : T2 = T := eq_of_mem_tid_nodup htnd hT2 hT (hT2tid.trans hTtid.symm)
          subst hTT
          refine ⟨decNr (eraseDive did T2), hT3mem, hT2tid, ?_⟩
          show y.1 ∈ T2.dives.erase did
          exact (List.mem_erase_of_ne hyd).mpr hT2mem
        · exact ⟨T2, hother3 T2 hT2 (by rw [hT2tid]; exact h2), hT2tid, hT2mem⟩
    · intro q hq
      rw [hnt3]
      rcases htr3 q hq with ⟨rfl, -⟩ | ⟨hqs, -⟩
      · exact htb T hT
      · exact htb q hqs
  rw [hexp]
  by_cases hn1 : T.nrdives - 1 = 0
  · rw [if_pos hn1]
    have hone : T.dives = [did] := by
      have h1 : T.dives.length = 1 := by omega
      obtain ⟨a, ha⟩ := List.length_eq_one.mp h1
      rw [ha] at hTmem ⊢
      rw [List.mem_singleton.mp hTmem]
    have hnone : ∀ p ∈ s3.dives, p.2.divetrip ≠ some tid := by
      intro p hp hcon
      have hp' : p ∈ (setDive (setTrip s tid (eraseDive did)) did clearTrip).dives := by
        rw [← hs2]
        show p ∈ s2.dives
        rw [hs3] at hp
        exact hp
      obtain ⟨y, hy, rfl⟩ := dives_mem_setDive hp'
      by_cases hyd : y.1 = did
      · rw [if_pos hyd] at hcon
        exact absurd hcon (by simp [clearTrip])
      · rw [if_neg hyd] at hcon
        obtain ⟨T2, hT2, hT2tid, hT2mem⟩ := how y hy tid hcon
        have hTT : T2 = T := eq_of_mem_tid_nodup htnd hT2 hT (hT2tid.trans hTtid.symm)
        subst hTT
        rw [hone] at hT2mem
        exact hyd (List.mem_singleton.mp hT2mem)
    refine ⟨WF_delete hwf3 hnone, ?_, ?_, ?_, ?_, ?_⟩
    · intro q hq hqx
      have hq3 := mem_removeTripFromList hq
      have hqne : q.tid ≠ tid := by
        intro he
        have hxm : q.tid ∈ (delete_trip s3 tid).trips.map TripRec.tid :=
          List.mem_map_of_mem TripRec.tid hq
        have hmt : (delete_trip s3 tid).trips.map TripRec.tid =
            (s.trips.map TripRec.tid).erase tid := by
          show (removeTripFromList s3.trips tid).map TripRec.tid = _
          rw [map_tid_removeTripFromList, hmaptid3]
        rw [hmt] at hxm
        exact ((htnd.mem_erase_iff).mp hxm).1 he
      rcases htr3 q hq3 with ⟨-, he⟩ | ⟨hqs, -⟩
      · exact absurd he hqne
      · have := hsi q hqs hqx
        show tripMemberWhens s3 q ≠ [] ∧ q.when ∈ tripMemberWhens s3 q ∧
          ∀ w ∈ tripMemberWhens s3 q, q.when ≤ w
        rw [hwhens3]
        exact this
    · show diveIds s3 = diveIds s
      exact hids3
    · intro y
      show (findDive s3 y).map DiveRec.when = _
      exact hwhen3 y
    · show s3.nextTid = s.nextTid
      exact hnt3
    · intro q hq
      rcases htr3 q (mem_removeTripFromList hq) with ⟨rfl, -⟩ | ⟨hqs, -⟩
      · exact ⟨T, hT, rfl⟩
      · exact ⟨q, hqs, rfl⟩
  · rw [if_neg hn1]
    have herase_ne : T.dives.erase did ≠ [] := by
      intro hcon
      have hle := List.length_erase_of_mem hTmem
      rw [hcon] at hle
      simp at hle
      omega
    have hwhens_of : ∀ q : TripRec, q.dives = T.dives.erase did →
        tripMemberWhens s3 q = tripMemberWhens s (eraseDive did T) := by
      intro q hqd
      rw [hwhens3 q, @tripMemberWhens_congr _ (eraseDive did T) s hqd]
    have hwhens_ne : tripMemberWhens s (eraseDive did T) ≠ [] := by
      obtain ⟨e, he⟩ := List.exists_mem_of_ne_nil _ herase_ne
      have he2 := (hTd_nodup.mem_erase_iff).mp he
      have hfs := hmo T hT e he2.2
      obtain ⟨r, hr, -⟩ := Option.map_eq_some'.mp hfs
      intro hcon
      have hmm : r.when ∈ tripMemberWhens s (eraseDive did T) :=
        mem_whens_of_mem (t := eraseDive did T) he hr
      rw [hcon] at hmm
      exact List.not_mem_nil _ hmm
    have hperm : (tripMemberWhens s T).Perm
        (d.when :: tripMemberWhens s (eraseDive did T)) := by
      have := filterMap_erase_perm (fun y => (findDive s y).map DiveRec.when) T.dives
        hTd_nodup did hTmem d.when (by simp [hfd])
      exact this
    -- the SIE obligations for every trip other than T, in both remaining branches
    have hsi_other : ∀ s4 : DLState, (∀ t, tripMemberWhens s4 t = tripMemberWhens s t) →
        ∀ q ∈ s.trips, q.tid ≠ tid → q.tid ≠ x →
        tripMemberWhens s4 q ≠ [] ∧ q.when ∈ tripMemberWhens s4 q ∧
          ∀ w ∈ tripMemberWhens s4 q, q.when ≤ w := by
      intro s4 hw q hqs hqne hqx
      rw [hw q]
      exact hsi q hqs hqx
    -- what remains of T satisfies the invariant when T did and the branch keeps T.when
    have hsi_T_keep : T.tid ≠ x → T.when ≠ d.when →
        T.when ∈ tripMemberWhens s (eraseDive did T) ∧
        ∀ w ∈ tripMemberWhens s (eraseDive did T), T.when ≤ w := by
      intro hTx hTw
      obtain ⟨-, hm, hlb⟩ := hsi T hT hTx
      constructor
      · have := hperm.mem_iff.mp hm
        rcases List.mem_cons.mp this with he | he
        · exact absurd he hTw
        · exact he
      · intro w hw
        exact hlb w (hperm.mem_iff.mpr (List.mem_cons_of_mem _ hw))
    by_cases hwq : T.when = d.when
    · rw [if_pos hwq]
      have hg3 : getTrip s3 tid = some (decNr (eraseDive did T)) := by
        rw [hs3]
        rw [getTrip_setTrip_self (f := decNr) (fun t => rfl), hg2]
        rfl
      have hwq3 : tripMemberWhens s3 (decNr (eraseDive did T)) =
          tripMemberWhens s (eraseDive did T) := hwhens_of _ rfl
      cases hws : tripMemberWhens s3 (decNr (eraseDive did T)) with
      | nil => exact absurd (hwq3.symm.trans hws) hwhens_ne
      | cons w ws =>
      have hs' : find_new_trip_start_time s3 tid = setTrip s3 tid (setWhen (ws.foldl min w)) := by
        simp only [find_new_trip_start_time, hg3, hws]
      rw [hs']
      have hminmem : ws.foldl min w ∈ tripMemberWhens s (eraseDive did T) := by
        rw [← hwq3, hws]
        exact foldl_min_mem w ws
      have hminle : ∀ z ∈ tripMemberWhens s (eraseDive did T), ws.foldl min w ≤ z := by
        rw [← hwq3, hws]
        exact foldl_min_le w ws
      have hwfF : WF (setTrip s3 tid (setWhen (ws.foldl min w))) :=
        WF_setTrip_light hwf3 (fun t => rfl) (fun t => rfl) (fun t => rfl)
      refine ⟨hwfF, ?_, hids3, ?_, hnt3, ?_⟩
      · intro q hq hqx
        obtain ⟨y, hy, rfl⟩ := mem_setTrip_trips.mp hq
        rcases htr3 y hy with ⟨rfl, hytid⟩ | ⟨hys, hyne⟩
        · rw [if_pos hytid]
          have hdv : (setWhen (ws.foldl min w) (decNr (eraseDive did T))).dives =
              T.dives.erase did := rfl
          have hwhq : tripMemberWhens (setTrip s3 tid (setWhen (ws.foldl min w)))
              (setWhen (ws.foldl min w) (decNr (eraseDive did T))) =
              tripMemberWhens s (eraseDive did T) := by
            rw [tripMemberWhens_setTrip, hwhens3,
              @tripMemberWhens_congr _ (eraseDive did T) s hdv]
          rw [hwhq]
          refine ⟨?_, ?_, ?_⟩
          · exact hwhens_ne
          · show ws.foldl min w ∈ _
            exact hminmem
          · show ∀ z ∈ _, ws.foldl min w ≤ z
            exact hminle
        · rw [if_neg hyne]
          rw [if_neg hyne] at hqx
          have := hsi_other s3 hwhens3 y hys hyne hqx
          show tripMemberWhens (setTrip s3 tid (setWhen (ws.foldl min w))) y ≠ [] ∧ _
          rw [tripMemberWhens_setTrip]
          exact this
      · intro y
        show (findDive s3 y).map DiveRec.when = _
        exact hwhen3 y
      · intro q hq
        obtain ⟨y, hy, rfl⟩ := mem_setTrip_trips.mp hq
        rcases htr3 y hy with ⟨rfl, hytid⟩ | ⟨hys, hyne⟩
        · rw [if_pos hytid]
          exact ⟨T, hT, hTtid.symm ▸ rfl⟩
        · rw [if_neg hyne]
          exact ⟨y, hys, rfl⟩
    · rw [if_neg hwq]
      refine ⟨hwf3, ?_, hids3, hwhen3, hnt3, ?_⟩
      · intro q hq hqx
        rcases htr3 q hq with ⟨rfl, hytid⟩ | ⟨hys, hyne⟩
        · have hdv : (decNr (eraseDive did T)).dives = T.dives.erase did := rfl
          have hwhq : tripMemberWhens s3 (decNr (eraseDive did T)) =
              tripMemberWhens s (eraseDive did T) := hwhens_of _ rfl
          rw [hwhq]
          have hTx : T.tid ≠ x := by
            intro he
            exact hqx (by show T.tid = x; exact he)
          obtain ⟨hm, hlb⟩ := hsi_T_keep hTx hwq
          exact ⟨hwhens_ne, hm, hlb⟩
        · exact hsi_other s3 hwhens3 q hys hyne hqx
      · intro q hq
        rcases htr3 q hq with ⟨rfl, hytid⟩ | ⟨hys, -⟩
        · exact ⟨T, hT, rfl⟩
        · exact ⟨q, hys, rfl⟩

theorem remove_findDive_self (s : DLState) (did : Nat) (d : DiveRec)
    (hfd : findDive s did = some d) :
    (d.divetrip = none ∧ remove_dive_from_trip s did = s) ∨
    findDive (remove_dive_from_trip s did) did = some (clearTrip d) := by
  cases hdt : d.divetrip with
  | none =>
      refine Or.inl ⟨rfl, ?_⟩
      simp only [remove_dive_from_trip, hfd, hdt]
  | some tid0 =>
      refine Or.inr ?_
      have hf2 : findDive (setDive (setTrip s tid0 (eraseDive did)) did clearTrip) did =
          some (clearTrip d) := by
        rw [findDive_setDive_self]
        show (findDive s did).map clearTrip = _
        rw [hfd]
        rfl
      cases hg : getTrip (setDive (setTrip s tid0 (eraseDive did)) did clearTrip) tid0 with
      | none =>
          have hs' : remove_dive_from_trip s did =
              setDive (setTrip s tid0 (eraseDive did)) did clearTrip := by
            simp only [remove_dive_from_trip, hfd, hdt, hg]
          rw [hs']
          exact hf2
      | some tr =>
          have hs' : remove_dive_from_trip s did =
              (if tr.nrdives - 1 = 0 then
                delete_trip (setTrip (setDive (setTrip s tid0 (eraseDive did)) did clearTrip)
                  tid0 decNr) tid0
               else if tr.when = d.when then
                find_new_trip_start_time (setTrip (setDive (setTrip s tid0 (eraseDive did))
                  did clearTrip) tid0 decNr) tid0
               else setTrip (setDive (setTrip s tid0 (eraseDive did)) did clearTrip)
                  tid0 decNr) := by
            simp only [remove_dive_from_trip, hfd, hdt, hg]
          rw [hs']
          have hf3 : findDive (setTrip (setDive (setTrip s tid0 (eraseDive did)) did clearTrip)
              tid0 decNr) did = some (clearTrip d) := hf2
          split_ifs with h1 h2
          · exact hf3
          · unfold find_new_trip_start_time
            split
            · exact hf3
            · split
              · exact hf3
              · exact hf3
          · exact hf3

theorem not_mem_trip_of_divetrip_none {s : DLState} (hwf : WF s) {did : Nat} {d : DiveRec}
    (hfd : findDive s did = some d) (hdt : d.divetrip = none) :
    ∀ q ∈ s.trips, did ∉ q.dives := by
  intro q hq hmem
  obtain ⟨-, -, -, -, hmo, -, -⟩ := hwf
  have := hmo q hq did hmem
  rw [hfd] at this
  have h2 : d.divetrip = some q.tid := by simpa using this
  rw [hdt] at h2
  exact Option.noConfusion h2

/-- Core of add_dive_to_trip after the internal removal: pushing the
dive onto an existing trip and, when the dive starts earlier, lowering
the trip's start, preserves well-formedness and the start-time
invariant away from the excepted trip. -/
theorem add_step_preserves (s1 : DLState) (did tid x : Nat) (d1 : DiveRec) (w : Int)
    (hwf : WF s1) (hsi : StartInvExcept s1 x)
    (hfd : findDive s1 did = some d1) (hdt : d1.divetrip = none)
    (hww : d1.when = w) (hw0 : w ≠ 0)
    (tr : TripRec) (hg : getTrip s1 tid = some tr) :
    Preserved s1
      (if w ≠ 0 ∧ tr.when > w
       then setTrip (setDive (setTrip s1 tid (pushDive did)) did (setOwner tid)) tid
         (setWhen w)
       else setDive (setTrip s1 tid (pushDive did)) did (setOwner tid)) x := by
  have hnotmem : ∀ q ∈ s1.trips, did ∉ q.dives :=
    not_mem_trip_of_divetrip_none hwf hfd hdt
  obtain ⟨hdnd, htnd, hmnd, hnrd, hmo, how, htb⟩ := hwf
  obtain ⟨hTs, hTtid⟩ := getTrip_mem hg
  obtain ⟨s3, hs3⟩ : ∃ s3, s3 =
      setDive (setTrip s1 tid (pushDive did)) did (setOwner tid) := ⟨_, rfl⟩
  have hids3 : diveIds s3 = diveIds s1 := by
    rw [hs3, diveIds_setDive]
    rfl
  have hnt3 : s3.nextTid = s1.nextTid := by
    rw [hs3]
    rfl
  have hf3did : findDive s3 did = some (setOwner tid d1) := by
    rw [hs3, findDive_setDive_self]
    show (findDive s1 did).map _ = _
    rw [hfd]
    rfl
  have hf3other : ∀ y, y ≠ did → findDive s3 y = findDive s1 y := by
    intro y hy
    rw [hs3, findDive_setDive_other _ _ _ _ hy]
    rfl
  have hmaptid3 : s3.trips.map TripRec.tid = s1.trips.map TripRec.tid := by
    rw [hs3]
    show (setTrip s1 tid (pushDive did)).trips.map TripRec.tid = _
    rw [map_tid_setTrip _ _ (pushDive did) (fun t => rfl)]
  have htr3 : ∀ q ∈ s3.trips,
      (q = pushDive did tr ∧ q.tid = tid) ∨ (q ∈ s1.trips ∧ q.tid ≠ tid) := by
    intro q hq
    rw [hs3, trips_setDive] at hq
    obtain ⟨y, hy, rfl⟩ := mem_setTrip_trips.mp hq
    by_cases hc : y.tid = tid
    · have hyT : y = tr := eq_of_mem_tid_nodup htnd hy hTs (hc.trans hTtid.symm)
      subst hyT
      rw [if_pos hc]
      exact Or.inl ⟨rfl, hc⟩
    · rw [if_neg hc]
      exact Or.inr ⟨hy, hc⟩
  have hother3 : ∀ y ∈ s1.trips, y.tid ≠ tid → y ∈ s3.trips := by
    intro y hy hyne
    rw [hs3, trips_setDive]
    have := @setTrip_mem_of_mem _ tid (pushDive did) _ hy
    rwa [if_neg hyne] at this
  have hT3mem : pushDive did tr ∈ s3.trips := by
    rw [hs3, trips_setDive]
    have := @setTrip_mem_of_mem _ tid (pushDive did) _ hTs
    rwa [if_pos hTtid] at this
  have hwhens3 : ∀ t : TripRec, did ∉ t.dives →
      tripMemberWhens s3 t = tripMemberWhens s1 t := by
    intro t hnd
    rw [tripMemberWhens, tripMemberWhens]
    refine List.filterMap_congr ?_
    intro e he
    have hed : e ≠ did := fun h => hnd (h ▸ he)
    rw [hf3other e hed]
  have hwhensNew : tripMemberWhens s3 (pushDive did tr) = w :: tripMemberWhens s1 tr := by
    have hhead : (findDive s3 did).map DiveRec.when = some w := by
      rw [hf3did]
      show some (setOwner tid d1).when = some w
      rw [setOwner_when, hww]
    show (did :: tr.dives).filterMap (fun e => (findDive s3 e).map DiveRec.when) = _
    rw [List.filterMap_cons]
    rw [hhead]
    have htail : tr.dives.filterMap (fun e => (findDive s3 e).map DiveRec.when) =
        tripMemberWhens s1 tr := hwhens3 tr (hnotmem tr hTs)
    rw [htail]
  have hwhenAll : ∀ y, (findDive s3 y).map DiveRec.when =
      (findDive s1 y).map DiveRec.when := by
    intro y
    by_cases hy : y = did
    · subst hy
      rw [hf3did, hfd]
      rfl
    · rw [hf3other y hy]
  have hwf3 : WF s3 := by
    refine ⟨by rw [hids3]; exact hdnd, by rw [hmaptid3]; exact htnd, ?_, ?_, ?_, ?_, ?_⟩
    · intro q hq
      rcases htr3 q hq with ⟨rfl, -⟩ | ⟨hqs, -⟩
      · rw [pushDive_dives]
        exact List.nodup_cons.mpr ⟨hnotmem tr hTs, hmnd tr hTs⟩
      · exact hmnd q hqs
    · intro q hq
      rcases htr3 q hq with ⟨rfl, -⟩ | ⟨hqs, -⟩
      · rw [pushDive_nrdives, pushDive_dives, List.length_cons, hnrd tr hTs]
      · exact hnrd q hqs
    · intro q hq e he
      rcases htr3 q hq with ⟨rfl, -⟩ | ⟨hqs, hqne⟩
      · rw [pushDive_dives] at he
        rcases List.mem_cons.mp he with rfl | he2
        · rw [hf3did]
          show some (setOwner tid d1).divetrip = _
          rw [setOwner_divetrip, pushDive_tid, hTtid]
        · have hed : e ≠ did := fun h => hnotmem tr hTs (h ▸ he2)
          rw [hf3other e hed]
          have := hmo tr hTs e he2
          rw [this, pushDive_tid]
      · have hed : e ≠ did := fun h => hnotmem q hqs (h ▸ he)
        rw [hf3other e hed]
        exact hmo q hqs e he
    · intro p hp tid2 hp2
      rw [hs3] at hp
      obtain ⟨y, hy, rfl⟩ := dives_mem_setDive hp
      by_cases hyd : y.1 = did
      · rw [if_pos hyd] at hp2 ⊢
        have ht2 : tid2 = tid := by
          have : some tid = some tid2 := by
            rw [← setOwner_divetrip tid y.2]
            exact hp2
          exact (Option.some_injective _ this).symm
        subst ht2
        refine ⟨pushDive did tr, hT3mem, by rw [pushDive_tid, hTtid], ?_⟩
        rw [pushDive_dives]
        show y.1 ∈ did :: tr.dives
        rw [hyd]
        exact List.mem_cons_self did tr.dives
      · rw [if_neg hyd] at hp2 ⊢
        obtain ⟨T2, hT2, hT2tid, hT2mem⟩ := how y hy tid2 hp2
        by_cases h2 : tid2 = tid
        · subst h2
          have hTT : T2 = tr := eq_of_mem_tid_nodup htnd hT2 hTs (hT2tid.trans hTtid.symm)
          subst hTT
          exact ⟨pushDive did T2, hT3mem, by rw [pushDive_tid]; exact hT2tid,
            by rw [pushDive_dives]; exact List.mem_cons_of_mem did hT2mem⟩
        · exact ⟨T2, hother3 T2 hT2 (by rw [hT2tid]; exact h2), hT2tid, hT2mem⟩
    · intro q hq
      rw [hnt3]
      rcases htr3 q hq with ⟨rfl, -⟩ | ⟨hqs, -⟩
      · rw [pushDive_tid]
        exact htb tr hTs
      · exact htb q hqs
  have htsub3 : ∀ q ∈ s3.trips, ∃ y ∈ s1.trips, q.tid = y.tid := by
    intro q hq
    rcases htr3 q hq with ⟨rfl, -⟩ | ⟨hqs, -⟩
    · exact ⟨tr, hTs, by rw [pushDive_tid]⟩
    · exact ⟨q, hqs, rfl⟩
  by_cases hc : w ≠ 0 ∧ tr.when > w
  · rw [if_pos hc]
    rw [← hs3]
    refine ⟨WF_setTrip_light hwf3 (fun t => rfl) (fun t => rfl) (fun t => rfl), ?_,
      by rw [← hids3]; rfl, fun y => hwhenAll y, by rw [← hnt3]; rfl, ?_⟩
    · intro q hq hqx
      obtain ⟨y, hy, rfl⟩ := mem_setTrip_trips.mp hq
      rcases htr3 y hy with ⟨rfl, hytid⟩ | ⟨hqs, hyne⟩
      · rw [if_pos hytid]
        have hxne : tid ≠ x := by
          intro he
          apply hqx
          rw [if_pos hytid, setWhen_tid, pushDive_tid, hTtid, he]
        obtain ⟨hne1, hmem1, hlb1⟩ := hsi tr hTs (by rw [hTtid]; exact hxne)
        have hwq : tripMemberWhens (setTrip s3 tid (setWhen w)) (setWhen w (pushDive did tr)) =
            w :: tripMemberWhens s1 tr := by
          rw [tripMemberWhens_setTrip]
          have hdv : (setWhen w (pushDive did tr)).dives = (pushDive did tr).dives := rfl
          rw [tripMemberWhens_congr s3 hdv]
          exact hwhensNew
        rw [hwq]
        refine ⟨List.cons_ne_nil w _, ?_, ?_⟩
        · rw [setWhen_when]
          exact List.mem_cons_self w _
        · intro z hz
          rw [setWhen_when]
          rcases List.mem_cons.mp hz with rfl | hz2
          · exact le_refl z
          · exact le_of_lt (lt_of_lt_of_le hc.2 (hlb1 z hz2))
      · rw [if_neg hyne]
        have hwq : tripMemberWhens (setTrip s3 tid (setWhen w)) y =
            tripMemberWhens s1 y := by
          rw [tripMemberWhens_setTrip]
          exact hwhens3 y (hnotmem y hqs)
        rw [hwq]
        refine hsi y hqs ?_
        intro he
        apply hqx
        rw [if_neg hyne, he]
    · intro q hq
      obtain ⟨y, hy, rfl⟩ := mem_setTrip_trips.mp hq
      by_cases hyt : y.tid = tid
      · rw [if_pos hyt]
        obtain ⟨z, hz, hyz⟩ := htsub3 y hy
        exact ⟨z, hz, by rw [setWhen_tid]; exact hyz⟩
      · rw [if_neg hyt]
        exact htsub3 y hy
  · rw [if_neg hc]
    rw [← hs3]
    have hle : tr.when ≤ w := by
      rcases not_and_or.mp hc with h | h
      · exact absurd hw0 h
      · exact le_of_not_lt h
    refine ⟨hwf3, ?_, hids3, hwhenAll, hnt3, htsub3⟩
    intro q hq hqx
    rcases htr3 q hq with ⟨rfl, hqtid⟩ | ⟨hqs, hqne⟩
    · have hxne : tid ≠ x := fun he => hqx (hqtid.trans he)
      obtain ⟨hne1, hmem1, hlb1⟩ := hsi tr hTs (by rw [hTtid]; exact hxne)
      rw [hwhensNew]
      refine ⟨List.cons_ne_nil w _, ?_, ?_⟩
      · rw [pushDive_when]
        exact List.mem_cons_of_mem w hmem1
      · intro z hz
        rw [pushDive_when]
        rcases List.mem_cons.mp hz with rfl | hz2
        · exact hle
        · exact hlb1 z hz2
    · rw [hwhens3 q (hnotmem q hqs)]
      exact hsi q hqs hqx

/-- add_dive_to_trip preserves well-formedness, the start-time
invariant away from the excepted trip, the dive population and their
timestamps, provided every dive has a nonzero timestamp. -/
theorem add_preserves (s : DLState) (did tid x : Nat)
    (hwf : WF s) (hsi : StartInvExcept s x) (hnz : NZ s) :
    Preserved s (add_dive_to_trip s did tid) x := by
  cases hfd : findDive s did with
  | none =>
      have hs' : add_dive_to_trip s did tid = s := by
        simp only [add_dive_to_trip, hfd]
      rw [hs']
      exact preserved_refl s x hwf hsi
  | some d =>
  by_cases heq : d.divetrip = some tid
  · have hs' : add_dive_to_trip s did tid = s := by
      simp only [add_dive_to_trip, hfd, if_pos heq]
    rw [hs']
    exact preserved_refl s x hwf hsi
  · have h1 := remove_preserves s did x hwf hsi
    have h1' := h1
    obtain ⟨hwf1, hsi1, hids1, hwhen1, hnt1, htsub1⟩ := h1'
    obtain ⟨d1, hfd1, hd1n, hd1w⟩ : ∃ d1,
        findDive (remove_dive_from_trip s did) did = some d1 ∧
        d1.divetrip = none ∧ d1.when = d.when := by
      rcases remove_findDive_self s did d hfd with ⟨hdn, hseq⟩ | hcf
      · exact ⟨d, by rw [hseq]; exact hfd, hdn, rfl⟩
      · exact ⟨clearTrip d, hcf, rfl, rfl⟩
    cases hg : getTrip (remove_dive_from_trip s did) tid with
    | none =>
        have hs' : add_dive_to_trip s did tid = remove_dive_from_trip s did := by
          simp only [add_dive_to_trip, hfd, if_neg heq, hg]
        rw [hs']
        exact h1
    | some tr =>
        have hw0 : d.when ≠ 0 := NZ_find hnz hfd
        have hs' : add_dive_to_trip s did tid =
            (if d.when ≠ 0 ∧ tr.when > d.when
             then setTrip (setDive (setTrip (remove_dive_from_trip s did) tid
               (pushDive did)) did (setOwner tid)) tid (setWhen d.when)
             else setDive (setTrip (remove_dive_from_trip s did) tid
               (pushDive did)) did (setOwner tid)) := by
          simp only [add_dive_to_trip, hfd, if_neg heq, hg]
        rw [hs']
        exact preserved_trans h1
          (add_step_preserves (remove_dive_from_trip s did) did tid x d1 d.when
            hwf1 hsi1 hfd1 hd1n hd1w hw0 tr hg)

/-- The full operating invariant: well-formed registry, every trip
nonempty with minimal start time, every dive timestamp nonzero. -/
def Inv (s : DLState) : Prop := WF s ∧ StartInv s ∧ NZ s

/-- A Preserved step whose excepted trip identifier is the fresh
`nextTid` preserves the full invariant: no registered trip can carry
that identifier. -/
theorem inv_of_preserved {s s' : DLState} (hinv : Inv s)
    (h : Preserved s s' s.nextTid) : Inv s' := by
  obtain ⟨hwf, hsi, hnz⟩ := hinv
  have hnz' := NZ_of_preserved h hnz
  obtain ⟨hwf', hsie, hids, hwh, hnt, hsub⟩ := h
  refine ⟨hwf', ?_, hnz'⟩
  refine startInv_of_except _ _ hsie ?_
  intro t ht
  obtain ⟨-, -, -, -, -, -, htb⟩ := hwf'
  have := htb t ht
  rw [hnt] at this
  omega

theorem inv_add (s : DLState) (did tid : Nat) (hinv : Inv s) :
    Inv (add_dive_to_trip s did tid) :=
  inv_of_preserved hinv
    (add_preserves s did tid s.nextTid hinv.1
      (startInv_except _ _ hinv.2.1) hinv.2.2)

theorem inv_remove (s : DLState) (did : Nat) (hinv : Inv s) :
    Inv (remove_dive_from_trip s did) :=
  inv_of_preserved hinv
    (remove_preserves s did s.nextTid hinv.1 (startInv_except _ _ hinv.2.1))

theorem inv_merge (fromTid toTid : Nat) (fuel : Nat) (s : DLState) (hinv : Inv s) :
    Inv (merge_trips fromTid toTid fuel s) := by
  induction fuel generalizing s with
  | zero => exact hinv
  | succ n ih =>
      cases hg : getTrip s fromTid with
      | none =>
          have hs' : merge_trips fromTid toTid (n + 1) s = s := by
            simp only [merge_trips, hg]
          rw [hs']
          exact hinv
      | some tr =>
          cases htr : tr.dives with
          | nil =>
              have hs' : merge_trips fromTid toTid (n + 1) s = s := by
                simp only [merge_trips, hg, htr]
              rw [hs']
              exact hinv
          | cons dhead rest =>
              have hs' : merge_trips fromTid toTid (n + 1) s =
                  merge_trips fromTid toTid n (add_dive_to_trip s dhead toTid) := by
                simp only [merge_trips, hg, htr]
              rw [hs']
              exact ih _ (inv_add s dhead toTid hinv)

/-- A dive update that changes neither the timestamp nor the owning
trip preserves everything. -/
theorem preserved_setDive_light {s : DLState} {did : Nat} {f : DiveRec → DiveRec} {x : Nat}
    (hwf : WF s) (hsi : StartInvExcept s x)
    (hdt : ∀ r, (f r).divetrip = r.divetrip) (hw : ∀ r, (f r).when = r.when) :
    Preserved s (setDive s did f) x := by
  have hfother : ∀ y, y ≠ did → findDive (setDive s did f) y = findDive s y :=
    fun y hy => findDive_setDive_other s did f y hy
  have hwhenAll : ∀ y, (findDive (setDive s did f) y).map DiveRec.when =
      (findDive s y).map DiveRec.when := by
    intro y
    by_cases hy : y = did
    · subst hy
      rw [findDive_setDive_self]
      cases hq : findDive s y <;> simp [hw]
    · rw [hfother y hy]
  have hdtAll : ∀ y, (findDive (setDive s did f) y).map DiveRec.divetrip =
      (findDive s y).map DiveRec.divetrip := by
    intro y
    by_cases hy : y = did
    · subst hy
      rw [findDive_setDive_self]
      cases hq : findDive s y <;> simp [hdt]
    · rw [hfother y hy]
  obtain ⟨hdnd, htnd, hmnd, hnrd, hmo, how, htb⟩ := hwf
  have hwf' : WF (setDive s did f) := by
    refine ⟨by rw [diveIds_setDive]; exact hdnd, htnd, hmnd, hnrd, ?_, ?_, htb⟩
    · intro t ht e he
      rw [hdtAll e]
      exact hmo t ht e he
    · intro p hp tid2 hp2
      obtain ⟨y, hy, rfl⟩ := dives_mem_setDive hp
      by_cases hyd : y.1 = did
      · rw [if_pos hyd] at hp2 ⊢
        rw [hdt] at hp2
        exact how y hy tid2 hp2
      · rw [if_neg hyd] at hp2 ⊢
        exact how y hy tid2 hp2
  refine ⟨hwf', ?_, diveIds_setDive s did f, hwhenAll, rfl, fun q hq => ⟨q, hq, rfl⟩⟩
  intro q hq hqx
  rw [tripMemberWhens_setDive s did f hw]
  exact hsi q hq hqx

theorem mem_insertBefore {l : List TripRec} {draft q : TripRec} :
    q ∈ insertBefore l draft ↔ q = draft ∨ q ∈ l := by
  induction l with
  | nil => simp [insertBefore]
  | cons t ts ih =>
      rw [insertBefore]
      by_cases h : draft.when ≤ t.when
      · rw [if_pos h]
        simp [List.mem_cons]
      · rw [if_neg h]
        simp only [List.mem_cons, ih]
        tauto

theorem insertBefore_perm (l : List TripRec) (draft : TripRec) :
    (insertBefore l draft).Perm (draft :: l) := by
  induction l with
  | nil => exact List.Perm.refl _
  | cons t ts ih =>
      rw [insertBefore]
      by_cases h : draft.when ≤ t.when
      · rw [if_pos h]
      · rw [if_neg h]
        exact (ih.cons t).trans (List.Perm.swap draft t ts)

theorem WF_insertBefore {s : DLState} {draft : TripRec} (hwf : WF s)
    (hdv : draft.dives = []) (hnr : draft.nrdives = 0)
    (hfresh : ∀ t ∈ s.trips, t.tid ≠ draft.tid) (hlt : draft.tid < s.nextTid) :
    WF { s with trips := insertBefore s.trips draft } := by
  obtain ⟨hdnd, htnd, hmnd, hnrd, hmo, how, htb⟩ := hwf
  have hperm : ((insertBefore s.trips draft).map TripRec.tid).Perm
      (draft.tid :: s.trips.map TripRec.tid) :=
    (insertBefore_perm s.trips draft).map TripRec.tid
  refine ⟨hdnd, ?_, ?_, ?_, ?_, ?_, ?_⟩
  · refine hperm.nodup_iff.mpr (List.nodup_cons.mpr ⟨?_, htnd⟩)
    intro hmem
    obtain ⟨t, ht, hte⟩ := List.mem_map.mp hmem
    exact hfresh t ht hte
  · intro q hq
    rcases mem_insertBefore.mp hq with rfl | hq2
    · rw [hdv]
      exact List.nodup_nil
    · exact hmnd q hq2
  · intro q hq
    rcases mem_insertBefore.mp hq with rfl | hq2
    · rw [hdv, hnr]
      rfl
    · exact hnrd q hq2
  · intro q hq e he
    rcases mem_insertBefore.mp hq with rfl | hq2
    · rw [hdv] at he
      exact absurd he (List.not_mem_nil e)
    · exact hmo q hq2 e he
  · intro p hp tid2 hp2
    obtain ⟨T2, hT2, hT2tid, hT2mem⟩ := how p hp tid2 hp2
    exact ⟨T2, mem_insertBefore.mpr (Or.inr hT2), hT2tid, hT2mem⟩
  · intro q hq
    rcases mem_insertBefore.mp hq with rfl | hq2
    · exact hlt
    · exact htb q hq2

theorem SIE_insertBefore {s : DLState} {draft : TripRec} {x : Nat}
    (hsi : StartInvExcept s x) (hx : draft.tid = x) :
    StartInvExcept { s with trips := insertBefore s.trips draft } x := by
  intro q hq hqx
  rcases mem_insertBefore.mp hq with rfl | hq2
  · exact absurd hx hqx
  · exact hsi q hq2 hqx

theorem find?_removeTripFromList_other (l : List TripRec) (tid tid2 : Nat)
    (h : tid2 ≠ tid) :
    (removeTripFromList l tid).find? (fun t => t.tid == tid2) =
      l.find? (fun t => t.tid == tid2) := by
  induction l with
  | nil => rfl
  | cons a rest ih =>
      rw [removeTripFromList]
      by_cases ha : a.tid = tid
      · rw [if_pos ha]
        have hb : (a.tid == tid2) = false := by
          simp only [beq_eq_false_iff_ne, ne_eq, ha]
          exact fun he => h he.symm
        simp only [List.find?_cons, hb]
      · rw [if_neg ha]
        cases hb : (a.tid == tid2) with
        | true => simp only [List.find?_cons, hb]
        | false =>
            simp only [List.find?_cons, hb]
            exact ih

theorem getTrip_delete_other {s : DLState} {tid tid2 : Nat} (h : tid2 ≠ tid) :
    getTrip (delete_trip s tid) tid2 = getTrip s tid2 :=
  find?_removeTripFromList_other s.trips tid tid2 h

theorem getTrip_remove_other (s : DLState) (did : Nat) (tid2 : Nat)
    (h : ∀ d, findDive s did = some d → d.divetrip ≠ some tid2) :
    getTrip (remove_dive_from_trip s did) tid2 = getTrip s tid2 := by
  cases hfd : findDive s did with
  | none =>
      have hs' : remove_dive_from_trip s did = s := by
        simp only [remove_dive_from_trip, hfd]
      rw [hs']
  | some d =>
  cases hdt : d.divetrip with
  | none =>
      have hs' : remove_dive_from_trip s did = s := by
        simp only [remove_dive_from_trip, hfd, hdt]
      rw [hs']
  | some tid0 =>
      have hne : tid2 ≠ tid0 := by
        intro he
        exact h d hfd (by rw [hdt, he])
      have hg2base : getTrip (setDive (setTrip s tid0 (eraseDive did)) did clearTrip) tid2 =
          getTrip s tid2 := by
        show getTrip (setTrip s tid0 (eraseDive did)) tid2 = getTrip s tid2
        exact getTrip_setTrip_other (f := eraseDive did) (fun t => rfl) tid2 hne
      cases hg : getTrip (setDive (setTrip s tid0 (eraseDive did)) did clearTrip) tid0 with
      | none =>
          have hs' : remove_dive_from_trip s did =
              setDive (setTrip s tid0 (eraseDive did)) did clearTrip := by
            simp only [remove_dive_from_trip, hfd, hdt, hg]
          rw [hs']
          exact hg2base
      | some tr =>
          have hg3 : getTrip (setTrip (setDive (setTrip s tid0 (eraseDive did)) did
              clearTrip) tid0 decNr) tid2 = getTrip s tid2 := by
            rw [getTrip_setTrip_other (f := decNr) (fun t => rfl) tid2 hne]
            exact hg2base
          have hs' : remove_dive_from_trip s did =
              (if tr.nrdives - 1 = 0 then
                delete_trip (setTrip (setDive (setTrip s tid0 (eraseDive did)) did clearTrip)
                  tid0 decNr) tid0
               else if tr.when = d.when then
                find_new_trip_start_time (setTrip (setDive (setTrip s tid0 (eraseDive did))
                  did clearTrip) tid0 decNr) tid0
               else setTrip (setDive (setTrip s tid0 (eraseDive did)) did clearTrip)
                  tid0 decNr) := by
            simp only [remove_dive_from_trip, hfd, hdt, hg]
          rw [hs']
          split_ifs with h1 h2
          · rw [getTrip_delete_other hne]
            exact hg3
          · rw [find_new_trip_start_time]
            split
            · exact hg3
            · split
              · exact hg3
              · rw [getTrip_setTrip_other (f := setWhen _) (fun t => rfl) tid2 hne]
                exact hg3
          · exact hg3

/-- insert_trip on a draft with no pending dives: either it merges
into the first same-start trip (only trip metadata changes) or it
links the draft itself into the list. -/
theorem insert_trip_empty (s0 : DLState) (draft : TripRec) (hdv : draft.dives = []) :
    (∃ tr, s0.trips.find? (fun t => draft.when ≤ t.when) = some tr ∧
       tr.when = draft.when ∧
       insert_trip s0 draft = (setTrip s0 tr.tid (mergeTripInfo draft), tr.tid)) ∨
    insert_trip s0 draft =
      ({ s0 with trips := insertBefore s0.trips draft }, draft.tid) := by
  cases hf : s0.trips.find? (fun t => draft.when ≤ t.when) with
  | none =>
      right
      simp only [insert_trip, hf]
  | some tr =>
      by_cases he : tr.when = draft.when
      · left
        refine ⟨tr, rfl, he, ?_⟩
        simp only [insert_trip, hf, if_pos he]
        rw [hdv]
        rfl
      · right
        simp only [insert_trip, hf, if_neg he]

/-- Adding a dive to a registered empty trip whose start equals the
dive's timestamp restores the full start-time invariant: the trip gets
the dive as sole member and keeps its (correct) start. -/
theorem add_empty_startinv (s2 : DLState) (did tid : Nat) (d2 : DiveRec)
    (hwf : WF s2) (hsi : StartInvExcept s2 tid) (hnz : NZ s2)
    (hfd : findDive s2 did = some d2) (hne : d2.divetrip ≠ some tid)
    (tr : TripRec) (hg : getTrip (remove_dive_from_trip s2 did) tid = some tr)
    (htrd : tr.dives = []) (htrw : tr.when = d2.when) :
    WF (add_dive_to_trip s2 did tid) ∧ StartInv (add_dive_to_trip s2 did tid) ∧
    NZ (add_dive_to_trip s2 did tid) := by
  have h1 := remove_preserves s2 did tid hwf hsi
  have h1' := h1
  obtain ⟨hwf1, hsi1, hids1, hwhen1, hnt1, htsub1⟩ := h1'
  obtain ⟨d1, hfd1, hd1n, hd1w⟩ : ∃ d1,
      findDive (remove_dive_from_trip s2 did) did = some d1 ∧
      d1.divetrip = none ∧ d1.when = d2.when := by
    rcases remove_findDive_self s2 did d2 hfd with ⟨hdn, hseq⟩ | hcf
    · exact ⟨d2, by rw [hseq]; exact hfd, hdn, rfl⟩
    · exact ⟨clearTrip d2, hcf, rfl, rfl⟩
  have hw0 : d2.when ≠ 0 := NZ_find hnz hfd
  have hcond : ¬(d2.when ≠ 0 ∧ tr.when > d2.when) := by
    rw [htrw]
    exact fun hc => lt_irrefl _ hc.2
  have hs' : add_dive_to_trip s2 did tid =
      setDive (setTrip (remove_dive_from_trip s2 did) tid (pushDive did)) did
        (setOwner tid) := by
    simp only [add_dive_to_trip, hfd, if_neg hne, hg, if_neg hcond]
  have hstep := add_step_preserves (remove_dive_from_trip s2 did) did tid tid d1 d2.when
    hwf1 hsi1 hfd1 hd1n hd1w hw0 tr hg
  rw [if_neg hcond] at hstep
  have hpres : Preserved s2 (add_dive_to_trip s2 did tid) tid := by
    rw [hs']
    exact preserved_trans h1 hstep
  obtain ⟨hwfF, hsiF, hidsF, hwhenF, hntF, htsubF⟩ := hpres
  refine ⟨hwfF, ?_, NZ_of_preserved ⟨hwfF, hsiF, hidsF, hwhenF, hntF, htsubF⟩ hnz⟩
  obtain ⟨hTs1, hTtid1⟩ := getTrip_mem hg
  have htnd1 : ((remove_dive_from_trip s2 did).trips.map TripRec.tid).Nodup := hwf1.2.1
  have hffin : findDive (add_dive_to_trip s2 did tid) did = some (setOwner tid d1) := by
    rw [hs', findDive_setDive_self]
    show (findDive (remove_dive_from_trip s2 did) did).map _ = _
    rw [hfd1]
    rfl
  intro q hq
  have hq' : q ∈ (setTrip (remove_dive_from_trip s2 did) tid (pushDive did)).trips := by
    rw [hs'] at hq
    rw [trips_setDive] at hq
    exact hq
  obtain ⟨y, hy, rfl⟩ := mem_setTrip_trips.mp hq'
  by_cases hc : y.tid = tid
  · rw [if_pos hc] at hq ⊢
    have hyT : y = tr := eq_of_mem_tid_nodup htnd1 hy hTs1 (hc.trans hTtid1.symm)
    subst hyT
    have hwq : tripMemberWhens (add_dive_to_trip s2 did tid) (pushDive did y) =
        [d2.when] := by
      show (pushDive did y).dives.filterMap
        (fun e => (findDive (add_dive_to_trip s2 did tid) e).map DiveRec.when) = _
      rw [pushDive_dives, htrd]
      have hh : (findDive (add_dive_to_trip s2 did tid) did).map DiveRec.when =
          some d2.when := by
        rw [hffin]
        show some (setOwner tid d1).when = _
        rw [setOwner_when, hd1w]
      simp only [List.filterMap_cons, List.filterMap_nil, hh]
    rw [hwq]
    refine ⟨List.cons_ne_nil _ _, ?_, ?_⟩
    · rw [pushDive_when, htrw]
      exact List.mem_singleton.mpr rfl
    · intro z hz
      rw [pushDive_when, htrw]
      rw [List.mem_singleton.mp hz]
  · rw [if_neg hc] at hq ⊢
    exact hsiF y hq hc

/-- create_and_hookup_trip_from_dive preserves the full invariant:
the freshly inserted trip either merges into an existing same-start
trip or ends up with the dive as sole member and the dive's timestamp
as start. -/
theorem create_inv (s : DLState) (did : Nat) (hinv : Inv s) :
    Inv (create_and_hookup_trip_from_dive s did).1 := by
  obtain ⟨hwf, hsi, hnz⟩ := hinv
  cases hfd : findDive s did with
  | none =>
      have hs' : (create_and_hookup_trip_from_dive s did).1 = s := by
        simp only [create_and_hookup_trip_from_dive, hfd]
      rw [hs']
      exact ⟨hwf, hsi, hnz⟩
  | some d =>
  obtain ⟨draft, hdraft⟩ : ∃ dr : TripRec, dr =
      { tid := s.nextTid, tIndex := 0, when := d.when, location := d.location,
        notes := none, autogen := false, nrdives := 0, dives := [] } := ⟨_, rfl⟩
  obtain ⟨s0, hs0⟩ : ∃ s0 : DLState, s0 = { s with nextTid := s.nextTid + 1 } := ⟨_, rfl⟩
  have hexp : (create_and_hookup_trip_from_dive s did).1 =
      add_dive_to_trip (setDive (insert_trip s0 draft).1 did markInTrip) did
        (insert_trip s0 draft).2 := by
    rw [hs0, hdraft]
    simp only [create_and_hookup_trip_from_dive, hfd]
  have hdrdv : draft.dives = [] := by rw [hdraft]
  have hdrnr : draft.nrdives = 0 := by rw [hdraft]
  have hdrtid : draft.tid = s.nextTid := by rw [hdraft]
  have hdrwhen : draft.when = d.when := by rw [hdraft]
  have hwf0 : WF s0 := by
    obtain ⟨hdnd, htnd, hmnd, hnrd, hmo, how, htb⟩ := hwf
    rw [hs0]
    exact ⟨hdnd, htnd, hmnd, hnrd, hmo, how,
      fun t ht => Nat.lt_trans (htb t ht) (Nat.lt_succ_self _)⟩
  have hsi0 : StartInv s0 := by
    rw [hs0]
    exact hsi
  have hnz0 : NZ s0 := by
    rw [hs0]
    exact hnz
  have hfd0 : findDive s0 did = some d := by
    rw [hs0]
    exact hfd
  rw [hexp]
  rcases insert_trip_empty s0 draft hdrdv with ⟨tr, hfind, hte, heq⟩ | heq
  · rw [heq]
    have hp1 : Preserved s0 (setTrip s0 tr.tid (mergeTripInfo draft)) s0.nextTid :=
      preserved_setTrip_light hwf0 (startInv_except _ _ hsi0)
        (fun t => rfl) (fun t => rfl) (fun t => rfl) (fun t => rfl)
    have hinv1 : Inv (setTrip s0 tr.tid (mergeTripInfo draft)) :=
      inv_of_preserved ⟨hwf0, hsi0, hnz0⟩ hp1
    have hp2 : Preserved (setTrip s0 tr.tid (mergeTripInfo draft))
        (setDive (setTrip s0 tr.tid (mergeTripInfo draft)) did markInTrip)
        (setTrip s0 tr.tid (mergeTripInfo draft)).nextTid :=
      preserved_setDive_light hinv1.1 (startInv_except _ _ hinv1.2.1)
        (fun r => rfl) (fun r => rfl)
    have hinv2 : Inv (setDive (setTrip s0 tr.tid (mergeTripInfo draft)) did markInTrip) :=
      inv_of_preserved hinv1 hp2
    exact inv_add _ did tr.tid hinv2
  · rw [heq]
    have hfresh : ∀ t ∈ s0.trips, t.tid ≠ draft.tid := by
      intro t ht
      rw [hdrtid]
      have hts : t ∈ s.trips := by rw [hs0] at ht; exact ht
      exact Nat.ne_of_lt (hwf.2.2.2.2.2.2 t hts)
    have hlt : draft.tid < s0.nextTid := by
      rw [hdrtid, hs0]
      exact Nat.lt_succ_self _
    have hwfp1 : WF { s0 with trips := insertBefore s0.trips draft } :=
      WF_insertBefore hwf0 hdrdv hdrnr hfresh hlt
    have hsip1 : StartInvExcept { s0 with trips := insertBefore s0.trips draft }
        draft.tid :=
      SIE_insertBefore (startInv_except _ _ hsi0) rfl
    have hnzp1 : NZ { s0 with trips := insertBefore s0.trips draft } := hnz0
    have hstep2 := @preserved_setDive_light _ did markInTrip draft.tid
      hwfp1 hsip1 (fun r => rfl) (fun r => rfl)
    have hwf2 := hstep2.1
    have hsi2 := hstep2.2.1
    have hnz2 : NZ (setDive { s0 with trips := insertBefore s0.trips draft } did
        markInTrip) := NZ_of_preserved hstep2 hnzp1
    have hfdp1 : findDive { s0 with trips := insertBefore s0.trips draft } did =
        some d := hfd0
    have hfd2 : findDive (setDive { s0 with trips := insertBefore s0.trips draft } did
        markInTrip) did = some (markInTrip d) := by
      rw [findDive_setDive_self, hfdp1]
      rfl
    have hne2 : (markInTrip d).divetrip ≠ some draft.tid := by
      rw [markInTrip_divetrip]
      intro hcon
      obtain ⟨-, -, -, -, -, how, htb⟩ := hwf
      obtain ⟨T2, hT2, hT2tid, -⟩ := how (did, d) (findDive_mem hfd) draft.tid hcon
      have hb := htb T2 hT2
      rw [hT2tid, hdrtid] at hb
      exact lt_irrefl _ hb
    have hgd : getTrip (setDive { s0 with trips := insertBefore s0.trips draft } did
        markInTrip) draft.tid = some draft := by
      show getTrip { s0 with trips := insertBefore s0.trips draft } draft.tid = some draft
      exact find?_tid_of_mem hwfp1.2.1 (mem_insertBefore.mpr (Or.inl rfl))
    have hgr : getTrip (remove_dive_from_trip (setDive { s0 with
        trips := insertBefore s0.trips draft } did markInTrip) did) draft.tid =
        some draft := by
      rw [getTrip_remove_other _ did draft.tid ?_]
      · exact hgd
      · intro dd hdd
        rw [hfd2] at hdd
        rw [← Option.some_injective _ hdd]
        exact hne2
    have htrw2 : draft.when = (markInTrip d).when := by
      rw [hdrwhen, markInTrip_when]
    have hfin := add_empty_startinv _ did draft.tid (markInTrip d) hwf2 hsi2 hnz2
      hfd2 hne2 draft hgr hdrdv htrw2
    exact ⟨hfin.1, hfin.2.1, hfin.2.2⟩

theorem inv_setTrip_light {s : DLState} {tid : Nat} {f : TripRec → TripRec}
    (hinv : Inv s) (htid : ∀ t, (f t).tid = t.tid)
    (hdv : ∀ t, (f t).dives = t.dives) (hnr : ∀ t, (f t).nrdives = t.nrdives)
    (hwhen : ∀ t, (f t).when = t.when) : Inv (setTrip s tid f) :=
  inv_of_preserved hinv
    (preserved_setTrip_light hinv.1 (startInv_except _ _ hinv.2.1) htid hdv hnr hwhen)

theorem inv_autogroupNewTrip (s : DLState) (did : Nat) (hinv : Inv s) :
    Inv (autogroupNewTrip s did) := by
  have h1 := create_inv s did hinv
  have hs' : autogroupNewTrip s did =
      setTrip (create_and_hookup_trip_from_dive s did).1
        (create_and_hookup_trip_from_dive s did).2 setAutogen := rfl
  rw [hs']
  exact inv_setTrip_light h1 (fun t => rfl) (fun t => rfl) (fun t => rfl) (fun t => rfl)

theorem inv_autogroupGo (thr : Int) (l : List Nat) (lastdive : Option Nat)
    (s : DLState) (hinv : Inv s) : Inv (autogroupGo thr l lastdive s) := by
  induction l generalizing lastdive s with
  | nil => exact hinv
  | cons did rest ih =>
      cases hfd : findDive s did with
      | none =>
          have hs' : autogroupGo thr (did :: rest) lastdive s =
              autogroupGo thr rest lastdive s := by
            simp only [autogroupGo, hfd]
          rw [hs']
          exact ih lastdive s hinv
      | some d =>
      by_cases hds : d.divetrip.isSome
      · have hs' : autogroupGo thr (did :: rest) lastdive s =
            autogroupGo thr rest (some did) s := by
          simp only [autogroupGo, hfd, if_pos hds]
        rw [hs']
        exact ih _ s hinv
      · by_cases hneed : ¬ DIVE_NEEDS_TRIP d
        · have hs' : autogroupGo thr (did :: rest) lastdive s =
              autogroupGo thr rest none s := by
            simp only [autogroupGo, hfd, if_neg hds, if_pos hneed]
          rw [hs']
          exact ih _ s hinv
        · cases hld : lastdive with
          | none =>
              have hs' : autogroupGo thr (did :: rest) none s =
                  autogroupGo thr rest (some did) (autogroupNewTrip s did) := by
                simp only [autogroupGo, hfd, if_neg hds, if_neg hneed]
              rw [hs']
              exact ih _ _ (inv_autogroupNewTrip s did hinv)
          | some ldid =>
              cases hfl : findDive s ldid with
              | none =>
                  have hs' : autogroupGo thr (did :: rest) (some ldid) s =
                      autogroupGo thr rest (some did) (autogroupNewTrip s did) := by
                    simp only [autogroupGo, hfd, if_neg hds, if_neg hneed, hfl]
                  rw [hs']
                  exact ih _ _ (inv_autogroupNewTrip s did hinv)
              | some ld =>
                  by_cases hwhen : d.when < ld.when + thr
                  · cases hldt : ld.divetrip with
                    | none =>
                        have hs' : autogroupGo thr (did :: rest) (some ldid) s =
                            autogroupGo thr rest (some did) s := by
                          simp only [autogroupGo, hfd, if_neg hds, if_neg hneed,
                            hfl, if_pos hwhen, hldt]
                        rw [hs']
                        exact ih _ s hinv
                    | some tid =>
                        have hs' : autogroupGo thr (did :: rest) (some ldid) s =
                            autogroupGo thr rest (some did)
                              (match d.location,
                                 getTrip (add_dive_to_trip s did tid) tid with
                               | some loc, some tr =>
                                 if tr.location = none then
                                   setTrip (add_dive_to_trip s did tid) tid (setLoc loc)
                                 else add_dive_to_trip s did tid
                               | _, _ => add_dive_to_trip s did tid) := by
                          simp only [autogroupGo, hfd, if_neg hds, if_neg hneed,
                            hfl, if_pos hwhen, hldt]
                        rw [hs']
                        have hinv1 : Inv (add_dive_to_trip s did tid) :=
                          inv_add s did tid hinv
                        refine ih _ _ ?_
                        cases hl : d.location with
                        | none => exact hinv1
                        | some loc =>
                            cases hgt : getTrip (add_dive_to_trip s did tid) tid with
                            | none => exact hinv1
                            | some tr =>
                                show Inv (if tr.location = none then
                                  setTrip (add_dive_to_trip s did tid) tid (setLoc loc)
                                  else add_dive_to_trip s did tid)
                                by_cases hloc : tr.location = none
                                · rw [if_pos hloc]
                                  exact inv_setTrip_light hinv1 (fun t => rfl)
                                    (fun t => rfl) (fun t => rfl) (fun t => rfl)
                                · rw [if_neg hloc]
                                  exact hinv1
                  · have hs' : autogroupGo thr (did :: rest) (some ldid) s =
                        autogroupGo thr rest (some did) (autogroupNewTrip s did) := by
                      simp only [autogroupGo, hfd, if_neg hds, if_neg hneed, hfl,
                        if_neg hwhen]
                    rw [hs']
                    exact ih _ _ (inv_autogroupNewTrip s did hinv)

theorem inv_autogroup (s : DLState) (thr : Int) (hinv : Inv s) :
    Inv (autogroup_dives s thr) :=
  inv_autogroupGo thr (s.dives.map Prod.fst) none s hinv

theorem inv_fold_add (tid : Nat) (l : List Nat) (s : DLState) (hinv : Inv s) :
    Inv (l.foldl (fun st x => add_dive_to_trip st x tid) s) := by
  induction l generalizing s with
  | nil => exact hinv
  | cons a rest ih =>
      rw [List.foldl_cons]
      exact ih _ (inv_add s a tid hinv)

theorem inv_split (s : DLState) (prevDid did : Nat) (after : List Nat)
    (hinv : Inv s)
    (hord : ∀ dd pd, findDive s did = some dd → findDive s prevDid = some pd →
      ¬ dd.when < pd.when) :
    Inv (split_trip s prevDid did after).1 := by
  have hfix : (match findDive s did, findDive s prevDid with
    | some d, some pd =>
      if d.when < pd.when then
        match pd.divetrip with
        | some ptid =>
          match getTrip s ptid with
          | some ptr =>
            if ptr.when < pd.when then setTrip s ptid (setWhen pd.when)
            else s
          | none => s
        | none => s
      else s
    | _, _ => s) = s := by
    cases hfd : findDive s did with
    | none => rfl
    | some d =>
        cases hpd : findDive s prevDid with
        | none => rfl
        | some pd =>
            show (if d.when < pd.when then _ else s) = s
            rw [if_neg (hord d pd hfd hpd)]
  have hexp : (split_trip s prevDid did after).1 =
      add_dive_to_trip
        ((after.reverse).foldl
          (fun st x => add_dive_to_trip st x
            (create_and_hookup_trip_from_dive s did).2)
          (create_and_hookup_trip_from_dive s did).1)
        did (create_and_hookup_trip_from_dive s did).2 := by
    simp only [split_trip, hfix]
  rw [hexp]
  exact inv_add _ did _
    (inv_fold_add _ after.reverse _ (create_inv s did hinv))

instance (s : DLState) : Decidable (WF s) := by
  unfold WF
  infer_instance

instance (s : DLState) : Decidable (StartInv s) := by
  unfold StartInv
  infer_instance

instance (s : DLState) (x : Nat) : Decidable (StartInvExcept s x) := by
  unfold StartInvExcept
  infer_instance

instance (s : DLState) : Decidable (NZ s) := by
  unfold NZ
  infer_instance

instance (s : DLState) : Decidable (Inv s) := by
  unfold Inv
  infer_instance

/-! ## C1: the trip start-time invariant across mutations -/

/-- The C1 failing input: one trip (identifier 1, start 5) with sole
member dive 10; dive 11 is unassigned and carries the (legal) zero
timestamp. -/
def C1state : DLState :=
  { dives :=
      [(10, ⟨5, 0, none, TripFlag.ASSIGNED_TRIP, some 1⟩),
       (11, ⟨0, 0, none, TripFlag.TF_NONE, none⟩)],
    trips := [⟨1, 0, 5, none, none, false, 1, [10]⟩],
    nextTid := 2 }

/-- A well-formed two-dive input with nonzero timestamps used to
instantiate the amended C1 statement. -/
def C1wit : DLState :=
  { dives :=
      [(10, ⟨5, 0, none, TripFlag.ASSIGNED_TRIP, some 1⟩),
       (11, ⟨7, 0, none, TripFlag.TF_NONE, none⟩)],
    trips := [⟨1, 0, 5, none, none, false, 1, [10]⟩],
    nextTid := 2 }

/-- C1, counterexample: the claim has no timestamp side condition, but
add_dive_to_trip only lowers the trip start when the dive's timestamp
is nonzero (`dive->when && trip->when > dive->when`).  Adding a
zero-timestamp dive to a trip that starts later leaves the trip start
above the new minimum member timestamp, so the invariant breaks after
a completed mutation. -/
theorem C1_zero_when_breaks_invariant :
    WF C1state ∧ StartInv C1state ∧
    ¬ StartInv (add_dive_to_trip C1state 11 1) := by decide

/-- C1 (amended): when every dive timestamp is nonzero, each completed
trip mutation — adding a dive to a trip, removing a dive from a trip,
merging trips, splitting a trip (at a dive not displayed before an
earlier-starting neighbour), and auto-grouping — keeps every
registered trip nonempty with its start time attaining the minimum
member timestamp. -/
theorem C1_trip_mutations_preserve_invariant :
    (∀ s did tid, Inv s → StartInv (add_dive_to_trip s did tid)) ∧
    (∀ s did, WF s → StartInv s → StartInv (remove_dive_from_trip s did)) ∧
    (∀ fromTid toTid fuel s, Inv s → StartInv (merge_trips fromTid toTid fuel s)) ∧
    (∀ s prevDid did after, Inv s →
       (∀ dd pd, findDive s did = some dd → findDive s prevDid = some pd →
         ¬ dd.when < pd.when) →
       StartInv (split_trip s prevDid did after).1) ∧
    (∀ s thr, Inv s → StartInv (autogroup_dives s thr)) := by
  refine ⟨?_, ?_, ?_, ?_, ?_⟩
  · exact fun s did tid hinv => (inv_add s did tid hinv).2.1
  · intro s did hwf hsi
    have h := remove_preserves s did s.nextTid hwf (startInv_except _ _ hsi)
    obtain ⟨hwf', hsie, -, -, hnt, -⟩ := h
    refine startInv_of_except _ _ hsie ?_
    intro t ht
    obtain ⟨-, -, -, -, -, -, htb⟩ := hwf'
    have := htb t ht
    rw [hnt] at this
    omega
  · exact fun fromTid toTid fuel s hinv => (inv_merge fromTid toTid fuel s hinv).2.1
  · exact fun s prevDid did after hinv hord =>
      (inv_split s prevDid did after hinv hord).2.1
  · exact fun s thr hinv => (inv_autogroup s thr hinv).2.1

/-- Closed instance of the amended C1 statement on a concrete
well-formed store. -/
theorem C1_trip_mutations_preserve_invariant_witness :
    Inv C1wit ∧ StartInv (add_dive_to_trip C1wit 11 1) :=
  ⟨by decide, C1_trip_mutations_preserve_invariant.1 C1wit 11 1 (by decide)⟩

/-! ## C7: removing a trip's sole member deletes the trip -/

/-- Any trip produced by the display-index lookup is a member of the
registry list. -/
theorem find_trip_by_idx_mem {s : DLState} {idx : Int} {t : TripRec}
    (h : find_trip_by_idx s idx = some t) : t ∈ s.trips := by
  rw [find_trip_by_idx] at h
  by_cases h0 : 0 ≤ idx
  · rw [if_pos h0] at h
    exact Option.noConfusion h
  · rw [if_neg h0] at h
    exact List.mem_of_find?_eq_some h

/-- C7: removing the sole member of a trip unlinks the dive, leaves
the trip with zero members and deletes it; afterwards no lookup — by
trip identifier or by display index — can produce a trip with that
identifier. -/
theorem C7_sole_member_removal (s : DLState) (did tid : Nat) (d : DiveRec) (T : TripRec)
    (hwf : WF s) (hfd : findDive s did = some d) (hdt : d.divetrip = some tid)
    (hg : getTrip s tid = some T) (hone : T.dives = [did]) :
    getTrip (remove_dive_from_trip s did) tid = none ∧
    (∀ q ∈ (remove_dive_from_trip s did).trips, q.tid ≠ tid) ∧
    (∀ idx t, find_trip_by_idx (remove_dive_from_trip s did) idx = some t →
      t.tid ≠ tid) := by
  obtain ⟨T', hT', hTtid', hTmem', hgt'⟩ := owner_unique hwf hfd hdt
  have hTT : T' = T := by
    rw [hg] at hgt'
    exact (Option.some_injective _ hgt').symm
  subst hTT
  obtain ⟨hdnd, htnd, hmnd, hnrd, hmo, how, htb⟩ := hwf
  have hg2L : getTrip (setDive (setTrip s tid (eraseDive did)) did clearTrip) tid =
      some (eraseDive did T') := by
    show getTrip (setTrip s tid (eraseDive did)) tid = _
    rw [getTrip_setTrip_self (f := eraseDive did) (fun t => rfl), hgt']
    rfl
  have hnr1 : T'.nrdives = 1 := by
    rw [hnrd T' hT', hone]
    rfl
  have hn0 : T'.nrdives - 1 = 0 := by omega
  have hexp : remove_dive_from_trip s did =
      delete_trip (setTrip (setDive (setTrip s tid (eraseDive did)) did clearTrip)
        tid decNr) tid := by
    simp only [remove_dive_from_trip, hfd, hdt, hg2L, eraseDive_nrdives, eraseDive_when,
      if_pos hn0]
  have hmaptid3 : (setTrip (setDive (setTrip s tid (eraseDive did)) did clearTrip)
      tid decNr).trips.map TripRec.tid = s.trips.map TripRec.tid := by
    rw [map_tid_setTrip _ _ decNr (fun t => rfl)]
    show (setTrip s tid (eraseDive did)).trips.map TripRec.tid = _
    rw [map_tid_setTrip _ _ (eraseDive did) (fun t => rfl)]
  have hnone : ∀ q ∈ (remove_dive_from_trip s did).trips, q.tid ≠ tid := by
    intro q hq he
    rw [hexp] at hq
    have hqm : q.tid ∈ (removeTripFromList (setTrip (setDive (setTrip s tid
        (eraseDive did)) did clearTrip) tid decNr).trips tid).map TripRec.tid :=
      List.mem_map_of_mem TripRec.tid hq
    rw [map_tid_removeTripFromList, hmaptid3] at hqm
    rw [he] at hqm
    have hnd : (s.trips.map TripRec.tid).Nodup := htnd
    exact (List.Nodup.mem_erase_iff hnd).mp hqm |>.1 rfl
  refine ⟨?_, hnone, ?_⟩
  · rw [getTrip]
    rw [List.find?_eq_none]
    intro q hq
    simp only [beq_iff_eq]
    exact hnone q hq
  · intro idx t ht he
    exact hnone t (find_trip_by_idx_mem ht) he

/-- Concrete instance for C7: a registry with one trip whose sole
member is dive 10. -/
def C7state : DLState :=
  { dives := [(10, ⟨5, 0, none, TripFlag.ASSIGNED_TRIP, some 1⟩)],
    trips := [⟨1, 0, 5, none, none, false, 1, [10]⟩],
    nextTid := 2 }

/-- Closed instance of C7 on the concrete registry. -/
theorem C7_sole_member_removal_witness :
    getTrip (remove_dive_from_trip C7state 10) 1 = none ∧
    (∀ q ∈ (remove_dive_from_trip C7state 10).trips, q.tid ≠ 1) ∧
    (∀ idx t, find_trip_by_idx (remove_dive_from_trip C7state 10) idx = some t →
      t.tid ≠ 1) :=
  C7_sole_member_removal C7state 10 1 ⟨5, 0, none, TripFlag.ASSIGNED_TRIP, some 1⟩
    ⟨1, 0, 5, none, none, false, 1, [10]⟩ (by decide) (by decide) (by decide)
    (by decide) (by decide)

/-! ## C4: autogroup gap threshold on the three-dive family -/

/-- The C4 store: three ungrouped dives needing trips, with timestamps
T, T+1h, T+50h for T = 360000 (all in seconds, 1h = 3600). -/
def C4state : DLState :=
  { dives :=
      [(10, ⟨360000, 0, none, TripFlag.TF_NONE, none⟩),
       (11, ⟨363600, 0, none, TripFlag.TF_NONE, none⟩),
       (12, ⟨540000, 0, none, TripFlag.TF_NONE, none⟩)],
    trips := [],
    nextTid := 1 }

/-- The store after autogroup has seeded trip 1 from dive 10. -/
def C4sA : DLState :=
  { dives :=
      [(10, ⟨360000, 0, none, TripFlag.ASSIGNED_TRIP, some 1⟩),
       (11, ⟨363600, 0, none, TripFlag.TF_NONE, none⟩),
       (12, ⟨540000, 0, none, TripFlag.TF_NONE, none⟩)],
    trips := [⟨1, 0, 360000, none, none, true, 1, [10]⟩],
    nextTid := 2 }

/-- The store after dive 11 has joined trip 1. -/
def C4sB : DLState :=
  { dives :=
      [(10, ⟨360000, 0, none, TripFlag.ASSIGNED_TRIP, some 1⟩),
       (11, ⟨363600, 0, none, TripFlag.ASSIGNED_TRIP, some 1⟩),
       (12, ⟨540000, 0, none, TripFlag.TF_NONE, none⟩)],
    trips := [⟨1, 0, 360000, none, none, true, 2, [11, 10]⟩],
    nextTid := 2 }

/-- The two-trip outcome: trips {11,10} and {12}, both auto-generated. -/
def C4twoTrips : DLState :=
  { dives :=
      [(10, ⟨360000, 0, none, TripFlag.ASSIGNED_TRIP, some 1⟩),
       (11, ⟨363600, 0, none, TripFlag.ASSIGNED_TRIP, some 1⟩),
       (12, ⟨540000, 0, none, TripFlag.ASSIGNED_TRIP, some 2⟩)],
    trips :=
      [⟨1, 0, 360000, none, none, true, 2, [11, 10]⟩,
       ⟨2, 0, 540000, none, none, true, 1, [12]⟩],
    nextTid := 3 }

/-- The one-trip outcome: a single auto-generated trip {12,11,10}. -/
def C4oneTrip : DLState :=
  { dives :=
      [(10, ⟨360000, 0, none, TripFlag.ASSIGNED_TRIP, some 1⟩),
       (11, ⟨363600, 0, none, TripFlag.ASSIGNED_TRIP, some 1⟩),
       (12, ⟨540000, 0, none, TripFlag.ASSIGNED_TRIP, some 1⟩)],
    trips := [⟨1, 0, 360000, none, none, true, 3, [12, 11, 10]⟩],
    nextTid := 2 }

/-- C4, counterexample: the threshold 178200 s (49.5 h) lies strictly
between 1 h and 50 h, yet autogroup over the T, T+1h, T+50h family
yields ONE auto-generated trip holding all three dives — the join test
compares the candidate against the PREVIOUS dive's timestamp (T+1h),
not against the trip anchor T, so the claimed (1h, 50h) range is
wrong. -/
theorem C4_gap_range_counterexample :
    (3600 : Int) < 178200 ∧ (178200 : Int) < 180000 ∧
    autogroup_dives C4state 178200 = C4oneTrip ∧
    (autogroup_dives C4state 178200).trips.length = 1 := by decide

/-- C4 (amended): on the T, T+1h, T+50h family the claimed grouping
{first two}{third} — both trips auto-generated — occurs exactly for
thresholds in (1h, 49h]; any larger threshold (including part of the
claimed (1h, 50h) range) chains all three dives into a single trip,
because an ungrouped dive joins exactly when its timestamp is below
the previous relevant dive's timestamp plus the threshold. -/
theorem C4_autogroup_threshold (thr : Int) :
    (3600 < thr → thr ≤ 176400 → autogroup_dives C4state thr = C4twoTrips) ∧
    (176400 < thr → autogroup_dives C4state thr = C4oneTrip) := by
  constructor
  · intro ha hb
    have hc1 : (363600 : Int) < 360000 + thr := by omega
    have hc2 : ¬ ((540000 : Int) < 363600 + thr) := by omega
    simp only [autogroup_dives, autogroupGo,
      show C4state.dives.map Prod.fst = [10, 11, 12] from rfl,
      show findDive C4state 10 = some ⟨360000, 0, none, TripFlag.TF_NONE, none⟩ from rfl,
      show findDive C4sA 11 = some ⟨363600, 0, none, TripFlag.TF_NONE, none⟩ from rfl,
      show findDive C4sA 10 = some ⟨360000, 0, none, TripFlag.ASSIGNED_TRIP, some 1⟩ from
        rfl,
      show findDive C4sB 12 = some ⟨540000, 0, none, TripFlag.TF_NONE, none⟩ from rfl,
      show findDive C4sB 11 = some ⟨363600, 0, none, TripFlag.ASSIGNED_TRIP, some 1⟩ from
        rfl,
      show autogroupNewTrip C4state 10 = C4sA from by decide,
      show add_dive_to_trip C4sA 11 1 = C4sB from by decide,
      show autogroupNewTrip C4sB 12 = C4twoTrips from by decide,
      hc1, hc2,
      Option.isSome_none, Option.isSome_some, DIVE_NEEDS_TRIP,
      Bool.false_eq_true, decide_True, decide_False, not_true, not_false_iff,
      ite_true, ite_false, if_true, if_false]
  · intro ha
    have hc1 : (363600 : Int) < 360000 + thr := by omega
    have hc2 : (540000 : Int) < 363600 + thr := by omega
    simp only [autogroup_dives, autogroupGo,
      show C4state.dives.map Prod.fst = [10, 11, 12] from rfl,
      show findDive C4state 10 = some ⟨360000, 0, none, TripFlag.TF_NONE, none⟩ from rfl,
      show findDive C4sA 11 = some ⟨363600, 0, none, TripFlag.TF_NONE, none⟩ from rfl,
      show findDive C4sA 10 = some ⟨360000, 0, none, TripFlag.ASSIGNED_TRIP, some 1⟩ from
        rfl,
      show findDive C4sB 12 = some ⟨540000, 0, none, TripFlag.TF_NONE, none⟩ from rfl,
      show findDive C4sB 11 = some ⟨363600, 0, none, TripFlag.ASSIGNED_TRIP, some 1⟩ from
        rfl,
      show autogroupNewTrip C4state 10 = C4sA from by decide,
      show add_dive_to_trip C4sA 11 1 = C4sB from by decide,
      show add_dive_to_trip C4sB 12 1 = C4oneTrip from by decide,
      hc1, hc2,
      Option.isSome_none, Option.isSome_some, DIVE_NEEDS_TRIP,
      Bool.false_eq_true, decide_True, decide_False, not_true, not_false_iff,
      ite_true, ite_false, if_true, if_false]

/-- Closed instance of the amended C4 statement at thresholds 100000 s
(inside the corrected range) and 178200 s (outside it). -/
theorem C4_autogroup_threshold_witness :
    autogroup_dives C4state 100000 = C4twoTrips ∧
    autogroup_dives C4state 178200 = C4oneTrip :=
  ⟨(C4_autogroup_threshold 100000).1 (by decide) (by decide),
   (C4_autogroup_threshold 178200).2 (by decide)⟩

/-! ## C8: exact-state lemmas for the split/merge round trip -/

/-- Adding a dive to the trip it already belongs to is a no-op. -/
theorem add_noop (s : DLState) (did tid : Nat) (d : DiveRec)
    (hfd : findDive s did = some d) (hdt : d.divetrip = some tid) :
    add_dive_to_trip s did tid = s := by
  simp only [add_dive_to_trip, hfd, if_pos hdt]

/-- delete_trip removes the addressed trip: afterwards the identifier
resolves to nothing (the trip list had no duplicate identifiers). -/
theorem getTrip_delete_self {s : DLState} {tid : Nat}
    (hnd : (s.trips.map TripRec.tid).Nodup) :
    getTrip (delete_trip s tid) tid = none := by
  rw [getTrip, List.find?_eq_none]
  intro q hq
  simp only [beq_iff_eq]
  intro he
  have hqm : q.tid ∈ (removeTripFromList s.trips tid).map TripRec.tid :=
    List.mem_map_of_mem TripRec.tid hq
  rw [map_tid_removeTripFromList, he] at hqm
  exact ((List.Nodup.mem_erase_iff hnd).mp hqm).1 rfl

theorem trips_delete_tid_ne {s : DLState} {tid : Nat}
    (hnd : (s.trips.map TripRec.tid).Nodup) :
    ∀ q ∈ (delete_trip s tid).trips, q.tid ≠ tid := by
  intro q hq he
  have hqm : q.tid ∈ (removeTripFromList s.trips tid).map TripRec.tid :=
    List.mem_map_of_mem TripRec.tid hq
  rw [map_tid_removeTripFromList, he] at hqm
  exact ((List.Nodup.mem_erase_iff hnd).mp hqm).1 rfl

/-- Exact shape of add_dive_to_trip when the dive leaves a trip that
keeps further members and a different start time, and the target trip
does not start later than the dive: unlink, clear, decrement, push,
reassign — no start-time updates fire. -/
theorem add_exact_plain (st : DLState) (x tidF tidT : Nat) (r : DiveRec) (F T : TripRec)
    (hfd : findDive st x = some r) (hdt : r.divetrip = some tidF)
    (hFT : tidF ≠ tidT)
    (hgF : getTrip st tidF = some F) (hgT : getTrip st tidT = some T)
    (hnr : ¬ F.nrdives - 1 = 0) (hwne : ¬ F.when = r.when)
    (hnolow : ¬ (r.when ≠ 0 ∧ T.when > r.when)) :
    add_dive_to_trip st x tidT =
      setDive (setTrip (setTrip (setDive (setTrip st tidF (eraseDive x)) x clearTrip)
        tidF decNr) tidT (pushDive x)) x (setOwner tidT) := by
  have hneq : ¬ r.divetrip = some tidT := by
    rw [hdt]
    intro h
    exact hFT (Option.some_injective _ h)
  have hg2L : getTrip (setDive (setTrip st tidF (eraseDive x)) x clearTrip) tidF =
      some (eraseDive x F) := by
    show getTrip (setTrip st tidF (eraseDive x)) tidF = _
    rw [getTrip_setTrip_self (f := eraseDive x) (fun t => rfl), hgF]
    rfl
  have hrem : remove_dive_from_trip st x =
      setTrip (setDive (setTrip st tidF (eraseDive x)) x clearTrip) tidF decNr := by
    simp only [remove_dive_from_trip, hfd, hdt, hg2L, eraseDive_nrdives, eraseDive_when,
      if_neg hnr, if_neg hwne]
  have hgT' : getTrip (remove_dive_from_trip st x) tidT = some T := by
    rw [hrem, getTrip_setTrip_other (f := decNr) (fun t => rfl) tidT
      (fun h => hFT h.symm)]
    show getTrip (setTrip st tidF (eraseDive x)) tidT = _
    rw [getTrip_setTrip_other (f := eraseDive x) (fun t => rfl) tidT
      (fun h => hFT h.symm)]
    exact hgT
  rw [hrem] at hgT'
  simp only [add_dive_to_trip, hfd, if_neg hneq, hrem, hgT', if_neg hnolow]

/-- Exact shape of add_dive_to_trip when the dive is the sole member
of its trip: the trip is deleted before the dive joins the target. -/
theorem add_exact_delete (st : DLState) (x tidF tidT : Nat) (r : DiveRec) (F T : TripRec)
    (hfd : findDive st x = some r) (hdt : r.divetrip = some tidF)
    (hFT : tidF ≠ tidT)
    (hgF : getTrip st tidF = some F) (hgT : getTrip st tidT = some T)
    (hnr : F.nrdives - 1 = 0)
    (hnolow : ¬ (r.when ≠ 0 ∧ T.when > r.when)) :
    add_dive_to_trip st x tidT =
      setDive (setTrip (delete_trip (setTrip (setDive (setTrip st tidF (eraseDive x))
        x clearTrip) tidF decNr) tidF) tidT (pushDive x)) x (setOwner tidT) := by
  have hneq : ¬ r.divetrip = some tidT := by
    rw [hdt]
    intro h
    exact hFT (Option.some_injective _ h)
  have hg2L : getTrip (setDive (setTrip st tidF (eraseDive x)) x clearTrip) tidF =
      some (eraseDive x F) := by
    show getTrip (setTrip st tidF (eraseDive x)) tidF = _
    rw [getTrip_setTrip_self (f := eraseDive x) (fun t => rfl), hgF]
    rfl
  have hrem : remove_dive_from_trip st x =
      delete_trip (setTrip (setDive (setTrip st tidF (eraseDive x)) x clearTrip)
        tidF decNr) tidF := by
    simp only [remove_dive_from_trip, hfd, hdt, hg2L, eraseDive_nrdives, eraseDive_when,
      if_pos hnr]
  have hgT' : getTrip (remove_dive_from_trip st x) tidT = some T := by
    rw [hrem, getTrip_delete_other (fun h => hFT h.symm),
      getTrip_setTrip_other (f := decNr) (fun t => rfl) tidT (fun h => hFT h.symm)]
    show getTrip (setTrip st tidF (eraseDive x)) tidT = _
    rw [getTrip_setTrip_other (f := eraseDive x) (fun t => rfl) tidT
      (fun h => hFT h.symm)]
    exact hgT
  rw [hrem] at hgT'
  simp only [add_dive_to_trip, hfd, if_neg hneq, hrem, hgT', if_neg hnolow]

theorem find?_insertBefore_of_neg (l : List TripRec) (draft : TripRec)
    (p : TripRec → Bool) (hp : p draft = false) :
    (insertBefore l draft).find? p = l.find? p := by
  induction l with
  | nil =>
      show [draft].find? p = List.find? p []
      simp only [List.find?_cons, hp, List.find?_nil]
  | cons t ts ih =>
      rw [insertBefore]
      by_cases h : draft.when ≤ t.when
      · rw [if_pos h]
        simp only [List.find?_cons, hp]
      · rw [if_neg h]
        cases hb : p t
        · simp only [List.find?_cons, hb]
          exact ih
        · simp only [List.find?_cons, hb]

/-- Exact shape of create_and_hookup_trip_from_dive when no existing
trip shares the dive's start time (fresh insertion) and the dive
leaves behind a trip with further members and an earlier start: the
result is a fresh trip with the dive as sole member, the old trip
loses the dive, and all other dive records are untouched. -/
theorem create_exact (s : DLState) (did otid : Nat) (d : DiveRec) (O : TripRec)
    (hinv : Inv s)
    (hfd : findDive s did = some d) (hdt : d.divetrip = some otid)
    (hgO : getTrip s otid = some O)
    (hnrO : ¬ O.nrdives - 1 = 0) (hwO : ¬ O.when = d.when)
    (hfreshw : ∀ t ∈ s.trips, t.when ≠ d.when) :
    ∃ stC, create_and_hookup_trip_from_dive s did = (stC, s.nextTid) ∧
      Inv stC ∧
      getTrip stC otid = some (decNr (eraseDive did O)) ∧
      getTrip stC s.nextTid =
        some ⟨s.nextTid, 0, d.when, d.location, none, false, 1, [did]⟩ ∧
      (∃ rC, findDive stC did = some rC ∧ rC.divetrip = some s.nextTid ∧
        rC.when = d.when) ∧
      (∀ y, y ≠ did → findDive stC y = findDive s y) := by
  obtain ⟨hwf, hsi, hnz⟩ := hinv
  obtain ⟨hOs, hOtid⟩ := getTrip_mem hgO
  have hON : otid ≠ s.nextTid := Nat.ne_of_lt (hOtid ▸ hwf.2.2.2.2.2.2 O hOs)
  obtain ⟨draftL, hdraftL⟩ : ∃ dr : TripRec, dr =
      { tid := s.nextTid, tIndex := 0, when := d.when, location := d.location,
        notes := none, autogen := false, nrdives := 0, dives := [] } := ⟨_, rfl⟩
  obtain ⟨s0, hs0⟩ : ∃ s0 : DLState, s0 = { s with nextTid := s.nextTid + 1 } := ⟨_, rfl⟩
  have hdrdv : draftL.dives = [] := by rw [hdraftL]
  have hdrtid : draftL.tid = s.nextTid := by rw [hdraftL]
  have hdrwhen : draftL.when = d.when := by rw [hdraftL]
  have heq : insert_trip s0 draftL =
      ({ s0 with trips := insertBefore s0.trips draftL }, draftL.tid) := by
    rcases insert_trip_empty s0 draftL hdrdv with ⟨tr, hf, hte, -⟩ | heq
    · exfalso
      have htr : tr ∈ s0.trips := List.mem_of_find?_eq_some hf
      have htr' : tr ∈ s.trips := by rw [hs0] at htr; exact htr
      exact hfreshw tr htr' (by rw [← hdrwhen]; exact hte)
    · exact heq
  obtain ⟨p1, hp1⟩ : ∃ p1 : DLState, p1 =
      setDive { s0 with trips := insertBefore s0.trips draftL } did markInTrip :=
    ⟨_, rfl⟩
  have hexp : create_and_hookup_trip_from_dive s did =
      (add_dive_to_trip p1 did s.nextTid, s.nextTid) := by
    rw [hp1, ← hdrtid]
    simp only [create_and_hookup_trip_from_dive, hfd, ← hdraftL, ← hs0, heq]
  have hfdp1 : findDive p1 did = some (markInTrip d) := by
    rw [hp1, findDive_setDive_self]
    have hbase : findDive { s0 with trips := insertBefore s0.trips draftL } did =
        findDive s did := by
      rw [hs0]
      rfl
    rw [hbase, hfd]
    rfl
  have hfp1other : ∀ y, y ≠ did → findDive p1 y = findDive s y := by
    intro y hy
    rw [hp1, findDive_setDive_other _ _ _ _ hy]
    rw [hs0]
    rfl
  have hdt1 : (markInTrip d).divetrip = some otid := by
    rw [markInTrip_divetrip, hdt]
  have hgO1 : getTrip p1 otid = some O := by
    rw [hp1]
    show getTrip { s0 with trips := insertBefore s0.trips draftL } otid = _
    show (insertBefore s0.trips draftL).find? (fun t => t.tid == otid) = _
    have hpd : ((fun t => t.tid == otid) draftL) = false := by
      show (draftL.tid == otid) = false
      rw [hdrtid]
      exact beq_eq_false_iff_ne.mpr (fun h => hON h.symm)
    rw [find?_insertBefore_of_neg _ _ _ hpd]
    show getTrip s0 otid = _
    rw [hs0]
    exact hgO
  have hndins : ((insertBefore s0.trips draftL).map TripRec.tid).Nodup := by
    refine ((insertBefore_perm s0.trips draftL).map TripRec.tid).nodup_iff.mpr ?_
    refine List.nodup_cons.mpr ⟨?_, ?_⟩
    · intro hmem
      obtain ⟨t, ht, hte⟩ := List.mem_map.mp hmem
      have ht' : t ∈ s.trips := by rw [hs0] at ht; exact ht
      rw [hdrtid] at hte
      exact Nat.ne_of_lt (hwf.2.2.2.2.2.2 t ht') hte
    · show (s0.trips.map TripRec.tid).Nodup
      rw [hs0]
      exact hwf.2.1
  have hgN1 : getTrip p1 s.nextTid = some draftL := by
    rw [hp1]
    show getTrip { s0 with trips := insertBefore s0.trips draftL } s.nextTid = _
    show (insertBefore s0.trips draftL).find? (fun t => t.tid == s.nextTid) = _
    rw [← hdrtid]
    exact find?_tid_of_mem hndins (mem_insertBefore.mpr (Or.inl rfl))
  have hw1 : ¬ O.when = (markInTrip d).when := by
    rw [markInTrip_when]
    exact hwO
  have hnolow : ¬ ((markInTrip d).when ≠ 0 ∧ draftL.when > (markInTrip d).when) := by
    rw [markInTrip_when, hdrwhen]
    exact fun hc => lt_irrefl _ hc.2
  have key := add_exact_plain p1 did otid s.nextTid (markInTrip d) O draftL
    hfdp1 hdt1 hON hgO1 hgN1 hnrO hw1 hnolow
  refine ⟨_, by rw [hexp, key], ?_, ?_, ?_, ?_, ?_⟩
  · have h1 := create_inv s did ⟨hwf, hsi, hnz⟩
    rw [hexp] at h1
    rw [← key]
    exact h1
  · show getTrip (setTrip (setTrip (setDive (setTrip p1 otid (eraseDive did)) did
      clearTrip) otid decNr) s.nextTid (pushDive did)) otid = _
    rw [getTrip_setTrip_other (f := pushDive did) (fun t => rfl) otid hON]
    rw [getTrip_setTrip_self (f := decNr) (fun t => rfl)]
    show (getTrip (setTrip p1 otid (eraseDive did)) otid).map decNr = _
    rw [getTrip_setTrip_self (f := eraseDive did) (fun t => rfl), hgO1]
    rfl
  · show getTrip (setTrip (setTrip (setDive (setTrip p1 otid (eraseDive did)) did
      clearTrip) otid decNr) s.nextTid (pushDive did)) s.nextTid = _
    rw [getTrip_setTrip_self (f := pushDive did) (fun t => rfl)]
    rw [getTrip_setTrip_other (f := decNr) (fun t => rfl) s.nextTid
      (fun h => hON h.symm)]
    show ((getTrip (setTrip p1 otid (eraseDive did)) s.nextTid).map (pushDive did)) = _
    rw [getTrip_setTrip_other (f := eraseDive did) (fun t => rfl) s.nextTid
      (fun h => hON h.symm)]
    rw [hgN1, hdraftL]
    rfl
  · refine ⟨setOwner s.nextTid (clearTrip (markInTrip d)), ?_, rfl, rfl⟩
    rw [findDive_setDive_self]
    show (findDive (setDive (setTrip p1 otid (eraseDive did)) did clearTrip)
      did).map _ = _
    rw [findDive_setDive_self]
    show ((findDive p1 did).map clearTrip).map _ = _
    rw [hfdp1]
    rfl
  · intro y hy
    rw [findDive_setDive_other _ _ _ _ hy]
    show findDive (setDive (setTrip p1 otid (eraseDive did)) did clearTrip) y = _
    rw [findDive_setDive_other _ _ _ _ hy]
    show findDive p1 y = _
    exact hfp1other y hy

/-- Exact tracking of the split walk: folding add_dive_to_trip over a
list of members of the source trip moves them one by one onto the
fresh trip, preserving both trip start times, provided the source trip
keeps at least one member and every moved dive starts strictly after
both trips. -/
theorem split_fold_exact (otid ntid : Nat) (hne : otid ≠ ntid) (w0 wd : Int) :
    ∀ (rl : List Nat) (st : DLState) (Ocur Ncur : TripRec),
    Inv st →
    getTrip st otid = some Ocur → getTrip st ntid = some Ncur →
    Ocur.when = w0 → Ncur.when = wd →
    rl.Nodup →
    (∀ y ∈ rl, ∃ r, findDive st y = some r ∧ r.divetrip = some otid ∧
       w0 < r.when ∧ wd < r.when) →
    rl.length + 1 ≤ Ocur.dives.length →
    ∃ O' N',
      getTrip (rl.foldl (fun a x => add_dive_to_trip a x ntid) st) otid = some O' ∧
      getTrip (rl.foldl (fun a x => add_dive_to_trip a x ntid) st) ntid = some N' ∧
      O'.when = w0 ∧ N'.when = wd ∧
      N'.dives = rl.reverse ++ Ncur.dives ∧
      (O'.dives ++ rl).Perm Ocur.dives ∧
      O'.dives.length + rl.length = Ocur.dives.length ∧
      Inv (rl.foldl (fun a x => add_dive_to_trip a x ntid) st) ∧
      (∀ y, y ∉ rl →
        findDive (rl.foldl (fun a x => add_dive_to_trip a x ntid) st) y =
          findDive st y) ∧
      (∀ y ∈ rl, ∃ r0 r1, findDive st y = some r0 ∧
        findDive (rl.foldl (fun a x => add_dive_to_trip a x ntid) st) y = some r1 ∧
        r1.divetrip = some ntid ∧ r1.when = r0.when) := by
  intro rl
  induction rl with
  | nil =>
      intro st Ocur Ncur hinv hgO hgN hw0 hwd hnd hmem hlen
      refine ⟨Ocur, Ncur, hgO, hgN, hw0, hwd, by simp, by simp, by simp, hinv,
        fun y _ => rfl, fun y hy => absurd hy (List.not_mem_nil y)⟩
  | cons x tail ih =>
      intro st Ocur Ncur hinv hgO hgN hw0 hwd hnd hmem hlen
      obtain ⟨r, hfdx, hdtx, hrw0, hrwd⟩ := hmem x (List.mem_cons_self x tail)
      obtain ⟨hxtail, hndtail⟩ := List.nodup_cons.mp hnd
      obtain ⟨T, hTmem', hTtid', hxT, hgT'⟩ := owner_unique hinv.1 hfdx hdtx
      have hTO : T = Ocur := by
        rw [hgO] at hgT'
        exact (Option.some_injective _ hgT').symm
      have hxO : x ∈ Ocur.dives := by
        rw [← hTO]
        exact hxT
      have hOmem : Ocur ∈ st.trips := (getTrip_mem hgO).1
      have hOnr : Ocur.nrdives = Ocur.dives.length := by
        obtain ⟨-, -, -, hnrd, -, -, -⟩ := hinv.1
        exact hnrd Ocur hOmem
      have hlc : (x :: tail).length = tail.length + 1 := by
        rw [List.length_cons]
      have hnr1 : ¬ Ocur.nrdives - 1 = 0 := by
        rw [hOnr]
        rw [hlc] at hlen
        omega
      have hwne1 : ¬ Ocur.when = r.when := by
        rw [hw0]
        exact fun h => absurd hrw0 (by rw [h]; exact lt_irrefl _)
      have hnolow1 : ¬ (r.when ≠ 0 ∧ Ncur.when > r.when) := by
        rw [hwd]
        exact fun hc => absurd hrwd (not_lt_of_gt hc.2)
      have key := add_exact_plain st x otid ntid r Ocur Ncur hfdx hdtx hne hgO hgN
        hnr1 hwne1 hnolow1
      have hInv1 : Inv (add_dive_to_trip st x ntid) := inv_add st x ntid hinv
      have hgO1 : getTrip (add_dive_to_trip st x ntid) otid =
          some (decNr (eraseDive x Ocur)) := by
        rw [key]
        show getTrip (setTrip (setTrip (setDive (setTrip st otid (eraseDive x)) x
          clearTrip) otid decNr) ntid (pushDive x)) otid = _
        rw [getTrip_setTrip_other (f := pushDive x) (fun t => rfl) otid hne]
        rw [getTrip_setTrip_self (f := decNr) (fun t => rfl)]
        show (getTrip (setTrip st otid (eraseDive x)) otid).map decNr = _
        rw [getTrip_setTrip_self (f := eraseDive x) (fun t => rfl), hgO]
        rfl
      have hgN1 : getTrip (add_dive_to_trip st x ntid) ntid =
          some (pushDive x Ncur) := by
        rw [key]
        show getTrip (setTrip (setTrip (setDive (setTrip st otid (eraseDive x)) x
          clearTrip) otid decNr) ntid (pushDive x)) ntid = _
        rw [getTrip_setTrip_self (f := pushDive x) (fun t => rfl)]
        rw [getTrip_setTrip_other (f := decNr) (fun t => rfl) ntid
          (fun h => hne h.symm)]
        show ((getTrip (setTrip st otid (eraseDive x)) ntid).map (pushDive x)) = _
        rw [getTrip_setTrip_other (f := eraseDive x) (fun t => rfl) ntid
          (fun h => hne h.symm)]
        rw [hgN]
        rfl
      have hfd1x : findDive (add_dive_to_trip st x ntid) x =
          some (setOwner ntid (clearTrip r)) := by
        rw [key]
        rw [findDive_setDive_self]
        show (findDive (setDive (setTrip st otid (eraseDive x)) x clearTrip)
          x).map _ = _
        rw [findDive_setDive_self]
        show ((findDive st x).map clearTrip).map _ = _
        rw [hfdx]
        rfl
      have hf1other : ∀ y, y ≠ x →
          findDive (add_dive_to_trip st x ntid) y = findDive st y := by
        intro y hy
        rw [key]
        rw [findDive_setDive_other _ _ _ _ hy]
        show findDive (setDive (setTrip st otid (eraseDive x)) x clearTrip) y = _
        rw [findDive_setDive_other _ _ _ _ hy]
        rfl
      have hmemtail : ∀ y ∈ tail, ∃ r2, findDive (add_dive_to_trip st x ntid) y =
          some r2 ∧ r2.divetrip = some otid ∧ w0 < r2.when ∧ wd < r2.when := by
        intro y hy
        have hyx : y ≠ x := fun h => hxtail (h ▸ hy)
        obtain ⟨r2, hr2, ha, hb, hc⟩ := hmem y (List.mem_cons_of_mem x hy)
        exact ⟨r2, by rw [hf1other y hyx]; exact hr2, ha, hb, hc⟩
      have hlen1 : tail.length + 1 ≤ (decNr (eraseDive x Ocur)).dives.length := by
        show tail.length + 1 ≤ (Ocur.dives.erase x).length
        rw [List.length_erase_of_mem hxO]
        rw [hlc] at hlen
        omega
      obtain ⟨O', N', hgO', hgN', hw0', hwd', hNdv', hperm', hlen', hinv', hfr', hmv'⟩ :=
        ih (add_dive_to_trip st x ntid) (decNr (eraseDive x Ocur)) (pushDive x Ncur)
          hInv1 hgO1 hgN1 (by rw [decNr_when, eraseDive_when]; exact hw0)
          (by rw [pushDive_when]; exact hwd) hndtail hmemtail hlen1
      have hfold : (x :: tail).foldl (fun a y => add_dive_to_trip a y ntid) st =
          tail.foldl (fun a y => add_dive_to_trip a y ntid)
            (add_dive_to_trip st x ntid) := by
        rw [List.foldl_cons]
      refine ⟨O', N', by rw [hfold]; exact hgO', by rw [hfold]; exact hgN',
        hw0', hwd', ?_, ?_, ?_, by rw [hfold]; exact hinv', ?_, ?_⟩
      · rw [hNdv', pushDive_dives, List.reverse_cons, List.append_assoc]
        rfl
      · have hp2 : (O'.dives ++ tail).Perm (Ocur.dives.erase x) := hperm'
        exact (List.perm_middle.trans ((hp2.cons x).trans
          (List.perm_cons_erase hxO).symm))
      · have h1 : (Ocur.dives.erase x).length = Ocur.dives.length - 1 :=
          List.length_erase_of_mem hxO
        have h2 : O'.dives.length + tail.length = (Ocur.dives.erase x).length := hlen'
        have h3 : 0 < Ocur.dives.length :=
          List.length_pos.mpr (List.ne_nil_of_mem hxO)
        rw [List.length_cons]
        omega
      · intro y hy
        have hyx : y ≠ x := fun h => hy (h ▸ List.mem_cons_self x tail)
        have hyt : y ∉ tail := fun h => hy (List.mem_cons_of_mem x h)
        rw [hfold, hfr' y hyt]
        exact hf1other y hyx
      · intro y hy
        rw [hfold]
        rcases List.mem_cons.mp hy with rfl | hyt
        · refine ⟨r, setOwner ntid (clearTrip r), hfdx, ?_, rfl, rfl⟩
          rw [hfr' y hxtail]
          exact hfd1x
        · obtain ⟨r0, r1, h0, h1, h2, h3⟩ := hmv' y hyt
          have hyx : y ≠ x := fun h => hxtail (h ▸ hyt)
          refine ⟨r0, r1, ?_, h1, h2, h3⟩
          rw [← hf1other y hyx]
          exact h0

/-- Exact tracking of the merge-back loop: repeatedly moving the
source trip's chain head into the target trip empties the source trip
member by member; moving the final member deletes the source trip, so
the loop stops with the source gone and the target holding every moved
dive on top of its own members, its start time untouched. -/
theorem merge_loop_exact (otid ntid : Nat) (hne : otid ≠ ntid) (w0 wd : Int) :
    ∀ (ml : List Nat) (dlast : Nat) (st : DLState) (Ocur Ncur : TripRec),
    Inv st →
    getTrip st otid = some Ocur → getTrip st ntid = some Ncur →
    Ocur.when = w0 → Ncur.when = wd →
    Ncur.dives = ml ++ [dlast] →
    (ml ++ [dlast]).Nodup →
    (∀ y ∈ ml ++ [dlast], ∃ r, findDive st y = some r ∧ r.divetrip = some ntid ∧
       w0 < r.when) →
    (∀ y ∈ ml, ∀ r, findDive st y = some r → wd < r.when) →
    ∃ O',
      getTrip (merge_trips ntid otid (ml.length + 2) st) otid = some O' ∧
      O'.when = w0 ∧
      O'.dives.Perm ((ml ++ [dlast]) ++ Ocur.dives) ∧
      getTrip (merge_trips ntid otid (ml.length + 2) st) ntid = none ∧
      (∀ q ∈ (merge_trips ntid otid (ml.length + 2) st).trips, q.tid ≠ ntid) ∧
      Inv (merge_trips ntid otid (ml.length + 2) st) := by
  intro ml
  induction ml with
  | nil =>
      intro dlast st Ocur Ncur hinv hgO hgN hw0 hwd hdvN hnd hmem hmemWd
      obtain ⟨r, hfdl, hdtl, hrw0⟩ := hmem dlast (by simp)
      have hNmem : Ncur ∈ st.trips := (getTrip_mem hgN).1
      have hNnr : Ncur.nrdives = Ncur.dives.length := by
        obtain ⟨-, -, -, hnrd, -, -, -⟩ := hinv.1
        exact hnrd Ncur hNmem
      have hnr0 : Ncur.nrdives - 1 = 0 := by
        rw [hNnr, hdvN]
        rfl
      have hnolow : ¬ (r.when ≠ 0 ∧ Ocur.when > r.when) := by
        rw [hw0]
        exact fun hc => absurd hrw0 (not_lt_of_gt hc.2)
      have key := add_exact_delete st dlast ntid otid r Ncur Ocur hfdl hdtl
        (fun h => hne h.symm) hgN hgO hnr0 hnolow
      have hInv1 : Inv (add_dive_to_trip st dlast otid) := inv_add st dlast otid hinv
      have hndY : ((setTrip (setDive (setTrip st ntid (eraseDive dlast)) dlast
          clearTrip) ntid decNr).trips.map TripRec.tid).Nodup := by
        rw [map_tid_setTrip _ _ decNr (fun t => rfl)]
        show ((setTrip st ntid (eraseDive dlast)).trips.map TripRec.tid).Nodup
        rw [map_tid_setTrip _ _ (eraseDive dlast) (fun t => rfl)]
        exact hinv.1.2.1
      have hgO1 : getTrip (add_dive_to_trip st dlast otid) otid =
          some (pushDive dlast Ocur) := by
        rw [key]
        show getTrip (setTrip (delete_trip (setTrip (setDive (setTrip st ntid
          (eraseDive dlast)) dlast clearTrip) ntid decNr) ntid) otid
          (pushDive dlast)) otid = _
        rw [getTrip_setTrip_self (f := pushDive dlast) (fun t => rfl)]
        rw [getTrip_delete_other hne]
        rw [getTrip_setTrip_other (f := decNr) (fun t => rfl) otid hne]
        show ((getTrip (setTrip st ntid (eraseDive dlast)) otid).map _) = _
        rw [getTrip_setTrip_other (f := eraseDive dlast) (fun t => rfl) otid hne]
        rw [hgO]
        rfl
      have hgN1 : getTrip (add_dive_to_trip st dlast otid) ntid = none := by
        rw [key]
        show getTrip (setTrip (delete_trip (setTrip (setDive (setTrip st ntid
          (eraseDive dlast)) dlast clearTrip) ntid decNr) ntid) otid
          (pushDive dlast)) ntid = _
        rw [getTrip_setTrip_other (f := pushDive dlast) (fun t => rfl) ntid
          (fun h => hne h.symm)]
        exact getTrip_delete_self hndY
      have htne1 : ∀ q ∈ (add_dive_to_trip st dlast otid).trips, q.tid ≠ ntid := by
        intro q hq
        rw [key] at hq
        have hq' : q ∈ (setTrip (delete_trip (setTrip (setDive (setTrip st ntid
            (eraseDive dlast)) dlast clearTrip) ntid decNr) ntid) otid
            (pushDive dlast)).trips := hq
        obtain ⟨y, hy, rfl⟩ := mem_setTrip_trips.mp hq'
        have hyne := trips_delete_tid_ne hndY y hy
        by_cases hc : y.tid = otid
        · rw [if_pos hc]
          rw [pushDive_tid]
          exact hyne
        · rw [if_neg hc]
          exact hyne
      have hdvN2 : Ncur.dives = [dlast] := by
        rw [hdvN]
        rfl
      have hstep : merge_trips ntid otid ([] ++ [dlast] : List Nat).length.succ st =
          merge_trips ntid otid ([] : List Nat).length.succ
            (add_dive_to_trip st dlast otid) := by
        simp only [merge_trips, hgN, hdvN2]
      have hstop : merge_trips ntid otid 1 (add_dive_to_trip st dlast otid) =
          add_dive_to_trip st dlast otid := by
        simp only [merge_trips, hgN1]
      have hall : merge_trips ntid otid (([] : List Nat).length + 2) st =
          add_dive_to_trip st dlast otid := by
        show merge_trips ntid otid 2 st = _
        have h2 : merge_trips ntid otid 2 st =
            merge_trips ntid otid 1 (add_dive_to_trip st dlast otid) := hstep
        rw [h2, hstop]
      rw [hall]
      refine ⟨pushDive dlast Ocur, hgO1, by rw [pushDive_when]; exact hw0, ?_,
        hgN1, htne1, hInv1⟩
      rw [pushDive_dives]
      exact List.Perm.refl _
  | cons x tail ih =>
      intro dlast st Ocur Ncur hinv hgO hgN hw0 hwd hdvN hnd hmem hmemWd
      obtain ⟨r, hfdx, hdtx, hrw0⟩ := hmem x (by simp)
      have hrwd : wd < r.when := hmemWd x (List.mem_cons_self x tail) r hfdx
      have hNmem : Ncur ∈ st.trips := (getTrip_mem hgN).1
      have hNnr : Ncur.nrdives = Ncur.dives.length := by
        obtain ⟨-, -, -, hnrd, -, -, -⟩ := hinv.1
        exact hnrd Ncur hNmem
      have hdvN' : Ncur.dives = x :: (tail ++ [dlast]) := by
        rw [hdvN]
        rfl
      have hnr1 : ¬ Ncur.nrdives - 1 = 0 := by
        rw [hNnr, hdvN', List.length_cons, List.length_append]
        simp
      have hwne1 : ¬ Ncur.when = r.when := by
        rw [hwd]
        exact fun h => absurd hrwd (by rw [h]; exact lt_irrefl _)
      have hnolow1 : ¬ (r.when ≠ 0 ∧ Ocur.when > r.when) := by
        rw [hw0]
        exact fun hc => absurd hrw0 (not_lt_of_gt hc.2)
      have key := add_exact_plain st x ntid otid r Ncur Ocur hfdx hdtx
        (fun h => hne h.symm) hgN hgO hnr1 hwne1 hnolow1
      have hInv1 : Inv (add_dive_to_trip st x otid) := inv_add st x otid hinv
      have hgN1 : getTrip (add_dive_to_trip st x otid) ntid =
          some (decNr (eraseDive x Ncur)) := by
        rw [key]
        show getTrip (setTrip (setTrip (setDive (setTrip st ntid (eraseDive x)) x
          clearTrip) ntid decNr) otid (pushDive x)) ntid = _
        rw [getTrip_setTrip_other (f := pushDive x) (fun t => rfl) ntid
          (fun h => hne h.symm)]
        rw [getTrip_setTrip_self (f := decNr) (fun t => rfl)]
        show (getTrip (setTrip st ntid (eraseDive x)) ntid).map decNr = _
        rw [getTrip_setTrip_self (f := eraseDive x) (fun t => rfl), hgN]
        rfl
      have hgO1 : getTrip (add_dive_to_trip st x otid) otid =
          some (pushDive x Ocur) := by
        rw [key]
        show getTrip (setTrip (setTrip (setDive (setTrip st ntid (eraseDive x)) x
          clearTrip) ntid decNr) otid (pushDive x)) otid = _
        rw [getTrip_setTrip_self (f := pushDive x) (fun t => rfl)]
        rw [getTrip_setTrip_other (f := decNr) (fun t => rfl) otid hne]
        show ((getTrip (setTrip st ntid (eraseDive x)) otid).map (pushDive x)) = _
        rw [getTrip_setTrip_other (f := eraseDive x) (fun t => rfl) otid hne]
        rw [hgO]
        rfl
      have hf1other : ∀ y, y ≠ x →
          findDive (add_dive_to_trip st x otid) y = findDive st y := by
        intro y hy
        rw [key]
        rw [findDive_setDive_other _ _ _ _ hy]
        show findDive (setDive (setTrip st ntid (eraseDive x)) x clearTrip) y = _
        rw [findDive_setDive_other _ _ _ _ hy]
        rfl
      have hndtl : (tail ++ [dlast]).Nodup := (List.nodup_cons.mp hnd).2
      have hxtl : x ∉ tail ++ [dlast] := (List.nodup_cons.mp hnd).1
      have hdv1 : (decNr (eraseDive x Ncur)).dives = tail ++ [dlast] := by
        show Ncur.dives.erase x = _
        rw [hdvN']
        exact List.erase_cons_head x _
      have hmem1 : ∀ y ∈ tail ++ [dlast], ∃ r2,
          findDive (add_dive_to_trip st x otid) y = some r2 ∧
          r2.divetrip = some ntid ∧ w0 < r2.when := by
        intro y hy
        have hyx : y ≠ x := fun h => hxtl (h ▸ hy)
        obtain ⟨r2, h1, h2, h3⟩ := hmem y (List.mem_cons_of_mem x hy)
        exact ⟨r2, by rw [hf1other y hyx]; exact h1, h2, h3⟩
      have hmemWd1 : ∀ y ∈ tail, ∀ r2,
          findDive (add_dive_to_trip st x otid) y = some r2 → wd < r2.when := by
        intro y hy r2 h2
        have hyx : y ≠ x := fun h =>
          hxtl (h ▸ List.mem_append_left [dlast] hy)
        rw [hf1other y hyx] at h2
        exact hmemWd y (List.mem_cons_of_mem x hy) r2 h2
      obtain ⟨O', hgO', hw0', hperm', hgN', htne', hinv'⟩ :=
        ih dlast (add_dive_to_trip st x otid) (pushDive x Ocur)
          (decNr (eraseDive x Ncur)) hInv1 hgO1 hgN1
          (by rw [pushDive_when]; exact hw0)
          (by rw [decNr_when, eraseDive_when]; exact hwd)
          hdv1 hndtl hmem1 hmemWd1
      have hstep : merge_trips ntid otid ((x :: tail).length + 2) st =
          merge_trips ntid otid (tail.length + 2) (add_dive_to_trip st x otid) := by
        show merge_trips ntid otid ((tail.length + 2) + 1) st = _
        simp only [merge_trips, hgN, hdvN']
      rw [hstep]
      refine ⟨O', hgO', hw0', ?_, hgN', htne', hinv'⟩
      rw [pushDive_dives] at hperm'
      show O'.dives.Perm ((x :: (tail ++ [dlast])) ++ Ocur.dives)
      exact hperm'.trans List.perm_middle
/-- The C8 failing input: trip 1 (start 100) holds dives 10, 11, 12
at times 100, 200, 300, and a second trip (identifier 2) starts at
200 — the same timestamp as dive 11, the dive the split happens at. -/
def C8bad : DLState :=
  { dives :=
      [(10, ⟨100, 0, none, TripFlag.ASSIGNED_TRIP, some 1⟩),
       (11, ⟨200, 0, none, TripFlag.ASSIGNED_TRIP, some 1⟩),
       (12, ⟨300, 0, none, TripFlag.ASSIGNED_TRIP, some 1⟩),
       (20, ⟨200, 0, none, TripFlag.ASSIGNED_TRIP, some 2⟩)],
    trips :=
      [⟨1, 0, 100, none, none, false, 3, [12, 11, 10]⟩,
       ⟨2, 0, 200, none, none, false, 1, [20]⟩],
    nextTid := 3 }

/-- C8, counterexample: the round trip is not universal.  On a legal
registry where the split dive's timestamp equals another trip's start,
create_and_hookup_trip_from_dive routes the draft through
insert_trip's same-start merge, so the "new" trip is that other,
pre-existing trip (identifier 2 here); merging it back then absorbs
its member into the original trip and deletes it.  The final registry
is a single trip holding [20, 11, 12, 10] — no trip has the original
member set {12, 11, 10} — and trip 2 is gone. -/
theorem C8_equal_start_merge_absorbs :
    (WF C8bad ∧ StartInv C8bad ∧ NZ C8bad) ∧
    (split_trip C8bad 10 11 [12]).2 = 2 ∧
    getTrip (merge_trips (split_trip C8bad 10 11 [12]).2 1 3
      (split_trip C8bad 10 11 [12]).1) 1 =
      some ⟨1, 0, 100, none, none, false, 4, [20, 11, 12, 10]⟩ ∧
    (∀ t ∈ (merge_trips (split_trip C8bad 10 11 [12]).2 1 3
      (split_trip C8bad 10 11 [12]).1).trips, ¬ t.dives.Perm [12, 11, 10]) ∧
    getTrip (merge_trips (split_trip C8bad 10 11 [12]).2 1 3
      (split_trip C8bad 10 11 [12]).1) 2 = none := by decide

/-- C8 (amended): splitting a trip at a non-first member dive and
immediately merging the new trip back restores the original trip's
member set and start time, and the new trip is gone from the registry,
provided the split dive's timestamp differs from every registered
trip's start (otherwise the draft merges into the same-start trip),
the display order is consistent with time order (so the pre-split
timestamp fixup is a no-op), and the split dive and the members
displayed after it start strictly after the trip, at strictly
increasing times. -/
theorem C8_split_merge_roundtrip (s : DLState) (otid prevDid did : Nat)
    (after : List Nat) (d pd : DiveRec) (O : TripRec)
    (hinv : Inv s)
    (hgO : getTrip s otid = some O)
    (hfd : findDive s did = some d) (hdt : d.divetrip = some otid)
    (hfp : findDive s prevDid = some pd) (hord : ¬ d.when < pd.when)
    (hnd : (did :: after).Nodup)
    (haft : ∀ y ∈ after, ∃ r, findDive s y = some r ∧ r.divetrip = some otid ∧
       d.when < r.when)
    (hOmin : ∀ y ∈ did :: after, ∀ r, findDive s y = some r → O.when < r.when)
    (hfreshw : ∀ t ∈ s.trips, t.when ≠ d.when)
    (hsz : after.length + 2 ≤ O.dives.length) :
    ∃ O',
      getTrip (merge_trips (split_trip s prevDid did after).2 otid
        (after.length + 2) (split_trip s prevDid did after).1) otid = some O' ∧
      O'.dives.Perm O.dives ∧ O'.when = O.when ∧
      getTrip (merge_trips (split_trip s prevDid did after).2 otid
        (after.length + 2) (split_trip s prevDid did after).1)
        (split_trip s prevDid did after).2 = none ∧
      (∀ q ∈ (merge_trips (split_trip s prevDid did after).2 otid
        (after.length + 2) (split_trip s prevDid did after).1).trips,
        q.tid ≠ (split_trip s prevDid did after).2) := by
  have hOmem : O ∈ s.trips := (getTrip_mem hgO).1
  have hOtid : O.tid = otid := (getTrip_mem hgO).2
  have hONtid : otid ≠ s.nextTid := Nat.ne_of_lt (hOtid ▸ hinv.1.2.2.2.2.2.2 O hOmem)
  have hOnr : O.nrdives = O.dives.length := hinv.1.2.2.2.1 O hOmem
  have hnrO : ¬ O.nrdives - 1 = 0 := by
    rw [hOnr]
    omega
  have hOd : O.when < d.when := hOmin did (List.mem_cons_self did after) d hfd
  have hwO : ¬ O.when = d.when := fun h => absurd hOd (by rw [h]; exact lt_irrefl _)
  obtain ⟨T, hTm, hTt, hdidT, hgT2⟩ := owner_unique hinv.1 hfd hdt
  have hdidO : did ∈ O.dives := by
    rw [hgO] at hgT2
    have hTO : T = O := (Option.some_injective _ hgT2).symm
    rw [← hTO]
    exact hdidT
  have hdidaft : did ∉ after := (List.nodup_cons.mp hnd).1
  obtain ⟨stC, hcreate, hinvC, hgOC, hgNC, ⟨rC, hfdC, hdtC, hwC⟩, hfrC⟩ :=
    create_exact s did otid d O hinv hfd hdt hgO hnrO hwO hfreshw
  have hfix : (match findDive s did, findDive s prevDid with
    | some d, some pd =>
      if d.when < pd.when then
        match pd.divetrip with
        | some ptid =>
          match getTrip s ptid with
          | some ptr =>
            if ptr.when < pd.when then setTrip s ptid (setWhen pd.when)
            else s
          | none => s
        | none => s
      else s
    | _, _ => s) = s := by
    rw [hfd, hfp]
    show (if d.when < pd.when then _ else s) = s
    rw [if_neg hord]
  have hsp2 : (split_trip s prevDid did after).2 = s.nextTid := by
    simp only [split_trip, hfix, hcreate]
  have hsp1 : (split_trip s prevDid did after).1 =
      add_dive_to_trip
        ((after.reverse).foldl (fun a x => add_dive_to_trip a x s.nextTid) stC)
        did s.nextTid := by
    simp only [split_trip, hfix, hcreate]
  -- run the split-phase fold
  have hndrev : after.reverse.Nodup :=
    List.nodup_reverse.mpr (List.nodup_cons.mp hnd).2
  have hmemrev : ∀ y ∈ after.reverse, ∃ r, findDive stC y = some r ∧
      r.divetrip = some otid ∧ O.when < r.when ∧ d.when < r.when := by
    intro y hy
    have hy' : y ∈ after := List.mem_reverse.mp hy
    have hyd : y ≠ did := fun h => hdidaft (h ▸ hy')
    obtain ⟨r, h1, h2, h3⟩ := haft y hy'
    exact ⟨r, by rw [hfrC y hyd]; exact h1, h2,
      hOmin y (List.mem_cons_of_mem did hy') r h1, h3⟩
  have hlenrev : after.reverse.length + 1 ≤ (decNr (eraseDive did O)).dives.length := by
    show _ ≤ (O.dives.erase did).length
    rw [List.length_reverse, List.length_erase_of_mem hdidO]
    omega
  obtain ⟨O1, N1, hgO1, hgN1, hw01, hwd1, hNdv1, hperm1, hlen1, hinv1, hfr1, hmv1⟩ :=
    split_fold_exact otid s.nextTid hONtid O.when d.when after.reverse stC
      (decNr (eraseDive did O)) ⟨s.nextTid, 0, d.when, d.location, none, false, 1, [did]⟩
      hinvC hgOC hgNC (by rw [decNr_when, eraseDive_when]) rfl
      hndrev hmemrev hlenrev
  -- the final re-add of the split dive is a no-op
  have hdidrev : did ∉ after.reverse := fun h => hdidaft (List.mem_reverse.mp h)
  have hfdS : findDive ((after.reverse).foldl
      (fun a x => add_dive_to_trip a x s.nextTid) stC) did = some rC := by
    rw [hfr1 did hdidrev]
    exact hfdC
  have hnoop : add_dive_to_trip
      ((after.reverse).foldl (fun a x => add_dive_to_trip a x s.nextTid) stC)
      did s.nextTid =
      (after.reverse).foldl (fun a x => add_dive_to_trip a x s.nextTid) stC :=
    add_noop _ did s.nextTid rC hfdS hdtC
  rw [hsp2, hsp1, hnoop]
  -- run the merge-back loop
  have hndml : (after ++ [did]).Nodup := by
    refine (List.perm_append_singleton did after).nodup_iff.mpr ?_
    exact hnd
  have hmemml : ∀ y ∈ after ++ [did], ∃ r, findDive
      ((after.reverse).foldl (fun a x => add_dive_to_trip a x s.nextTid) stC) y =
      some r ∧ r.divetrip = some s.nextTid ∧ O.when < r.when := by
    intro y hy
    rcases List.mem_append.mp hy with hy' | hy'
    · obtain ⟨r0, r1, h0, h1, h2, h3⟩ := hmv1 y (List.mem_reverse.mpr hy')
      have hr0 : findDive stC y = some r0 := h0
      have hyd : y ≠ did := fun h => hdidaft (h ▸ hy')
      have hr0s : findDive s y = some r0 := by
        rw [← hfrC y hyd]
        exact hr0
      refine ⟨r1, h1, h2, ?_⟩
      rw [h3]
      exact hOmin y (List.mem_cons_of_mem did hy') r0 hr0s
    · rw [List.mem_singleton.mp hy']
      refine ⟨rC, hfdS, hdtC, ?_⟩
      rw [hwC]
      exact hOd
  have hmemWdml : ∀ y ∈ after, ∀ r, findDive
      ((after.reverse).foldl (fun a x => add_dive_to_trip a x s.nextTid) stC) y =
      some r → d.when < r.when := by
    intro y hy r hr
    obtain ⟨r0, r1, h0, h1, h2, h3⟩ := hmv1 y (List.mem_reverse.mpr hy)
    rw [h1] at hr
    rw [← Option.some_injective _ hr, h3]
    have hyd : y ≠ did := fun h => hdidaft (h ▸ hy)
    obtain ⟨r0', h1', h2', h3'⟩ := haft y hy
    have : r0' = r0 := by
      rw [hfrC y hyd] at h0
      exact Option.some_injective _ (h1'.symm.trans h0)
    rw [← this]
    exact h3'
  obtain ⟨Ofin, hgOfin, hwfin, hpermfin, hgNfin, htnefin, hinvfin⟩ :=
    merge_loop_exact otid s.nextTid hONtid O.when d.when after did
      ((after.reverse).foldl (fun a x => add_dive_to_trip a x s.nextTid) stC)
      O1 N1 hinv1 hgO1 hgN1 hw01 hwd1
      (by rw [hNdv1, List.reverse_reverse])
      hndml hmemml hmemWdml
  refine ⟨Ofin, hgOfin, ?_, hwfin, hgNfin, htnefin⟩
  -- assemble the permutation back to the original member list
  have hp1 : (O1.dives ++ after.reverse).Perm (O.dives.erase did) := hperm1
  have hp2 : ((after ++ [did]) ++ O1.dives).Perm (did :: (after ++ O1.dives)) := by
    have := (List.perm_append_singleton did after).append_right O1.dives
    exact this
  have hp3 : (after ++ O1.dives).Perm (O.dives.erase did) := by
    have ha : (after ++ O1.dives).Perm (O1.dives ++ after) := List.perm_append_comm
    have hb : (O1.dives ++ after).Perm (O1.dives ++ after.reverse) :=
      List.Perm.append_left O1.dives (List.reverse_perm after).symm
    exact (ha.trans hb).trans hp1
  exact hpermfin.trans ((hp2.trans (hp3.cons did)).trans
    (List.perm_cons_erase hdidO).symm)

/-- Concrete instance for C8: one trip (identifier 1, start 100) with
members 10, 11, 12 at times 100, 200, 300; the trip is split at dive
11 and merged back. -/
def C8state : DLState :=
  { dives :=
      [(10, ⟨100, 0, none, TripFlag.ASSIGNED_TRIP, some 1⟩),
       (11, ⟨200, 0, none, TripFlag.ASSIGNED_TRIP, some 1⟩),
       (12, ⟨300, 0, none, TripFlag.ASSIGNED_TRIP, some 1⟩)],
    trips := [⟨1, 0, 100, none, none, false, 3, [12, 11, 10]⟩],
    nextTid := 2 }

/-- Closed instance of C8 on the concrete registry. -/
theorem C8_split_merge_roundtrip_witness :
    ∃ O',
      getTrip (merge_trips (split_trip C8state 10 11 [12]).2 1 3
        (split_trip C8state 10 11 [12]).1) 1 = some O' ∧
      O'.dives.Perm [12, 11, 10] ∧ O'.when = 100 ∧
      getTrip (merge_trips (split_trip C8state 10 11 [12]).2 1 3
        (split_trip C8state 10 11 [12]).1) (split_trip C8state 10 11 [12]).2 =
        none ∧
      (∀ q ∈ (merge_trips (split_trip C8state 10 11 [12]).2 1 3
        (split_trip C8state 10 11 [12]).1).trips,
        q.tid ≠ (split_trip C8state 10 11 [12]).2) :=
  C8_split_merge_roundtrip C8state 1 10 11 [12]
    ⟨200, 0, none, TripFlag.ASSIGNED_TRIP, some 1⟩
    ⟨100, 0, none, TripFlag.ASSIGNED_TRIP, some 1⟩
    ⟨1, 0, 100, none, none, false, 3, [12, 11, 10]⟩
    (by decide) (by decide) (by decide) (by decide) (by decide) (by decide)
    (by decide)
    (by
      intro y hy
      rw [List.mem_singleton.mp hy]
      exact ⟨⟨300, 0, none, TripFlag.ASSIGNED_TRIP, some 1⟩, rfl, rfl, by decide⟩)
    (by
      intro y hy r hr
      rcases List.mem_cons.mp hy with rfl | hy2
      · have h2 : some (⟨200, 0, none, TripFlag.ASSIGNED_TRIP, some 1⟩ : DiveRec) =
            some r := hr
        rw [← Option.some_injective _ h2]
        decide
      · rw [List.mem_singleton.mp hy2] at hr
        have h2 : some (⟨300, 0, none, TripFlag.ASSIGNED_TRIP, some 1⟩ : DiveRec) =
            some r := hr
        rw [← Option.some_injective _ h2]
        decide)
    (by decide) (by decide)

end Divelist
